import Mathlib

/-!
conv-tools: the name classifier and rename engine `dirconv` and the line
converter `mixconv`.

A shallow embedding of `src/bin/dirconv/dirconv.c` (`classify`, `convertstr`,
`growbuf`, `dirconv_r`, the options of `main`) and of
`src/bin/mixconv/mixconv.c` (`mixconv`).

* A C string is a list of bytes; the end of the list stands for the
  terminating NUL, and a zero byte inside the list ends the string as well.
* `unsigned char` is `Fin 256`; every C operator is applied to the value
  promoted to `int`, which is the `Nat` value `b.val` here.
* `unsigned int` is a `Nat` reduced `% 2 ^ 32` wherever the C operation can
  wrap (`codepoint << 6`).
* `1U << k` is undefined in C once `k` reaches 32, the width of
  `unsigned int`; the embedding returns `none` there instead of a value.
* The library calls (`lstat`, `rename`, `opendir`, `readdir`, `realloc`,
  `iconv`) are parameters of the embedding; a write through a pointer into a
  block that `realloc` has moved gives `none` as well.
-/

namespace ConvTools

/-- An `unsigned char`. -/
abbrev Byte := Fin 256

/-- The enum `nameclass` of `dirconv.c`. -/
inductive nameclass where
  | nc_8bit
  | nc_ascii
  | nc_utf8
  | nc_wtf8
deriving DecidableEq, Repr

/-- The local variables of `classify` that live across loop iterations.
`j` is the number of continuation bytes that remain, `k` the number the
current sequence expects, `n8` the running count of 8-bit characters.
`k` is only ever reset, incremented or recomputed from zero, so it is a
natural number; `j` is decremented and stays an `Int`. -/
structure State where
  j : Int
  k : Nat
  n8 : Nat
  codepoint : Nat
deriving DecidableEq, Repr

/-- What one iteration of the `for` loop of `classify` does. -/
inductive Outcome where
  | next (s : State)
  | non_utf8
  | undefined
deriving DecidableEq, Repr

/-- The loop `for (mask = 0xe0, pattern = 0xc0; ++k < 7; mask = mask >> 1 | 0x80,
pattern = pattern >> 1 | 0x80)` with its body, lines 157-163. The first
argument bounds the number of evaluations of `++k < 7`; seven suffice from
`k = 0`. The result is the final `k` and the value assigned to `codepoint`,
if the body reached its `break`. `~mask` is the complement of the promoted
`int`, whose bit pattern is `0xFFFFFFFF ^^^ mask`. -/
def leadloop (b : Nat) : Nat → Nat → Nat → Nat → Nat × Option Nat
  | 0, k, _, _ => (k, none)
  | fuel + 1, k, mask, pattern =>
    if k + 1 < 7 then
      if b &&& mask = pattern then
        (k + 1, some (b &&& (0xFFFFFFFF ^^^ mask)))
      else
        leadloop b fuel (k + 1) ((mask >>> 1 ||| 0x80) % 256) ((pattern >>> 1 ||| 0x80) % 256)
    else (k + 1, none)

/-- The loop `for (k = 0; codepoint >= 1U << k; ++k);` of line 134. The
first argument is the number of shift counts that are still defined,
`32 - k`: when it is used up the next test would evaluate `1U << 32`. -/
def bitloop (codepoint : Nat) : Nat → Nat → Option Nat
  | 0, _ => none
  | w + 1, k =>
    if codepoint ≥ (1 <<< k) % 2 ^ 32 then bitloop codepoint w (k + 1) else some k

/-- One iteration of the scanning loop of `classify`, lines 98-167, for a
byte that is not the terminating NUL. -/
def step (s : State) (b : Byte) : Outcome :=
  if b.val &&& 0x80 = 0 then
    if s.k > 0 then .non_utf8 else .next s
  else if b.val &&& 0xc0 = 0x80 then
    if s.k = 0 then .non_utf8
    else
      let codepoint := ((s.codepoint <<< 6) % 2 ^ 32) ||| (b.val &&& 0x3f)
      if s.j - 1 = 0 then
        match bitloop codepoint 32 0 with
        | none => .undefined
        | some k =>
          if ((if s.k > 1 then (s.k : Int) * 5 + 1 else 7) + 1) > (k : Int) then .non_utf8
          else if codepoint > 0x10ffff then .non_utf8
          else .next { j := 0, k := 0, n8 := s.n8 + 1, codepoint := codepoint }
      else .next { j := s.j - 1, k := s.k, n8 := s.n8 + 1, codepoint := codepoint }
  else
    if s.k > 0 then .non_utf8
    else
      match leadloop b.val 7 s.k 0xe0 0xc0 with
      | (k, cp) =>
        if k = 7 then .non_utf8
        else .next { j := k, k := k, n8 := s.n8 + 1, codepoint := cp.getD s.codepoint }

/-- The code after the scanning loop, lines 169-185. -/
def finish (s : State) : nameclass :=
  if s.j ≠ 0 then .nc_8bit
  else if s.n8 > 0 then .nc_utf8
  else .nc_ascii

/-- The scanning loop of `classify` from a given state. -/
def scan : List Byte → State → Option nameclass
  | [], s => some (finish s)
  | b :: rest, s =>
    if b.val = 0 then some (finish s)
    else
      match step s b with
      | .next s' => scan rest s'
      | .non_utf8 => some .nc_8bit
      | .undefined => none

/-- The function `classify` of `dirconv.c`. `codepoint` is not initialised in
C; it is written by the lead-byte branch before the continuation branch
can read it (see `scan_codepoint_irrelevant`), so any start value does. -/
def classify (str : List Byte) : Option nameclass :=
  scan str { j := 0, k := 0, n8 := 0, codepoint := 0 }

/-- The table `tests` of `dirconv.c`, lines 400-429. -/
def tests : List (List Byte × nameclass) :=
  [ ([0x01], .nc_ascii),
    ([0xc2, 0x80], .nc_utf8),
    ([0xe0, 0xa0, 0x80], .nc_utf8),
    ([0xf0, 0x90, 0x80, 0x80], .nc_utf8),
    ([0xf8, 0x8f, 0x80, 0x80, 0x80], .nc_8bit),
    ([0xfc, 0x84, 0x80, 0x80, 0x80, 0x80], .nc_8bit),
    ([0x7f], .nc_ascii),
    ([0xdf, 0xbf], .nc_utf8),
    ([0xef, 0xbf, 0xbf], .nc_utf8),
    ([0xf7, 0xbf, 0xbf, 0xbf], .nc_8bit),
    ([0xfb, 0xbf, 0xbf, 0xbf, 0xbf], .nc_8bit),
    ([0xfd, 0xbf, 0xbf, 0xbf, 0xbf, 0xbf], .nc_8bit),
    ([0xc0, 0x80], .nc_8bit),
    ([0xe0, 0x80, 0x80], .nc_8bit),
    ([0xf0, 0x80, 0x80, 0x80], .nc_8bit),
    ([0xf8, 0x80, 0x80, 0x80, 0x80], .nc_8bit),
    ([0xfc, 0x80, 0x80, 0x80, 0x80, 0x80], .nc_8bit),
    ([0xf4, 0x8f, 0xbf, 0xbf], .nc_utf8),
    ([0xf4, 0x90, 0x80, 0x80], .nc_8bit) ]

/-- The characters of a C string: the bytes before the first NUL. -/
def cstr (s : List Byte) : List Byte :=
  s.takeWhile (fun b => decide (b.val ≠ 0))

/-- Conversion of an `int` value to `unsigned char`. -/
def toByte (n : Nat) : Byte :=
  ⟨n % 256, Nat.mod_lt n (by decide)⟩

/-- An `iconv_t` conversion descriptor, seen from outside: the bytes that a
complete conversion of the input produces when the output buffer is large
enough, or `none` when `iconv(3)` rejects the input. -/
abbrev Conv := List Byte → Option (List Byte)

/-- The function `convertstr` of `dirconv.c`. The output buffer holds
`2 * strlen(str)` bytes; a conversion that needs more makes `iconv(3)` fail
with `E2BIG`, and every failure of `iconv(3)` gives `NULL`. -/
def convertstr (conv : Conv) (str : List Byte) : Option (List Byte) :=
  match conv (cstr str) with
  | none => none
  | some out => if out.length ≤ 2 * (cstr str).length then some out else none

/-- Modelled from the spec: the UTF-8 bytes for one character of the default
legacy charset `iso8859-1`: a byte below 0x80 is kept, a byte `b` from 0x80 on
becomes the two bytes `0xC0 | (b >> 6)` and `0x80 | (b & 0x3F)`. -/
def latin1_bytes (b : Byte) : List Byte :=
  if b.val < 0x80 then [b]
  else [toByte (0xC0 ||| (b.val >>> 6)), toByte (0x80 ||| (b.val &&& 0x3F))]

/-- Modelled from the spec: the external `iconv(3)` conversion from the
default legacy charset `iso8859-1` to UTF-8 (the descriptor `fwdconv`). Every
byte is a character of `iso8859-1`, so the conversion never fails. -/
def latin1_to_utf8 : Conv := fun s => some (s.flatMap latin1_bytes)

/-- Modelled from the spec: the external `iconv(3)` conversion between a
7-bit legacy charset (`-f us-ascii`) and UTF-8, in either direction. A 7-bit
byte is kept; a byte from 0x80 on is not a character of the 7-bit charset
and makes the conversion fail. -/
def ascii_conv : Conv := fun s =>
  if s.all (fun b => decide (b.val < 0x80)) then some s else none

/-- The option counters of `dirconv.c` that `dirconv_r` reads; an option
is set when its counter is not zero. -/
structure Options where
  opt_0 : Nat
  opt_7 : Nat
  opt_8 : Nat
  opt_F : Nat
  opt_n : Nat
  opt_p : Nat
  opt_r : Nat
  opt_u : Nat
  opt_w : Nat
deriving DecidableEq, Repr

/-- The calls that produce a `warn` line in `dirconv_r`. -/
inductive Warning where
  | lstat
  | iconv
  | eexist
  | rename
  | opendir
  | readdir
deriving DecidableEq, Repr

/-- What `dirconv_r` writes: the name printed at line 315 with its
terminator, the line `old -> new` of line 330, and the `warn` lines. -/
inductive Event where
  | print (path : List Byte) (terminator : Byte)
  | plan (path utfpath : List Byte)
  | warn (w : Warning) (path : List Byte)
deriving DecidableEq, Repr

/-- The surroundings of `dirconv_r`: the two `iconv` descriptors, the
exclusion filter (`regexec` on the compiled `excl`, when `excl` is set), and
the library calls on a file system state of type `FS`. `lstat` gives
`S_ISDIR(sb.st_mode)` or fails; `rename` gives the new state or fails;
`opendir` fails or gives the directory stream, that is the names that the
calls of `readdir` return in turn and whether the last call ends the stream
with an error (`errno` set) instead of its end (the names are those of the
state in which the stream is opened: what the walk renames afterwards does
not change what the stream delivers); `moves` tells whether `realloc` from
one size to another gives a block at another address. -/
structure Env (FS : Type) where
  fwdconv : Conv
  revconv : Conv
  excl : Option (List Byte → Bool)
  lstat : FS → List Byte → Option Bool
  rename : FS → List Byte → List Byte → Option FS
  opendir : FS → List Byte → Option (List (List Byte) × Bool)
  moves : Nat → Nat → Bool

/-- The state that an iteration of the loop of `dirconv_r` reads and
writes: the file system, `errcnt`, the output so far, and the path buffer
(`pathbuf` holds the characters of `*pathbuf` before its NUL, `pathsize`
is `*pathsize`, and `bufaddr` stands for the pointer `*pathbuf` itself: it
changes whenever `realloc` moves the block). -/
structure Walk (FS : Type) where
  fs : FS
  errcnt : Nat
  out : List Event
  pathbuf : List Byte
  pathsize : Nat
  bufaddr : Nat

/-- The doubling loop of `growbuf`, line 234. The first argument bounds the
number of doublings. -/
def growloop : Nat → Nat → Nat → Nat
  | 0, _, tmpsize => tmpsize
  | fuel + 1, len, tmpsize =>
    if len + 1 ≥ tmpsize then growloop fuel len (tmpsize * 2) else tmpsize

/-- The size that `growbuf` stores in `*size`, for a length `len` from 0 on
whose `len + 1` does not overflow the `int` (`len + 1 < 2 ^ 31`), for sizes
that stay in the range of `size_t`, and a `realloc` that succeeds (when it
fails the caller leaves the program through `err`). A size of at least 64
exceeds `len + 1` after at most `len + 2` doublings. -/
def growbuf (size : Nat) (len : Nat) : Nat :=
  growloop (len + 2) len (if size < 64 then 64 else size)

/-- Lines 298-305 of `dirconv_r`: the class of an entry name, with the
upgrade of `nc_utf8` to `nc_wtf8`, and the value left in `utfname`. -/
def entry_class (revconv : Conv) (name : List Byte) :
    Option (nameclass × Option (List Byte)) :=
  match classify name with
  | none => none
  | some nc =>
    if nc = .nc_utf8 then
      match convertstr revconv name with
      | none => some (nc, none)
      | some utfname =>
        match classify utfname with
        | none => none
        | some nc2 =>
          if nc2 = .nc_utf8 then some (.nc_wtf8, some utfname)
          else some (nc, some utfname)
    else some (nc, none)

/-- The final class of an entry name in `dirconv_r`. -/
def final_class (revconv : Conv) (name : List Byte) : Option nameclass :=
  (entry_class revconv name).map Prod.fst

/-- The expression assigned to `selected`, lines 308-311. -/
def selected (o : Options) (nc : nameclass) : Bool :=
  (nc = .nc_ascii && o.opt_7 != 0) ||
  (nc = .nc_8bit && o.opt_8 != 0) ||
  (nc = .nc_utf8 && o.opt_u != 0) ||
  (nc = .nc_wtf8 && o.opt_w != 0)

/-- The pointer that `growbuf` stores in `*buf` when it changes the size
from `size` to `newsize`: the address of a new block if `realloc` moves the
block, the address it had otherwise. -/
def realloc_addr {FS : Type} (env : Env FS) (addr size newsize : Nat) : Nat :=
  if env.moves size newsize = true then addr + 1 else addr

/-- The condition of line 319 and what it leaves in `utfname`: the name that
the WTF-8 check left there, or else the forward transcoding of the entry name;
`none` is `NULL`. -/
def utf_candidate (fwdconv : Conv) (name : List Byte) (utfname : Option (List Byte)) :
    Option (List Byte) :=
  match utfname with
  | some u => some u
  | none => convertstr fwdconv name

/-- The rename block of `dirconv_r`, lines 318-352, for an entry whose
`lstat` succeeded: `path` is the entry path in the buffer, `isdir` is
`S_ISDIR(sb.st_mode)`, `nc` and `utfname` come from lines 298-305. The
result is the new state and the value of `entlen` afterwards. -/
def rename_block {FS : Type} (env : Env FS) (o : Options) (w : Walk FS) (pathlen : Nat)
    (name path : List Byte) (isdir : Bool) (nc : nameclass) (utfname : Option (List Byte)) :
    Walk FS × Nat :=
  let entlen := (cstr name).length
  if o.opt_r ≠ 0 ∧ selected o nc = true ∧ (nc = .nc_8bit ∨ nc = .nc_wtf8) then
    match utf_candidate env.fwdconv name utfname with
    | none =>
      ({ w with errcnt := w.errcnt + 1, out := w.out ++ [.warn .iconv (cstr name)] }, entlen)
    | some utfname =>
      let utflen := pathlen + 1 + (cstr utfname).length
      let utfsize := utflen + 1
      let utfpath := (cstr path).take pathlen ++ 0x2f :: cstr utfname
      let w1 := { w with out := w.out ++ [.plan (cstr path) utfpath] }
      if o.opt_n ≠ 0 then (w1, entlen)
      else if o.opt_F = 0 ∧ (env.lstat w1.fs utfpath).isSome then
        ({ w1 with errcnt := w1.errcnt + 1, out := w1.out ++ [.warn .eexist utfpath] }, entlen)
      else
        match env.rename w1.fs (cstr path) utfpath with
        | none =>
          ({ w1 with errcnt := w1.errcnt + 1, out := w1.out ++ [.warn .rename (cstr path)] },
            entlen)
        | some fs =>
          if isdir then
            ({ w1 with fs := fs, pathbuf := utfpath, pathsize := growbuf w1.pathsize utfsize,
                       bufaddr := realloc_addr env w1.bufaddr w1.pathsize
                         (growbuf w1.pathsize utfsize) },
              utflen - 1 - pathlen)
          else ({ w1 with fs := fs }, entlen)
  else (w, entlen)

/-- The exclusion filter of lines 276-277: `excl` is set and `regexec` finds a
match in the entry name. -/
def excluded (excl : Option (List Byte → Bool)) (name : List Byte) : Bool :=
  match excl with
  | some re => re (cstr name)
  | none => false

/-- The path of an entry as lines 288-289 build it in the buffer: the first
`pathlen` characters of the buffer, a slash and the entry name. -/
def entry_path {FS : Type} (w : Walk FS) (pathlen : Nat) (name : List Byte) : List Byte :=
  w.pathbuf.take pathlen ++ 0x2f :: cstr name

/-- The state after the call of `growbuf` at line 284 for an entry name. -/
def grown {FS : Type} (env : Env FS) (w : Walk FS) (pathlen : Nat) (name : List Byte) :
    Walk FS :=
  { w with
    pathsize := growbuf w.pathsize (pathlen + 1 + (cstr name).length)
    bufaddr := realloc_addr env w.bufaddr w.pathsize
      (growbuf w.pathsize (pathlen + 1 + (cstr name).length)) }

/-- One iteration of the `while` loop of `dirconv_r`, lines 268-359, for the
entry name that `readdir` returned, without the recursive call itself: the
result is the new state and, when the entry is a directory, the `pathlen`
argument of the recursive call of line 356. This is the part of the
iteration behind the test of the local pointer: `path` is taken to point at
the buffer `*pathbuf`, which holds at least `pathlen` characters. The
iteration as the loop runs it, with that test, is `iteration`; `dirconv_loop`
and the statements about an iteration go through the test. The result is
`none` when `classify` has no defined result. -/
def entry {FS : Type} (env : Env FS) (o : Options) (w : Walk FS) (pathlen : Nat)
    (name : List Byte) : Option (Walk FS × Option Nat) :=
  if cstr name = [0x2e] ∨ cstr name = [0x2e, 0x2e] then some (w, none)
  else if excluded env.excl name = true then some (w, none)
  else
    let path := entry_path w pathlen name
    let w0 := { grown env w pathlen name with pathbuf := path }
    match env.lstat w0.fs path with
    | none =>
      some ({ w0 with errcnt := w0.errcnt + 1, out := w0.out ++ [.warn .lstat path] }, none)
    | some isdir =>
      match entry_class env.revconv name with
      | none => none
      | some (nc, utfname) =>
        let w1 :=
          if o.opt_p ≠ 0 ∧ selected o nc = true then
            { w0 with out := w0.out ++ [.print path (if o.opt_0 ≠ 0 then 0 else 0x0a)] }
          else w0
        match rename_block env o w1 pathlen name path isdir nc utfname with
        | (w2, entlen) => some (w2, if isdir then some (pathlen + 1 + entlen) else none)

/-- The state in which an entry reaches the rename block: the path is in
the buffer and the name is printed if it is selected. -/
def printed {FS : Type} (env : Env FS) (o : Options) (w : Walk FS) (pathlen : Nat)
    (name : List Byte) (nc : nameclass) : Walk FS :=
  { fs := w.fs, errcnt := w.errcnt,
    out := w.out ++ (if o.opt_p ≠ 0 ∧ selected o nc = true then
      [.print (entry_path w pathlen name) (if o.opt_0 ≠ 0 then 0 else 0x0a)] else []),
    pathbuf := entry_path w pathlen name,
    pathsize := (grown env w pathlen name).pathsize,
    bufaddr := (grown env w pathlen name).bufaddr }

/-- What an iteration of the loop of `dirconv_r` wrote: the events that
`entry` added to the output. -/
def emitted {FS : Type} (w : Walk FS) (res : Option (Walk FS × Option Nat)) : List Event :=
  match res with
  | some (w', _) => w'.out.drop w.out.length
  | none => []

/-- The two paths of an event that is a line `old -> new`. -/
def plan_event (e : Event) : Option (List Byte × List Byte) :=
  match e with
  | .plan path utfpath => some (path, utfpath)
  | _ => none

/-- The rename that an iteration planned: the two paths of the line
`old -> new` that it wrote, if it wrote one. -/
def plan_of {FS : Type} (w : Walk FS) (res : Option (Walk FS × Option Nat)) :
    Option (List Byte × List Byte) :=
  (emitted w res).findSome? plan_event

/-- A rename is planned for the entry: the iteration obtained a candidate
name and wrote the line `old -> new`. -/
def planned {FS : Type} (w : Walk FS) (res : Option (Walk FS × Option Nat)) : Bool :=
  (plan_of w res).isSome

/-- The UTF-8 candidate name of an entry: what line 319 leaves in `utfname`
after the classification of lines 298-305. -/
def candidate {FS : Type} (env : Env FS) (name : List Byte) : Option (List Byte) :=
  match entry_class env.revconv name with
  | some (_, utfname) => utf_candidate env.fwdconv name utfname
  | none => none

/-- Modelled from the spec: the external `iconv(3)` conversion from UTF-8 to
the default legacy charset `iso8859-1` (the descriptor `revconv`). A 7-bit
byte is kept, a sequence `c2` or `c3` with one continuation byte gives the
character U+0080 to U+00FF as one byte, and any other input (a character that
`iso8859-1` does not have, or ill-formed UTF-8) makes the conversion fail. -/
def utf8_to_latin1 : List Byte → Option (List Byte)
  | [] => some []
  | b :: rest =>
    if b.val < 0x80 then (utf8_to_latin1 rest).map (fun r => b :: r)
    else
      match rest with
      | [] => none
      | c :: rest' =>
        if (b.val = 0xc2 ∨ b.val = 0xc3) ∧ 0x80 ≤ c.val ∧ c.val < 0xc0 then
          (utf8_to_latin1 rest').map
            (fun r => toByte ((b.val - 0xc0) * 64 + c.val % 64) :: r)
        else none

/-- The name of a path as an entry of a directory: what follows the
directory path and a slash, if that is not empty and has no further slash. -/
def child_name (dir path : List Byte) : Option (List Byte) :=
  if path.take (dir.length + 1) = dir ++ [0x2f] ∧ path.drop (dir.length + 1) ≠ [] ∧
      (0x2f : Byte) ∉ path.drop (dir.length + 1) then
    some (path.drop (dir.length + 1))
  else none

/-- An environment for examples: the given descriptors, no exclusion
filter, and a file system that is the list of the paths of its files, where
`rename` moves a path, every directory can be opened, and `realloc` moves
the block whenever it changes its size. -/
def list_env (fwdconv revconv : Conv) : Env (List (List Byte)) :=
  { fwdconv := fwdconv
    revconv := revconv
    excl := none
    lstat := fun fs path => if path ∈ fs then some false else none
    rename := fun fs path utfpath =>
      if path ∈ fs then some (utfpath :: fs.filter (fun q => q ≠ path ∧ q ≠ utfpath))
      else none
    opendir := fun fs dir => some (fs.filterMap (child_name dir), false)
    moves := fun size newsize => size != newsize }

/-- Options for examples: `-8 -r`. -/
def gate_options : Options :=
  { opt_0 := 0, opt_7 := 0, opt_8 := 1, opt_F := 0, opt_n := 0, opt_p := 0, opt_r := 1,
    opt_u := 0, opt_w := 0 }

/-- A walk for examples: the directory `/d` holds the file `e9`, the name
`é` in `iso8859-1`. -/
def cafe_walk : Walk (List (List Byte)) :=
  { fs := [[0x2f, 0x64, 0x2f, 0xe9]], errcnt := 0, out := [], pathbuf := [0x2f, 0x64],
    pathsize := 4096, bufaddr := 0 }

/-- A walk for examples: the directory `/d` holds the file `e9` and the file
`c3 a9`, its name in UTF-8. -/
def collision_walk : Walk (List (List Byte)) :=
  { fs := [[0x2f, 0x64, 0x2f, 0xe9], [0x2f, 0x64, 0x2f, 0xc3, 0xa9]], errcnt := 0, out := [],
    pathbuf := [0x2f, 0x64], pathsize := 4096, bufaddr := 0 }

/-- The tests of lines 270-280 that make the loop go on to the next entry
without touching the buffer: the entry is `.` or `..`, or it is excluded. -/
def skipped {FS : Type} (env : Env FS) (name : List Byte) : Bool :=
  decide (cstr name = [0x2e] ∨ cstr name = [0x2e, 0x2e]) || excluded env.excl name

/-- One iteration of the `while` loop of `dirconv_r`, lines 268-359, without
the recursive call, with the local pointer `path` as the iteration finds it.
An entry that is skipped does not touch the buffer. For any other entry
lines 288-289 write the entry path through `path`: when `path` does not point
at the buffer that `growbuf` left at line 284 the iteration has no defined
result. -/
def iteration {FS : Type} (env : Env FS) (o : Options) (w : Walk FS) (pathlen : Nat)
    (name : List Byte) (path : Nat) : Option (Walk FS × Option Nat) :=
  if skipped env name = true then some (w, none)
  else if path ≠ (grown env w pathlen name).bufaddr then none
  else entry env o w pathlen name

/-- The `while` loop of `dirconv_r`, lines 267-360, over the names that the
directory stream delivers. `descend` is the recursive call of line 356,
`path` is the value of the local pointer `path`. The assignments of lines
288-289 go through `path`: when `growbuf` has moved the block, or a call of
`descend` has, `path` no longer points at `*pathbuf` and the loop has no
defined result. After an iteration `path` points at the buffer: either line
346 has reloaded it or the block has not moved since line 284. -/
def dirconv_loop {FS : Type} (descend : Walk FS → Nat → Option (Walk FS)) (env : Env FS)
    (o : Options) (pathlen : Nat) : List (List Byte) → Walk FS → Nat → Option (Walk FS × Nat)
  | [], w, path => some (w, path)
  | name :: rest, w, path =>
    if skipped env name = true then dirconv_loop descend env o pathlen rest w path
    else if path ≠ (grown env w pathlen name).bufaddr then none
    else
      match entry env o w pathlen name with
      | none => none
      | some (w2, none) => dirconv_loop descend env o pathlen rest w2 w2.bufaddr
      | some (w2, some len) =>
        match descend w2 len with
        | none => none
        | some w3 => dirconv_loop descend env o pathlen rest w3 w2.bufaddr

/-- The end of `dirconv_r`, lines 361-371: the buffer is cut back to
`pathlen` characters through the local `path`, and a stream that ended with
an error is counted. -/
def dirconv_end {FS : Type} (w : Walk FS) (pathlen : Nat) (path : Nat) (readerr : Bool) :
    Option (Walk FS) :=
  if path ≠ w.bufaddr then none
  else if readerr = true then
    some { w with pathbuf := w.pathbuf.take pathlen, errcnt := w.errcnt + 1,
                  out := w.out ++ [.warn .readdir (w.pathbuf.take pathlen)] }
  else some { w with pathbuf := w.pathbuf.take pathlen }

/-- The function `dirconv_r` of `dirconv.c`. The first argument is the
number of directory streams that the process can still open: each call
keeps one open until it returns, and `opendir` fails when none is left. The
result is `none` when `classify` has no defined result for a name, or when
an assignment goes through a pointer `path` that no longer points at the
buffer. -/
def dirconv_r {FS : Type} : Nat → Env FS → Options → Walk FS → Nat → Option (Walk FS)
  | 0, _, _, w, _ =>
    some { w with errcnt := w.errcnt + 1, out := w.out ++ [.warn .opendir w.pathbuf] }
  | fds + 1, env, o, w, pathlen =>
    match env.opendir w.fs w.pathbuf with
    | none => some { w with errcnt := w.errcnt + 1, out := w.out ++ [.warn .opendir w.pathbuf] }
    | some (names, readerr) =>
      match dirconv_loop (dirconv_r fds env o) env o pathlen names w w.bufaddr with
      | none => none
      | some (w', path) => dirconv_end w' pathlen path readerr

/-- An environment for examples: a file system that is the list of its
paths, each with the mark of a directory; `rename` moves a path and what
lies below it, `opendir` lists the entries of a directory in the order of
the list, and `realloc` moves the block whenever it changes its size. -/
def tree_env (fwdconv revconv : Conv) : Env (List (List Byte × Bool)) :=
  { fwdconv := fwdconv
    revconv := revconv
    excl := none
    lstat := fun fs path => fs.lookup path
    rename := fun fs path utfpath =>
      match fs.lookup path with
      | none => none
      | some _ =>
        some ((fs.filter (fun q => q.1 ≠ utfpath)).map (fun q =>
          if q.1 = path then (utfpath, q.2)
          else if q.1.take (path.length + 1) = path ++ [0x2f] then
            (utfpath ++ q.1.drop path.length, q.2)
          else q))
    opendir := fun fs dir =>
      match fs.lookup dir with
      | some true => some (fs.filterMap (fun q => child_name dir q.1), false)
      | _ => none
    moves := fun size newsize => size != newsize }

/-- The events that report a collision or a failed rename, lines 336 and
340. -/
def rename_error : Event → Bool
  | .warn .eexist _ => true
  | .warn .rename _ => true
  | _ => false

/-- The events that are `warn` lines; each goes with one `++errcnt`. -/
def is_warning : Event → Bool
  | .warn _ _ => true
  | _ => false

/-- Options for examples: `-8 -r -n`, a dry run. -/
def dry_options : Options :=
  { opt_0 := 0, opt_7 := 0, opt_8 := 1, opt_F := 0, opt_n := 1, opt_p := 0, opt_r := 1,
    opt_u := 0, opt_w := 0 }

/-- A walk for examples: the directory `/d` holds the directory `e9` with
the file `e8` in it, and the file `a`. -/
def tree_walk : Walk (List (List Byte × Bool)) :=
  { fs := [([0x2f, 0x64], true), ([0x2f, 0x64, 0x2f, 0xe9], true),
           ([0x2f, 0x64, 0x2f, 0xe9, 0x2f, 0xe8], false), ([0x2f, 0x64, 0x2f, 0x61], false)],
    errcnt := 0, out := [], pathbuf := [0x2f, 0x64], pathsize := 4096, bufaddr := 0 }

/-- A walk for examples: a buffer of 64 bytes holds a directory path of 62
characters, and the directory holds the file `a`. -/
def long_walk : Walk (List (List Byte × Bool)) :=
  { fs := [(0x2f :: List.replicate 61 0x64, true),
           (0x2f :: List.replicate 61 0x64 ++ [0x2f, 0x61], false)],
    errcnt := 0, out := [], pathbuf := 0x2f :: List.replicate 61 0x64, pathsize := 64,
    bufaddr := 0 }

/-! ## The options of the command line (dirconv.c) -/

/-- The option counters at the start of `main`: static variables, all zero. -/
def no_options : Options :=
  { opt_0 := 0, opt_7 := 0, opt_8 := 0, opt_F := 0, opt_n := 0, opt_p := 0, opt_r := 0,
    opt_u := 0, opt_w := 0 }

/-- The `switch` of the option loop of `main`, lines 471-520, for one option
letter that `getopt` returned: the counters afterwards, or `none` where
`main` leaves the program (`usage` for `-h` and for a letter that is not an
option, `version` for `-v`). The letters `d`, `f`, `t` and `x` set variables
that are not among these counters. -/
def option_switch (o : Options) (opt : Char) : Option Options :=
  if opt = '0' then some { o with opt_0 := o.opt_0 + 1 }
  else if opt = '7' then some { o with opt_7 := o.opt_7 + 1 }
  else if opt = '8' then some { o with opt_8 := o.opt_8 + 1 }
  else if opt = 'd' then some o
  else if opt = 'F' then some { o with opt_F := o.opt_F + 1 }
  else if opt = 'f' then some o
  else if opt = 'n' then some { o with opt_n := o.opt_n + 1 }
  else if opt = 'p' then some { o with opt_p := o.opt_p + 1 }
  else if opt = 'r' then some { o with opt_r := o.opt_r + 1 }
  else if opt = 't' then some o
  else if opt = 'u' then some { o with opt_u := o.opt_u + 1 }
  else if opt = 'w' then some { o with opt_w := o.opt_w + 1 }
  else if opt = 'x' then some o
  else none

/-- The option loop of `main`, line 470, over the letters that `getopt`
returns one after the other. -/
def option_loop : List Char → Options → Option Options
  | [], o => some o
  | opt :: rest, o =>
    match option_switch o opt with
    | none => none
    | some o' => option_loop rest o'

/-- Lines 531-539 of `main`: `-n` clears `opt_0`, and the defaults `-8` and
`-p` are applied. -/
def normalise (o : Options) : Options :=
  let o1 := if o.opt_n ≠ 0 then { o with opt_0 := 0 } else o
  let o2 :=
    if ¬ (o1.opt_7 ≠ 0 ∨ o1.opt_8 ≠ 0 ∨ o1.opt_u ≠ 0 ∨ o1.opt_w ≠ 0) then
      { o1 with opt_8 := 1 }
    else o1
  if ¬ (o2.opt_r ≠ 0 ∨ o2.opt_p ≠ 0) then { o2 with opt_p := 1 } else o2

/-- The option counters with which `main` reaches the walk, lines 470-539,
for the option letters of the command line; `none` when `main` leaves the
program before (`-h`, `-v`, a letter that is not an option, or the test mode
`-t` of lines 526-529). -/
def main_options (letters : List Char) : Option Options :=
  match option_loop letters no_options with
  | none => none
  | some o => if 't' ∈ letters then none else some (normalise o)

/-! ## The line loop of mixconv (mixconv.c) -/

/-- The update of `prev3` in the loop of `mixconv`, lines 103-104: the window
moves on by one bit and takes bit 7 of the byte. -/
def window (prev3 : Nat) (b : Byte) : Nat :=
  (prev3 <<< 1 &&& 0x07) ||| (b.val >>> 7)

/-- The loop of `mixconv`, line 102, over the bytes `linebuf[0]` to
`linebuf[linelen]`: it goes on while bytes are left and `prev3` is not
`0x02`, and gives the final value of `prev3`. -/
def window_loop : List Byte → Nat → Nat
  | [], prev3 => prev3
  | b :: rest, prev3 => if prev3 ≠ 0x02 then window_loop rest (window prev3 b) else prev3

/-- One call of `iconv(3)` in the loop of lines 122-134, for the input that
is left and the room in the output buffer: the bytes written and the input
still to convert (not empty when the call fails with `E2BIG`), or `none`
when the call fails otherwise. -/
abbrev Iconv := List Byte → Nat → Option (List Byte × List Byte)

/-- The conversion loop of `mixconv`, lines 122-134: each round converts
into `convbuf`, which has room for 79 bytes, and writes the buffer with
`%s`. The first argument bounds the number of rounds; `none` stands for no
output at all: `errx` on a failed conversion, or a loop that does not end. -/
def recode (iconv : Iconv) : Nat → List Byte → Option (List Byte)
  | 0, _ => none
  | fuel + 1, input =>
    match iconv input 79 with
    | none => none
    | some (chunk, rest) =>
      if rest = [] then some (cstr chunk)
      else (recode iconv fuel rest).map (fun out => cstr chunk ++ out)

/-- The body of the loop of `mixconv`, lines 102-137, for one line that
`getline` returned: what is written to the output file. The line is the
`linelen` bytes read, and `linebuf[linelen]` is the NUL that `getline`
appends. A line whose window never is `0x02` is written with `%s`. -/
def mixconv_line (iconv : Iconv) (line : List Byte) : Option (List Byte) :=
  if window_loop (line ++ [0]) 0 ≠ 0x02 then some (cstr line)
  else recode iconv (line.length + 1) line

/-- The lines that `getline` returns for an input: each ends with its
newline, but for the last one if the input does not end with a newline. -/
def getlines : List Byte → List (List Byte)
  | [] => []
  | b :: rest =>
    if b.val = 0x0a then [b] :: getlines rest
    else
      match getlines rest with
      | [] => [[b]]
      | l :: ls => (b :: l) :: ls

/-- The output of the lines one after the other. -/
def mixconv_lines (iconv : Iconv) : List (List Byte) → Option (List Byte)
  | [] => some []
  | line :: rest =>
    match mixconv_line iconv line with
    | none => none
    | some out => (mixconv_lines iconv rest).map (fun r => out ++ r)

/-- The function `mixconv`, lines 74-142, on the bytes of the input file:
the bytes written to the output file. -/
def mixconv (iconv : Iconv) (input : List Byte) : Option (List Byte) :=
  mixconv_lines iconv (getlines input)

/-- Modelled from the spec: `iconv(3)` from `iso8859-1` to UTF-8 into a
buffer with `room` bytes. Each byte is converted while its UTF-8 form fits. -/
def latin1_iconv : Iconv
  | [], _ => some ([], [])
  | b :: rest, room =>
    if room < (latin1_bytes b).length then some ([], b :: rest)
    else
      match latin1_iconv rest (room - (latin1_bytes b).length) with
      | none => none
      | some (out, left) => some (latin1_bytes b ++ out, left)

/-- The array `test_input` of `mixconv.c`, lines 144-163. -/
def test_input : List Byte :=
  [0xc3, 0xa6, 0x20, 0xc3, 0xb8, 0x20, 0xc3, 0xa5, 0x0a,
   0x73, 0x6b, 0x6a, 0xe6, 0x72, 0x67, 0xe5, 0x72, 0x64, 0x73, 0xf8, 0x6c, 0x0a,
   0xf8, 0x73, 0x74, 0x0a,
   0x74, 0xf8, 0x73, 0x0a,
   0x73, 0x74, 0xf8, 0x0a,
   0xe5, 0x73, 0x0a,
   0x73, 0xe5, 0x0a,
   0xf8, 0x0a,
   0xe5, 0x00]

/-- The string `test_output` of `mixconv.c`, lines 165-174, in UTF-8. -/
def test_output : List Byte :=
  [0xc3, 0xa6, 0x20, 0xc3, 0xb8, 0x20, 0xc3, 0xa5, 0x0a,
   0x73, 0x6b, 0x6a, 0xc3, 0xa6, 0x72, 0x67, 0xc3, 0xa5, 0x72, 0x64, 0x73, 0xc3, 0xb8, 0x6c, 0x0a,
   0xc3, 0xb8, 0x73, 0x74, 0x0a,
   0x74, 0xc3, 0xb8, 0x73, 0x0a,
   0x73, 0x74, 0xc3, 0xb8, 0x0a,
   0xc3, 0xa5, 0x73, 0x0a,
   0x73, 0xc3, 0xa5, 0x0a,
   0xc3, 0xb8, 0x0a,
   0xc3, 0xa5]

/-! ## Further examples -/

/-- A walk for examples: a buffer of 64 bytes holds a directory path of 60
characters, and the directory holds the directory `sub`. -/
def deep_walk : Walk (List (List Byte × Bool)) :=
  { fs := [(0x2f :: List.replicate 59 0x64, true),
           (0x2f :: List.replicate 59 0x64 ++ [0x2f, 0x73, 0x75, 0x62], true)],
    errcnt := 0, out := [], pathbuf := 0x2f :: List.replicate 59 0x64, pathsize := 64,
    bufaddr := 0 }

/-- A walk for examples: the directory `/d` holds the file
`fe 82 80 80 80 80 80` and the file `e9`. -/
def fe_walk : Walk (List (List Byte × Bool)) :=
  { fs := [([0x2f, 0x64], true),
           ([0x2f, 0x64, 0x2f, 0xfe, 0x82, 0x80, 0x80, 0x80, 0x80, 0x80], false),
           ([0x2f, 0x64, 0x2f, 0xe9], false)],
    errcnt := 0, out := [], pathbuf := [0x2f, 0x64], pathsize := 4096, bufaddr := 0 }

/-! ## Vocabulary of the statements -/

/-- A continuation byte, `10xxxxxx`. -/
def is_cont (b : Byte) : Prop := 0x80 ≤ b.val ∧ b.val < 0xc0

instance (b : Byte) : Decidable (is_cont b) := by unfold is_cont; infer_instance

/-- The number of continuation bytes that `classify` expects after the
byte `b` when it meets `b` outside a sequence: the value of `k` after the
lead-byte loop (7 when no pattern matched). -/
def lead_k (b : Byte) : Nat := (leadloop b.val 7 0 0xe0 0xc0).1

/-- The code point accumulated from a start value and a run of continuation
bytes by line 115. -/
def accum (cp : Nat) (cs : List Byte) : Nat :=
  cs.foldl (fun cp c => (cp * 64) % 2 ^ 32 + c.val % 64) cp

/-- The name has no NUL among its bytes. -/
def nulfree (l : List Byte) : Prop := ∀ b ∈ l, b.val ≠ 0

instance (l : List Byte) : Decidable (nulfree l) := by unfold nulfree; infer_instance

/-- The names that `classify` accepts: it rates them `nc_ascii` or `nc_utf8`. -/
def accepts (l : List Byte) : Prop :=
  classify l = some .nc_ascii ∨ classify l = some .nc_utf8

instance (l : List Byte) : Decidable (accepts l) := by unfold accepts; infer_instance

/-- The lead byte mark of an `n`-byte sequence: `n` leading 1 bits and a 0
bit (`0xc0`, `0xe0`, `0xf0`, `0xf8`, `0xfc` for `n` from 2 to 6). -/
def leadmark (n : Nat) : Nat := 256 - 2 ^ (8 - n)

/-- Continuation byte number `i` (counted from the last one) of the value
`v`: `10xxxxxx` with bits `6 * i` to `6 * i + 5` of `v`. -/
def contbyte (v i : Nat) : Byte := toByte (0x80 + (v / 64 ^ i) % 64)

/-- The last `m` continuation bytes of the value `v`, in order. -/
def contbytes (v : Nat) : Nat → List Byte
  | 0 => []
  | m + 1 => contbyte v m :: contbytes v m

/-- The `n`-byte-pattern encoding of the value `v`: the lead byte with `n`
leading 1 bits carrying the top bits of `v`, then `n - 1` continuation
bytes. -/
def encode (n v : Nat) : List Byte :=
  toByte (leadmark n + v / 64 ^ (n - 1)) :: contbytes v (n - 1)

/-- The minimum code point of an `n`-byte sequence, for `n` from 2 to 6. -/
def mincp : Nat → Nat
  | 2 => 0x80
  | 3 => 0x800
  | 4 => 0x10000
  | 5 => 0x200000
  | 6 => 0x4000000
  | _ => 0

/-- The minimum code point of each UTF-8 sequence length from 1 to 4, the
first entries of the table `tests`: U+0001, U+0080, U+0800, U+10000. -/
def min_codepoint : Nat → Nat
  | 1 => 0x01
  | n => mincp n

/-- The shortest legal encoding of a code point: one byte below U+0080, and
the 2-, 3- or 4-byte pattern from U+0080, U+0800 and U+10000 on. -/
def utf8_encode (c : Nat) : List Byte :=
  if c < 0x80 then [toByte c]
  else if c < 0x800 then encode 2 c
  else if c < 0x10000 then encode 3 c
  else encode 4 c

/-- The bytes are a concatenation of shortest-form UTF-8 encodings, of 1 to
4 bytes each, of code points from U+0001 to U+10FFFF. -/
def utf8_concat (l : List Byte) : Prop :=
  ∃ cps : List Nat, (∀ c ∈ cps, 1 ≤ c ∧ c ≤ 0x10ffff) ∧ l = cps.flatMap utf8_encode

/-- The states of a scan that has met no byte `fe`: a sequence in progress
expects at most five continuation bytes and the code point accumulated so
far fits in the payload bits read so far. -/
def bounded (s : State) : Prop :=
  s.k = 0 ∨ ∃ i : Nat, s.j = i ∧ 1 ≤ i ∧ i ≤ s.k ∧ s.k ≤ 5 ∧
    s.codepoint < 2 ^ (6 - s.k + 6 * (s.k - i))

/-- What a walk that renames nothing may change: the file system is as it
was, the output grew by events none of which reports a collision or a failed
rename, and `errcnt` grew by the number of `warn` lines among them. -/
def quiet {FS : Type} (w w' : Walk FS) : Prop :=
  w'.fs = w.fs ∧ ∃ news, w'.out = w.out ++ news ∧
    w'.errcnt = w.errcnt + (news.filter is_warning).length ∧
    ∀ e ∈ news, rename_error e = false

/-- Bit 7 of a byte is set. -/
def bit7 (b : Byte) : Bool := decide (0x80 ≤ b.val)

/-- Bit 7 of the byte at index `i` of a line; the bytes after the line count
as NUL. -/
def high (line : List Byte) (i : Nat) : Bool := bit7 (line.getD i 0)

/-- The line contains an isolated high-bit byte: at some index `i` bit 7 is
set, at `i + 1` it is clear (the terminating NUL is the neighbour of the last
byte), and when `i > 0` it is clear at `i - 1`. -/
def isolated (line : List Byte) : Prop :=
  ∃ i, i < line.length ∧ high line i = true ∧ high line (i + 1) = false ∧
    (0 < i → high line (i - 1) = false)

/-- The value that a start value and a run of continuation bytes carry:
six more bits with each byte, in an accumulator without a width. -/
def payload (cp : Nat) (cs : List Byte) : Nat :=
  cs.foldl (fun cp c => cp * 64 + c.val % 64) cp

/-- The state in which the scanning loop of `classify` ends at the
terminating NUL, if no iteration before returns or is undefined. -/
def scan_state : List Byte → State → Option State
  | [], s => some s
  | b :: rest, s =>
    if b.val = 0 then some s
    else
      match step s b with
      | .next s' => scan_state rest s'
      | _ => none

/-- The states the scanning loop can be in at the top of an iteration:
outside a sequence (`j` and `k` both 0) or inside one (both positive). -/
def coherent (s : State) : Prop := (s.j = 0 ∧ s.k = 0) ∨ (0 < s.j ∧ s.k ≠ 0)

/-! ## Bytes -/

set_option maxRecDepth 100000 in
theorem byte_seven_bit : ∀ b : Byte, (b.val &&& 0x80 = 0 ↔ b.val < 0x80) := by decide

set_option maxRecDepth 100000 in
theorem byte_continuation :
    ∀ b : Byte, (b.val &&& 0xc0 = 0x80 ↔ 0x80 ≤ b.val ∧ b.val < 0xc0) := by decide

set_option maxRecDepth 100000 in
theorem byte_low6 : ∀ b : Byte, b.val &&& 0x3f = b.val % 64 := by decide

set_option maxRecDepth 100000 in
/-- The lead-byte loop as a table: which bytes start a sequence, how many
continuation bytes they announce and which payload bits they carry. -/
theorem leadloop_table : ∀ b : Byte, leadloop b.val 7 0 0xe0 0xc0 =
    if b.val < 0xc0 then (7, none)
    else if b.val < 0xe0 then (1, some (b.val - 0xc0))
    else if b.val < 0xf0 then (2, some (b.val - 0xe0))
    else if b.val < 0xf8 then (3, some (b.val - 0xf0))
    else if b.val < 0xfc then (4, some (b.val - 0xf8))
    else if b.val < 0xfe then (5, some (b.val - 0xfc))
    else if b.val < 0xff then (6, some 0)
    else (7, none) := by decide

/-- The accumulation of line 115 in arithmetic form. -/
theorem accumulate_eq (cp : Nat) (b : Byte) :
    ((cp <<< 6) % 2 ^ 32) ||| (b.val &&& 0x3f) = (cp * 64) % 2 ^ 32 + b.val % 64 := by
  rw [byte_low6, Nat.shiftLeft_eq]
  have h1 : (cp * 2 ^ 6) % 2 ^ 32 = 2 ^ 6 * (cp % 2 ^ 26) := by
    rw [Nat.mul_comm cp, show (2 : Nat) ^ 32 = 2 ^ 6 * 2 ^ 26 by norm_num, Nat.mul_mod_mul_left]
  have h2 : (cp * 64) % 2 ^ 32 = 2 ^ 6 * (cp % 2 ^ 26) := by
    rw [← h1]; norm_num
  rw [h1, h2]
  exact (Nat.mul_add_lt_is_or (Nat.mod_lt _ (by norm_num)) _).symm

theorem leadloop_fuel (b : Nat) : ∀ fuel k mask pattern : Nat, 1 ≤ fuel → 7 ≤ fuel + k →
    leadloop b (fuel + 1) k mask pattern = leadloop b fuel k mask pattern := by
  intro fuel
  induction fuel with
  | zero => intro k mask pattern h _; omega
  | succ f ih =>
    intro k mask pattern _ hk
    conv_lhs => rw [leadloop]
    conv_rhs => rw [leadloop]
    by_cases h7 : k + 1 < 7
    · rw [if_pos h7, if_pos h7]
      by_cases hm : b &&& mask = pattern
      · rw [if_pos hm, if_pos hm]
      · rw [if_neg hm, if_neg hm]
        exact ih (k + 1) _ _ (by omega) (by omega)
    · rw [if_neg h7, if_neg h7]

/-- Seven evaluations of `++k < 7` end the lead-byte loop: more fuel gives
the same result. -/
theorem leadloop_total (b n mask pattern : Nat) :
    leadloop b (7 + n) 0 mask pattern = leadloop b 7 0 mask pattern := by
  induction n with
  | zero => rfl
  | succ n ih =>
    rw [← ih, ← Nat.add_assoc]
    exact leadloop_fuel b (7 + n) 0 mask pattern (by omega) (by omega)

set_option maxRecDepth 100000 in
/-- The function `diagnostic`: every entry of the table `tests` passes. -/
theorem tests_pass : tests.all (fun t => classify t.1 == some t.2) = true := by decide

/-! ## The bit-length loop -/

theorem bitloop_aux (cp : Nat) : ∀ w k : Nat, w + k = 32 → (∀ m, m < k → 2 ^ m ≤ cp) →
    (cp < 2 ^ 31 → ∃ n, bitloop cp w k = some n ∧ n ≤ 31 ∧ cp < 2 ^ n ∧ ∀ m, m < n → 2 ^ m ≤ cp) ∧
    (2 ^ 31 ≤ cp → bitloop cp w k = none) := by
  intro w
  induction w with
  | zero =>
    intro k hk hlow
    refine ⟨fun h => ?_, fun _ => rfl⟩
    have := hlow 31 (by omega)
    omega
  | succ w ih =>
    intro k hk hlow
    have hk32 : k < 32 := by omega
    have hmod : (1 <<< k) % 2 ^ 32 = 2 ^ k := by
      rw [Nat.shiftLeft_eq, Nat.one_mul]
      exact Nat.mod_eq_of_lt (Nat.pow_lt_pow_right (by norm_num) hk32)
    unfold bitloop
    rw [hmod]
    by_cases hge : cp ≥ 2 ^ k
    · rw [if_pos hge]
      apply ih (k + 1) (by omega)
      intro m hm
      rcases Nat.lt_succ_iff_lt_or_eq.mp hm with h | h
      · exact hlow m h
      · rw [h]; exact hge
    · rw [if_neg hge]
      refine ⟨fun h => ⟨k, rfl, ?_, by omega, hlow⟩, fun h => ?_⟩
      · by_contra hk31
        have : k = 31 := by omega
        rw [this] at hge
        omega
      · exfalso
        have : (2 : Nat) ^ k ≤ 2 ^ 31 := Nat.pow_le_pow_right (by norm_num) (by omega)
        omega

/-- Below `2 ^ 31` the bit-length loop ends with the bit length of the code
point. -/
theorem bitloop_defined (cp : Nat) (h : cp < 2 ^ 31) :
    ∃ n, bitloop cp 32 0 = some n ∧ n ≤ 31 ∧ cp < 2 ^ n ∧ ∀ m, m < n → 2 ^ m ≤ cp :=
  (bitloop_aux cp 32 0 rfl (fun m hm => absurd hm (Nat.not_lt_zero m))).1 h

/-- From `2 ^ 31` on the bit-length loop reaches the shift `1U << 32`. -/
theorem bitloop_undefined (cp : Nat) (h : 2 ^ 31 ≤ cp) : bitloop cp 32 0 = none :=
  (bitloop_aux cp 32 0 rfl (fun m hm => absurd hm (Nat.not_lt_zero m))).2 h

/-! ## One iteration of the scanning loop -/

theorem step_seven_bit (s : State) (b : Byte) (hb : b.val < 0x80) :
    step s b = if s.k > 0 then .non_utf8 else .next s := by
  unfold step
  rw [if_pos ((byte_seven_bit b).2 hb)]

theorem step_continuation (s : State) (b : Byte) (hb : 0x80 ≤ b.val ∧ b.val < 0xc0)
    (hk : s.k ≠ 0) (hj : s.j ≠ 1) :
    step s b = .next { j := s.j - 1, k := s.k, n8 := s.n8 + 1,
                       codepoint := (s.codepoint * 64) % 2 ^ 32 + b.val % 64 } := by
  unfold step
  have h1 : ¬ (b.val &&& 0x80 = 0) := fun h => by have := (byte_seven_bit b).1 h; omega
  have h2 : s.j - 1 ≠ 0 := by omega
  rw [if_neg h1, if_pos ((byte_continuation b).2 hb), if_neg hk]
  simp only [accumulate_eq]
  rw [if_neg h2]

theorem step_last (s : State) (b : Byte) (hb : 0x80 ≤ b.val ∧ b.val < 0xc0)
    (hk : s.k ≠ 0) (hj : s.j = 1) (h31 : (s.codepoint * 64) % 2 ^ 32 + b.val % 64 < 2 ^ 31) :
    step s b =
      if (s.codepoint * 64) % 2 ^ 32 + b.val % 64 < 2 ^ (if s.k > 1 then s.k * 5 + 1 else 7) ∨
          0x10ffff < (s.codepoint * 64) % 2 ^ 32 + b.val % 64 then .non_utf8
      else .next { j := 0, k := 0, n8 := s.n8 + 1,
                   codepoint := (s.codepoint * 64) % 2 ^ 32 + b.val % 64 } := by
  unfold step
  have h1 : ¬ (b.val &&& 0x80 = 0) := fun h => by have := (byte_seven_bit b).1 h; omega
  have h2 : s.j - 1 = 0 := by omega
  rw [if_neg h1, if_pos ((byte_continuation b).2 hb), if_neg hk]
  simp only [accumulate_eq]
  rw [if_pos h2]
  obtain ⟨n, hn, _, hlt, hlow⟩ := bitloop_defined _ h31
  rw [hn]
  simp only
  generalize (s.codepoint * 64) % 2 ^ 32 + b.val % 64 = cp at *
  generalize hm : (if s.k > 1 then s.k * 5 + 1 else 7) = m
  have hm' : (if s.k > 1 then (s.k : Int) * 5 + 1 else 7) = (m : Int) := by
    rw [← hm]; split <;> simp
  rw [hm']
  by_cases hov : cp < 2 ^ m
  · have hnm : n ≤ m := by
      by_contra hcon
      have := hlow m (by omega)
      omega
    have : (m : Int) + 1 > (n : Int) := by omega
    rw [if_pos this, if_pos (Or.inl hov)]
  · have hnm : m < n := by
      by_contra hcon
      have : (2 : Nat) ^ n ≤ 2 ^ m := Nat.pow_le_pow_right (by norm_num) (by omega)
      omega
    have : ¬ ((m : Int) + 1 > (n : Int)) := by omega
    rw [if_neg this]
    by_cases hr : cp > 0x10ffff
    · rw [if_pos hr, if_pos (Or.inr hr)]
    · rw [if_neg hr, if_neg (by tauto)]

theorem step_last_undefined (s : State) (b : Byte) (hb : 0x80 ≤ b.val ∧ b.val < 0xc0)
    (hk : s.k ≠ 0) (hj : s.j = 1) (h31 : 2 ^ 31 ≤ (s.codepoint * 64) % 2 ^ 32 + b.val % 64) :
    step s b = .undefined := by
  unfold step
  have h1 : ¬ (b.val &&& 0x80 = 0) := fun h => by have := (byte_seven_bit b).1 h; omega
  have h2 : s.j - 1 = 0 := by omega
  rw [if_neg h1, if_pos ((byte_continuation b).2 hb), if_neg hk]
  simp only [accumulate_eq]
  rw [if_pos h2, bitloop_undefined _ h31]

theorem step_lead (s : State) (b : Byte) (hb : 0xc0 ≤ b.val) (hk : s.k = 0) :
    step s b =
      if (leadloop b.val 7 0 0xe0 0xc0).1 = 7 then .non_utf8
      else .next { j := (leadloop b.val 7 0 0xe0 0xc0).1, k := (leadloop b.val 7 0 0xe0 0xc0).1,
                   n8 := s.n8 + 1,
                   codepoint := (leadloop b.val 7 0 0xe0 0xc0).2.getD s.codepoint } := by
  unfold step
  have h1 : ¬ (b.val &&& 0x80 = 0) := fun h => by have := (byte_seven_bit b).1 h; omega
  have h2 : ¬ (b.val &&& 0xc0 = 0x80) := fun h => by have := (byte_continuation b).1 h; omega
  have h3 : ¬ (s.k > 0) := by omega
  rw [if_neg h1, if_neg h2, if_neg h3, hk]

/-! ## The scanning loop -/

theorem accum_cons (cp : Nat) (c : Byte) (cs : List Byte) :
    accum cp (c :: cs) = accum ((cp * 64) % 2 ^ 32 + c.val % 64) cs := rfl

/-- A run of continuation bytes shorter than what remains of the sequence
is consumed without any check. -/
theorem scan_continuations (cs : List Byte) : ∀ (s : State) (r : List Byte),
    (∀ c ∈ cs, is_cont c) → s.k ≠ 0 → (cs.length : Int) < s.j →
    scan (cs ++ r) s = scan r { j := s.j - cs.length, k := s.k, n8 := s.n8 + cs.length,
                                codepoint := accum s.codepoint cs } := by
  induction cs with
  | nil =>
    intro s r _ _ _
    simp [accum]
  | cons c cs ih =>
    intro s r hc hk hj
    have hcc : is_cont c := hc c (List.mem_cons_self _ _)
    have hc0 : c.val ≠ 0 := by unfold is_cont at hcc; omega
    simp only [List.length_cons, Nat.cast_add, Nat.cast_one] at hj
    have hj1 : s.j ≠ 1 := by omega
    rw [List.cons_append, scan, if_neg hc0, step_continuation s c hcc hk hj1]
    simp only
    rw [ih { j := s.j - 1, k := s.k, n8 := s.n8 + 1,
             codepoint := (s.codepoint * 64) % 2 ^ 32 + c.val % 64 } r
      (fun x hx => hc x (List.mem_cons_of_mem _ hx)) hk (by simp only; omega)]
    simp only [List.length_cons, Nat.cast_add, Nat.cast_one, accum_cons]
    congr 2
    · omega
    · omega

/-- A run of continuation bytes that completes the sequence: the check of
lines 117-146 decides on the accumulated code point. -/
theorem scan_completion (cs : List Byte) : ∀ (s : State) (r : List Byte),
    (∀ c ∈ cs, is_cont c) → s.k ≠ 0 → 0 < s.j → (cs.length : Int) = s.j →
    scan (cs ++ r) s =
      if 2 ^ 31 ≤ accum s.codepoint cs then none
      else if accum s.codepoint cs < 2 ^ (if s.k > 1 then s.k * 5 + 1 else 7) ∨
          0x10ffff < accum s.codepoint cs then some .nc_8bit
      else scan r { j := 0, k := 0, n8 := s.n8 + cs.length,
                    codepoint := accum s.codepoint cs } := by
  induction cs with
  | nil =>
    intro s r _ _ hj hlen
    simp only [List.length_nil, Nat.cast_zero] at hlen
    omega
  | cons c cs ih =>
    intro s r hc hk hj hlen
    have hcc : is_cont c := hc c (List.mem_cons_self _ _)
    have hc0 : c.val ≠ 0 := by unfold is_cont at hcc; omega
    simp only [List.length_cons, Nat.cast_add, Nat.cast_one] at hlen
    rw [List.cons_append, scan, if_neg hc0, accum_cons]
    cases cs with
    | nil =>
      simp only [List.length_nil, Nat.cast_zero, zero_add] at hlen
      simp only [accum, List.foldl_nil, List.length_singleton, List.nil_append]
      by_cases h31 : 2 ^ 31 ≤ (s.codepoint * 64) % 2 ^ 32 + c.val % 64
      · rw [step_last_undefined s c hcc hk hlen.symm h31, if_pos h31]
      · rw [step_last s c hcc hk hlen.symm (by omega), if_neg h31]
        by_cases hbad : (s.codepoint * 64) % 2 ^ 32 + c.val % 64
            < 2 ^ (if s.k > 1 then s.k * 5 + 1 else 7) ∨
            0x10ffff < (s.codepoint * 64) % 2 ^ 32 + c.val % 64
        · rw [if_pos hbad, if_pos hbad]
        · rw [if_neg hbad, if_neg hbad]
    | cons c2 cs2 =>
      have hj1 : s.j ≠ 1 := by
        simp only [List.length_cons, Nat.cast_add, Nat.cast_one] at hlen
        omega
      rw [step_continuation s c hcc hk hj1]
      simp only
      rw [ih { j := s.j - 1, k := s.k, n8 := s.n8 + 1,
               codepoint := (s.codepoint * 64) % 2 ^ 32 + c.val % 64 } r
        (fun x hx => hc x (List.mem_cons_of_mem _ hx)) hk (by simp only; omega)
        (by simp only [List.length_cons, Nat.cast_add, Nat.cast_one] at hlen ⊢; omega)]
      simp only [List.length_cons]
      have : s.n8 + 1 + (cs2.length + 1) = s.n8 + (cs2.length + 1 + 1) := by omega
      rw [this]

set_option maxRecDepth 100000 in
theorem leadloop_k_pos : ∀ b : Byte, (leadloop b.val 7 0 0xe0 0xc0).1 ≠ 0 := by decide

set_option maxRecDepth 100000 in
theorem leadloop_codepoint : ∀ b : Byte, (leadloop b.val 7 0 0xe0 0xc0).1 ≠ 7 →
    (leadloop b.val 7 0 0xe0 0xc0).2 ≠ none := by decide

theorem byte_cases (b : Byte) : b.val < 0x80 ∨ is_cont b ∨ 0xc0 ≤ b.val := by
  unfold is_cont; omega

theorem step_continuation_idle (s : State) (b : Byte) (hb : is_cont b) (hk : s.k = 0) :
    step s b = .non_utf8 := by
  unfold step
  have h1 : ¬ (b.val &&& 0x80 = 0) := fun h => by
    have := (byte_seven_bit b).1 h; unfold is_cont at hb; omega
  rw [if_neg h1, if_pos ((byte_continuation b).2 hb), if_pos hk]

theorem step_lead_busy (s : State) (b : Byte) (hb : 0xc0 ≤ b.val) (hk : s.k ≠ 0) :
    step s b = .non_utf8 := by
  unfold step
  have h1 : ¬ (b.val &&& 0x80 = 0) := fun h => by have := (byte_seven_bit b).1 h; omega
  have h2 : ¬ (b.val &&& 0xc0 = 0x80) := fun h => by have := (byte_continuation b).1 h; omega
  rw [if_neg h1, if_neg h2, if_pos (Nat.pos_of_ne_zero hk)]

/-- The four ways in which an iteration of the scanning loop goes on to the
next byte. -/
theorem step_next (s s' : State) (b : Byte) (h : step s b = .next s') :
    (b.val < 0x80 ∧ s.k = 0 ∧ s' = s) ∨
    (is_cont b ∧ s.k ≠ 0 ∧ s.j ≠ 1 ∧
      s' = { j := s.j - 1, k := s.k, n8 := s.n8 + 1,
             codepoint := (s.codepoint * 64) % 2 ^ 32 + b.val % 64 }) ∨
    (is_cont b ∧ s.k ≠ 0 ∧ s.j = 1 ∧
      (s.codepoint * 64) % 2 ^ 32 + b.val % 64 < 2 ^ 31 ∧
      2 ^ (if s.k > 1 then s.k * 5 + 1 else 7) ≤ (s.codepoint * 64) % 2 ^ 32 + b.val % 64 ∧
      (s.codepoint * 64) % 2 ^ 32 + b.val % 64 ≤ 0x10ffff ∧
      s' = { j := 0, k := 0, n8 := s.n8 + 1,
             codepoint := (s.codepoint * 64) % 2 ^ 32 + b.val % 64 }) ∨
    (0xc0 ≤ b.val ∧ s.k = 0 ∧ lead_k b ≠ 7 ∧
      s' = { j := lead_k b, k := lead_k b, n8 := s.n8 + 1,
             codepoint := (leadloop b.val 7 0 0xe0 0xc0).2.getD s.codepoint }) := by
  rcases byte_cases b with hb | hb | hb
  · rw [step_seven_bit s b hb] at h
    by_cases hk : s.k > 0
    · rw [if_pos hk] at h; cases h
    · rw [if_neg hk] at h
      cases h
      exact Or.inl ⟨hb, by omega, rfl⟩
  · by_cases hk : s.k = 0
    · rw [step_continuation_idle s b hb hk] at h; cases h
    · by_cases hj1 : s.j = 1
      · by_cases h31 : 2 ^ 31 ≤ (s.codepoint * 64) % 2 ^ 32 + b.val % 64
        · rw [step_last_undefined s b hb hk hj1 h31] at h; cases h
        · rw [step_last s b hb hk hj1 (by omega)] at h
          by_cases hbad : (s.codepoint * 64) % 2 ^ 32 + b.val % 64
              < 2 ^ (if s.k > 1 then s.k * 5 + 1 else 7) ∨
              0x10ffff < (s.codepoint * 64) % 2 ^ 32 + b.val % 64
          · rw [if_pos hbad] at h; cases h
          · rw [if_neg hbad] at h
            cases h
            rw [not_or] at hbad
            exact Or.inr (Or.inr (Or.inl ⟨hb, hk, hj1, by omega, by omega, by omega, rfl⟩))
      · rw [step_continuation s b hb hk hj1] at h
        cases h
        exact Or.inr (Or.inl ⟨hb, hk, hj1, rfl⟩)
  · by_cases hk : s.k = 0
    · rw [step_lead s b hb hk] at h
      by_cases h7 : (leadloop b.val 7 0 0xe0 0xc0).1 = 7
      · rw [if_pos h7] at h; cases h
      · rw [if_neg h7] at h
        cases h
        exact Or.inr (Or.inr (Or.inr ⟨hb, hk, h7, rfl⟩))
    · rw [step_lead_busy s b hb hk] at h; cases h

/-- The loop invariant of `classify`: `j` and `k` are zero together. -/
theorem step_coherent (s s' : State) (b : Byte) (hs : coherent s)
    (h : step s b = .next s') : coherent s' := by
  rcases step_next s s' b h with ⟨_, _, rfl⟩ | ⟨_, hk, hj1, rfl⟩ | ⟨_, _, _, _, _, _, rfl⟩ |
    ⟨_, _, h7, rfl⟩
  · exact hs
  · right
    refine ⟨?_, hk⟩
    show 0 < s.j - 1
    rcases hs with ⟨_, h0⟩ | ⟨hj, _⟩
    · exact absurd h0 hk
    · omega
  · exact Or.inl ⟨rfl, rfl⟩
  · right
    have := leadloop_k_pos b
    refine ⟨?_, this⟩
    show (0 : Int) < ((lead_k b : Nat) : Int)
    unfold lead_k
    omega

theorem step_n8 (s s' : State) (b : Byte) (h : step s b = .next s') :
    (b.val < 0x80 ∧ s'.n8 = s.n8) ∨ (0x80 ≤ b.val ∧ s'.n8 = s.n8 + 1) := by
  rcases step_next s s' b h with ⟨hb, _, rfl⟩ | ⟨hb, _, _, rfl⟩ | ⟨hb, _, _, _, _, _, rfl⟩ |
    ⟨hb, _, _, rfl⟩
  · exact Or.inl ⟨hb, rfl⟩
  · exact Or.inr ⟨hb.1, rfl⟩
  · exact Or.inr ⟨hb.1, rfl⟩
  · exact Or.inr ⟨by omega, rfl⟩

/-- A name that the scan accepts leaves the loop outside a sequence, and the
scan of a longer name goes on from that state. -/
theorem scan_append (p : List Byte) : ∀ s : State, coherent s → nulfree p →
    (scan p s = some .nc_ascii ∨ scan p s = some .nc_utf8) →
    ∃ s' : State, s'.j = 0 ∧ s'.k = 0 ∧ s.n8 ≤ s'.n8 ∧
      scan p s = some (finish s') ∧ ∀ r, scan (p ++ r) s = scan r s' := by
  induction p with
  | nil =>
    intro s hs _ hacc
    have hj : s.j = 0 := by
      by_contra hne
      simp [scan, finish, hne] at hacc
    have hk : s.k = 0 := by
      rcases hs with ⟨_, h⟩ | ⟨h, _⟩
      · exact h
      · omega
    exact ⟨s, hj, hk, le_refl _, rfl, fun r => rfl⟩
  | cons b p ih =>
    intro s hs hnul hacc
    have hb0 : b.val ≠ 0 := hnul b (List.mem_cons_self _ _)
    rw [scan, if_neg hb0] at hacc
    cases hstep : step s b with
    | non_utf8 => rw [hstep] at hacc; simp at hacc
    | undefined => rw [hstep] at hacc; simp at hacc
    | next s1 =>
      rw [hstep] at hacc
      simp only at hacc
      obtain ⟨s', hj, hk, hn8, hfin, hrest⟩ :=
        ih s1 (step_coherent s s1 b hs hstep) (fun x hx => hnul x (List.mem_cons_of_mem _ hx)) hacc
      have hmono : s.n8 ≤ s1.n8 := by
        rcases step_n8 s s1 b hstep with ⟨_, h⟩ | ⟨_, h⟩ <;> omega
      refine ⟨s', hj, hk, le_trans hmono hn8, ?_, fun r => ?_⟩
      · rw [scan, if_neg hb0, hstep]
        exact hfin
      · rw [List.cons_append, scan, if_neg hb0, hstep]
        exact hrest r

/-- The start value of `codepoint` does not matter: outside a sequence the
scan never reads it before the lead-byte branch has written it. -/
theorem scan_codepoint_irrelevant (l : List Byte) : ∀ n8 cp cp' : Nat,
    scan l { j := 0, k := 0, n8 := n8, codepoint := cp } =
      scan l { j := 0, k := 0, n8 := n8, codepoint := cp' } := by
  induction l with
  | nil => intro n8 cp cp'; rfl
  | cons b l ih =>
    intro n8 cp cp'
    by_cases hb0 : b.val = 0
    · rw [scan, scan, if_pos hb0, if_pos hb0]; rfl
    · rw [scan, scan, if_neg hb0, if_neg hb0]
      rcases byte_cases b with hb | hb | hb
      · rw [step_seven_bit _ b hb, step_seven_bit _ b hb]
        simp only [gt_iff_lt, lt_self_iff_false, if_false]
        exact ih n8 cp cp'
      · rw [step_continuation_idle _ b hb rfl, step_continuation_idle _ b hb rfl]
      · rw [step_lead _ b hb rfl, step_lead _ b hb rfl]
        by_cases h7 : (leadloop b.val 7 0 0xe0 0xc0).1 = 7
        · rw [if_pos h7, if_pos h7]
        · rw [if_neg h7, if_neg h7]
          cases hc : (leadloop b.val 7 0 0xe0 0xc0).2 with
          | none => exact absurd hc (leadloop_codepoint b h7)
          | some c => rfl

/-! ## Encoded sequences -/

theorem toByte_val (n : Nat) (h : n < 256) : (toByte n).val = n := by
  simp [toByte, Nat.mod_eq_of_lt h]

theorem contbyte_val (v i : Nat) : (contbyte v i).val = 0x80 + (v / 64 ^ i) % 64 := by
  unfold contbyte
  apply toByte_val
  omega

theorem contbyte_is_cont (v i : Nat) : is_cont (contbyte v i) := by
  unfold is_cont
  rw [contbyte_val]
  omega

theorem contbytes_is_cont (v : Nat) : ∀ m, ∀ c ∈ contbytes v m, is_cont c := by
  intro m
  induction m with
  | zero => intro c hc; simp [contbytes] at hc
  | succ m ih =>
    intro c hc
    rw [contbytes, List.mem_cons] at hc
    rcases hc with rfl | hc
    · exact contbyte_is_cont v m
    · exact ih c hc

theorem contbytes_length (v : Nat) : ∀ m, (contbytes v m).length = m := by
  intro m
  induction m with
  | zero => rfl
  | succ m ih => rw [contbytes, List.length_cons, ih]

/-- Accumulating the continuation bytes of `v` appends the low bits of `v`. -/
theorem accum_contbytes (v : Nat) : ∀ m cp : Nat, cp * 64 ^ m + v % 64 ^ m < 2 ^ 32 →
    accum cp (contbytes v m) = cp * 64 ^ m + v % 64 ^ m := by
  intro m
  induction m with
  | zero =>
    intro cp _
    simp [contbytes, accum, Nat.mod_one]
  | succ m ih =>
    intro cp h
    rw [contbytes, accum_cons, contbyte_val]
    have hmod : v % 64 ^ (m + 1) = v % 64 ^ m + 64 ^ m * ((v / 64 ^ m) % 64) := Nat.mod_pow_succ
    have hpow : 64 ^ (m + 1) = 64 ^ m * 64 := pow_succ 64 m
    have hP : 0 < 64 ^ m := pow_pos (by norm_num) m
    have hd64 : (v / 64 ^ m) % 64 < 64 := Nat.mod_lt _ (by norm_num)
    rw [hmod, hpow] at h ⊢
    generalize 64 ^ m = P at *
    generalize (v / P) % 64 = d at *
    have h64 : cp * 64 < 2 ^ 32 := by
      have : cp * 64 * 1 ≤ cp * 64 * P := Nat.mul_le_mul_left _ hP
      have e : cp * (P * 64) = cp * 64 * P := by ring
      omega
    have hd : (128 + d) % 64 = d := by omega
    rw [Nat.mod_eq_of_lt h64, hd, ih (cp * 64 + d) (by
      have e : (cp * 64 + d) * P = cp * (P * 64) + P * d := by ring
      omega)]
    ring


/-- The lead byte of the `n`-byte pattern announces `n - 1` continuation
bytes and carries the top bits of the value. -/
theorem leadloop_encode (n v : Nat) (hn : 2 ≤ n) (hn6 : n ≤ 6) (hv : v < 2 ^ (5 * n + 1)) :
    (toByte (leadmark n + v / 64 ^ (n - 1))).val = leadmark n + v / 64 ^ (n - 1) ∧
    0xc0 ≤ leadmark n + v / 64 ^ (n - 1) ∧
    leadloop (toByte (leadmark n + v / 64 ^ (n - 1))).val 7 0 0xe0 0xc0 =
      (n - 1, some (v / 64 ^ (n - 1))) := by
  have key : ∀ x : Nat, x < 256 → 0xc0 ≤ x → ∀ k q : Nat,
      ((if x < 0xc0 then ((7 : Nat), (none : Option Nat))
        else if x < 0xe0 then (1, some (x - 0xc0))
        else if x < 0xf0 then (2, some (x - 0xe0))
        else if x < 0xf8 then (3, some (x - 0xf0))
        else if x < 0xfc then (4, some (x - 0xf8))
        else if x < 0xfe then (5, some (x - 0xfc))
        else if x < 0xff then (6, some 0)
        else (7, none)) = (k, some q)) →
      (toByte x).val = x ∧ 0xc0 ≤ x ∧ leadloop (toByte x).val 7 0 0xe0 0xc0 = (k, some q) := by
    intro x hx hc k q h
    refine ⟨toByte_val x hx, hc, ?_⟩
    rw [leadloop_table, toByte_val x hx]
    exact h
  interval_cases n <;> norm_num at hv <;> refine key _ ?_ ?_ _ _ ?_ <;>
    norm_num [leadmark] <;> (try omega)
  all_goals
    split_ifs <;> (try omega)
  all_goals rfl


/-- The scan of a complete `n`-byte pattern met outside a sequence: the
value is rejected when it is below the minimum of its length or above
U+10FFFF, and the scan goes on behind it otherwise. -/
theorem scan_encode (n v : Nat) (hn : 2 ≤ n) (hn6 : n ≤ 6) (hv : v < 2 ^ (5 * n + 1))
    (s : State) (hk : s.k = 0) (r : List Byte) :
    scan (encode n v ++ r) s =
      if v < mincp n ∨ 0x10ffff < v then some .nc_8bit
      else scan r { j := 0, k := 0, n8 := s.n8 + n, codepoint := v } := by
  obtain ⟨hval, hc0, hlead⟩ := leadloop_encode n v hn hn6 hv
  have hv31 : v < 2 ^ 31 :=
    lt_of_lt_of_le hv (Nat.pow_le_pow_right (by norm_num) (by omega))
  have hb0 : (toByte (leadmark n + v / 64 ^ (n - 1))).val ≠ 0 := by rw [hval]; omega
  unfold encode
  rw [List.cons_append, scan, if_neg hb0, step_lead s _ (by rw [hval]; exact hc0) hk, hlead]
  have h7 : ¬ (n - 1 = 7) := by omega
  simp only [if_neg h7, Option.getD_some]
  have hacc : accum (v / 64 ^ (n - 1)) (contbytes v (n - 1)) = v := by
    rw [accum_contbytes v (n - 1) (v / 64 ^ (n - 1)) (by
      rw [Nat.div_add_mod']; omega)]
    exact Nat.div_add_mod' v _
  rw [scan_completion (contbytes v (n - 1)) _ r (contbytes_is_cont v (n - 1)) (by simp only; omega)
    (by simp only; omega) (by simp only [contbytes_length])]
  simp only [hacc, contbytes_length]
  rw [if_neg (by omega)]
  have hmin : 2 ^ (if n - 1 > 1 then (n - 1) * 5 + 1 else 7) = mincp n := by
    interval_cases n <;> rfl
  rw [hmin]
  have hn8 : s.n8 + 1 + (n - 1) = s.n8 + n := by omega
  rw [hn8]

/-! ## Names of 7-bit characters -/

theorem cstr_nil : cstr [] = [] := rfl

theorem cstr_cons_nul (b : Byte) (l : List Byte) (hb : b.val = 0) : cstr (b :: l) = [] := by
  simp [cstr, List.takeWhile, hb]

theorem cstr_cons (b : Byte) (l : List Byte) (hb : b.val ≠ 0) :
    cstr (b :: l) = b :: cstr l := by
  simp [cstr, List.takeWhile, hb]

theorem cstr_of_nulfree (l : List Byte) (h : nulfree l) : cstr l = l := by
  induction l with
  | nil => rfl
  | cons b l ih =>
    rw [cstr_cons b l (h b (List.mem_cons_self _ _)),
      ih (fun x hx => h x (List.mem_cons_of_mem _ hx))]

theorem finish_ascii (s : State) : finish s = .nc_ascii ↔ s.j = 0 ∧ s.n8 = 0 := by
  unfold finish
  by_cases hj : s.j = 0
  · by_cases hn : s.n8 = 0
    · simp [hj, hn]
    · have : s.n8 > 0 := Nat.pos_of_ne_zero hn
      simp [hj, hn, this]
  · simp [hj]

theorem scan_ascii_only (l : List Byte) : ∀ s : State, scan l s = some .nc_ascii →
    s.n8 = 0 ∧ ∀ b ∈ cstr l, b.val < 0x80 := by
  induction l with
  | nil =>
    intro s h
    rw [scan, Option.some.injEq, finish_ascii] at h
    exact ⟨h.2, by simp [cstr_nil]⟩
  | cons b l ih =>
    intro s h
    by_cases hb0 : b.val = 0
    · rw [scan, if_pos hb0, Option.some.injEq, finish_ascii] at h
      exact ⟨h.2, by simp [cstr_cons_nul b l hb0]⟩
    · rw [scan, if_neg hb0] at h
      cases hstep : step s b with
      | non_utf8 => rw [hstep] at h; simp at h
      | undefined => rw [hstep] at h; simp at h
      | next s1 =>
        rw [hstep] at h
        obtain ⟨hn, hall⟩ := ih s1 h
        rcases step_n8 s s1 b hstep with ⟨hb, h1⟩ | ⟨_, h1⟩
        · refine ⟨by omega, fun x hx => ?_⟩
          rw [cstr_cons b l hb0, List.mem_cons] at hx
          rcases hx with rfl | hx
          · exact hb
          · exact hall x hx
        · omega

theorem scan_of_seven_bit (l : List Byte) : ∀ s : State, s.j = 0 → s.k = 0 →
    (∀ b ∈ cstr l, b.val < 0x80) → scan l s = some (finish s) := by
  induction l with
  | nil => intro s _ _ _; rfl
  | cons b l ih =>
    intro s hj hk hall
    by_cases hb0 : b.val = 0
    · rw [scan, if_pos hb0]
    · rw [cstr_cons b l hb0] at hall
      have hb : b.val < 0x80 := hall b (List.mem_cons_self _ _)
      rw [scan, if_neg hb0, step_seven_bit s b hb, if_neg (by omega)]
      exact ih s hj hk (fun x hx => hall x (List.mem_cons_of_mem _ hx))

/-- Claim C2. For every name, `classify` returns `nc_ascii` if and only if no
byte of the name (the bytes up to the terminating NUL) is 0x80 or more; in
particular a name made only of bytes 0x01 to 0x7F is rated `nc_ascii`, and so
is the empty name. -/
theorem classify_ascii_iff (name : List Byte) :
    (classify name = some .nc_ascii ↔ ∀ b ∈ cstr name, b.val < 0x80) ∧
    ((∀ b ∈ name, 0x01 ≤ b.val ∧ b.val ≤ 0x7f) → classify name = some .nc_ascii) ∧
    classify [] = some .nc_ascii := by
  have hiff : classify name = some .nc_ascii ↔ ∀ b ∈ cstr name, b.val < 0x80 := by
    constructor
    · intro h
      exact (scan_ascii_only name _ h).2
    · intro h
      unfold classify
      rw [scan_of_seven_bit name _ rfl rfl h]
      rfl
  refine ⟨hiff, fun h => ?_, rfl⟩
  apply hiff.2
  intro b hb
  have hmem : b ∈ name := List.takeWhile_subset _ hb
  have := h b hmem
  omega

set_option maxRecDepth 100000 in
/-- The name `abc` is made of 7-bit bytes and is rated `nc_ascii`. -/
theorem classify_ascii_iff_witness :
    (∀ b ∈ ([0x61, 0x62, 0x63] : List Byte), 0x01 ≤ b.val ∧ b.val ≤ 0x7f) ∧
    classify [0x61, 0x62, 0x63] = some .nc_ascii :=
  ⟨by decide, (classify_ascii_iff [0x61, 0x62, 0x63]).2.1 (by decide)⟩

/-! ## Overlong, out-of-range and truncated sequences -/

/-- Claim C3. Overlong encodings are rejected: for every sequence length `n`
from 2 to 6 and every value `v` below the minimum code point of that length,
the `n`-byte-pattern encoding of `v` makes `classify` return `nc_8bit`,
whether it stands alone or follows a prefix that `classify` accepts, and
whatever bytes follow it. -/
theorem overlong_rejected (p s : List Byte) (n v : Nat) (hp : nulfree p) (ha : accepts p)
    (hn : 2 ≤ n) (hn6 : n ≤ 6) (hv : v < mincp n) :
    classify (p ++ encode n v ++ s) = some .nc_8bit := by
  obtain ⟨s', _, hk, _, _, hrest⟩ :=
    scan_append p { j := 0, k := 0, n8 := 0, codepoint := 0 } (Or.inl ⟨rfl, rfl⟩) hp ha
  have hv' : v < 2 ^ (5 * n + 1) := by
    interval_cases n <;> simp only [mincp] at hv <;> norm_num <;> omega
  unfold classify
  rw [List.append_assoc, hrest, scan_encode n v hn hn6 hv' s' hk s, if_pos (Or.inl hv)]

set_option maxRecDepth 100000 in
/-- The overlong two-byte form `c0 af` of the slash between `a` and `b`. -/
theorem overlong_rejected_witness :
    classify ([0x61] ++ encode 2 0x2f ++ [0x62]) = some .nc_8bit :=
  overlong_rejected [0x61] [0x62] 2 0x2f (by decide) (by decide) (by decide) (by decide)
    (by decide)

theorem accum_lt (cs : List Byte) : ∀ cp a : Nat, cp < 2 ^ a → a + 6 * cs.length ≤ 32 →
    accum cp cs < 2 ^ (a + 6 * cs.length) := by
  induction cs with
  | nil => intro cp a h _; simpa [accum] using h
  | cons c cs ih =>
    intro cp a h hle
    rw [List.length_cons] at hle
    rw [accum_cons]
    have h6 : (2 : Nat) ^ (a + 6) = 2 ^ a * 64 := by rw [pow_add]; norm_num
    have hcp : cp * 64 % 2 ^ 32 + c.val % 64 < 2 ^ (a + 6) := by
      have := Nat.mod_le (cp * 64) (2 ^ 32)
      have := Nat.mod_lt c.val (show 0 < 64 by norm_num)
      rw [h6]
      omega
    have := ih _ (a + 6) hcp (by omega)
    rw [List.length_cons]
    have e : a + 6 * (cs.length + 1) = a + 6 + 6 * cs.length := by ring
    rw [e]
    exact this

/-- A complete sequence of five or six bytes is rejected whatever it carries. -/
theorem scan_long_sequence (b : Byte) (cs r : List Byte) (s : State) (hk : s.k = 0)
    (hb : 0xf8 ≤ b.val) (hb' : b.val < 0xfe) (hcs : ∀ c ∈ cs, is_cont c)
    (hlen : cs.length = lead_k b) : scan (b :: cs ++ r) s = some .nc_8bit := by
  have hb0 : b.val ≠ 0 := by omega
  have htab := leadloop_table b
  rw [if_neg (by omega), if_neg (by omega), if_neg (by omega), if_neg (by omega)] at htab
  rw [List.cons_append, scan, if_neg hb0, step_lead s b (by omega) hk]
  unfold lead_k at hlen
  by_cases h5 : b.val < 0xfc
  · rw [if_pos h5] at htab
    rw [htab] at hlen ⊢
    simp only at hlen
    simp only [if_neg (show ¬ (4 = 7) by decide), Option.getD_some]
    have hA := accum_lt cs (b.val - 0xf8) 2 (by norm_num; omega) (by omega)
    rw [hlen] at hA
    rw [scan_completion cs _ r hcs (by simp) (by simp) (by simp [hlen])]
    simp only
    rw [if_neg (by norm_num at hA ⊢; omega), if_pos (by norm_num; omega)]
  · rw [if_neg h5, if_pos hb'] at htab
    rw [htab] at hlen ⊢
    simp only at hlen
    simp only [if_neg (show ¬ (5 = 7) by decide), Option.getD_some]
    have hA := accum_lt cs (b.val - 0xfc) 1 (by norm_num; omega) (by omega)
    rw [hlen] at hA
    rw [scan_completion cs _ r hcs (by simp) (by simp) (by simp [hlen])]
    simp only
    rw [if_neg (by norm_num at hA ⊢; omega), if_pos (by norm_num; omega)]

/-- Claim C4. The maximum code point is accepted and what lies beyond is
rejected: `classify` returns `nc_utf8` for `f4 8f bf bf`, the 4-byte encoding
of U+10FFFF, and `nc_8bit` for the 4-byte-pattern encoding of every value from
0x110000 to 0x1FFFFF (the lowest being `f4 90 80 80`) and for every complete
5-byte or 6-byte pattern sequence, whatever value it carries. -/
theorem out_of_range_rejected :
    classify [0xf4, 0x8f, 0xbf, 0xbf] = some .nc_utf8 ∧
    encode 4 0x10ffff = [0xf4, 0x8f, 0xbf, 0xbf] ∧
    encode 4 0x110000 = [0xf4, 0x90, 0x80, 0x80] ∧
    (∀ v : Nat, 0x110000 ≤ v → v ≤ 0x1fffff → classify (encode 4 v) = some .nc_8bit) ∧
    (∀ (b : Byte) (cs : List Byte), 0xf8 ≤ b.val → b.val < 0xfe → (∀ c ∈ cs, is_cont c) →
      cs.length = (if b.val < 0xfc then 4 else 5) → classify (b :: cs) = some .nc_8bit) := by
  refine ⟨by decide, by decide, by decide, fun v hlo hhi => ?_, fun b cs hb hb' hcs hlen => ?_⟩
  · have := scan_encode 4 v (by norm_num) (by norm_num) (by norm_num; omega)
      { j := 0, k := 0, n8 := 0, codepoint := 0 } rfl []
    rw [List.append_nil] at this
    unfold classify
    rw [this, if_pos (Or.inr (by omega))]
  · have hk : cs.length = lead_k b := by
      unfold lead_k
      rw [leadloop_table b, if_neg (by omega), if_neg (by omega), if_neg (by omega),
        if_neg (by omega), hlen]
      by_cases h5 : b.val < 0xfc
      · rw [if_pos h5, if_pos h5]
      · rw [if_neg h5, if_neg h5, if_pos hb']
    have := scan_long_sequence b cs [] { j := 0, k := 0, n8 := 0, codepoint := 0 } rfl hb hb'
      hcs hk
    rw [List.append_nil] at this
    exact this

set_option maxRecDepth 100000 in
/-- The lowest value beyond U+10FFFF and a 5-byte sequence for U+200000. -/
theorem out_of_range_rejected_witness :
    classify (encode 4 0x110000) = some .nc_8bit ∧
    classify [0xf8, 0x88, 0x80, 0x80, 0x80] = some .nc_8bit :=
  ⟨out_of_range_rejected.2.2.2.1 0x110000 (by decide) (by decide),
   out_of_range_rejected.2.2.2.2 0xf8 [0x88, 0x80, 0x80, 0x80] (by decide) (by decide)
     (by decide) (by decide)⟩

/-- Claim C5 as stated fails for the length 1: the one-byte encoding `01` of
the minimum code point U+0001 is rated `nc_ascii`, not `nc_utf8`. -/
theorem min_codepoint_one_not_utf8 :
    utf8_encode (min_codepoint 1) = [0x01] ∧
    classify (utf8_encode (min_codepoint 1)) = some .nc_ascii ∧
    classify (utf8_encode (min_codepoint 1)) ≠ some .nc_utf8 := by decide

/-- Claim C5, amended. The shortest encoding of the minimum code point is
rated `nc_ascii` for the length 1 and `nc_utf8` for the lengths 2, 3 and 4
(`c2 80`, `e0 a0 80`, `f0 90 80 80`); the overlong encoding of the same code
point, one byte longer, is rated `nc_8bit` for each length from 1 to 4. -/
theorem min_codepoint_classes :
    classify (utf8_encode (min_codepoint 1)) = some .nc_ascii ∧
    (∀ n ∈ [2, 3, 4], classify (utf8_encode (min_codepoint n)) = some .nc_utf8) ∧
    (∀ n ∈ [1, 2, 3, 4], classify (encode (n + 1) (min_codepoint n)) = some .nc_8bit) ∧
    [utf8_encode (min_codepoint 1), utf8_encode (min_codepoint 2),
      utf8_encode (min_codepoint 3), utf8_encode (min_codepoint 4)] =
      [[0x01], [0xc2, 0x80], [0xe0, 0xa0, 0x80], [0xf0, 0x90, 0x80, 0x80]] ∧
    [encode 2 (min_codepoint 1), encode 3 (min_codepoint 2),
      encode 4 (min_codepoint 3), encode 5 (min_codepoint 4)] =
      [[0xc0, 0x81], [0xe0, 0x82, 0x80], [0xf0, 0x80, 0xa0, 0x80],
       [0xf8, 0x80, 0x90, 0x80, 0x80]] := by decide

/-- Claim C6. Truncated sequences are rejected: for every prefix `p` that
`classify` accepts, every lead byte `b` that starts a sequence, and every run
of fewer continuation bytes than `b` announces, the name that ends there is
rated `nc_8bit`. -/
theorem truncated_rejected (p : List Byte) (b : Byte) (cs : List Byte) (hp : nulfree p)
    (ha : accepts p) (hb : lead_k b ≠ 7) (hcs : ∀ c ∈ cs, is_cont c)
    (hlen : cs.length < lead_k b) : classify (p ++ b :: cs) = some .nc_8bit := by
  obtain ⟨s', _, hk, _, _, hrest⟩ :=
    scan_append p { j := 0, k := 0, n8 := 0, codepoint := 0 } (Or.inl ⟨rfl, rfl⟩) hp ha
  have hc0 : 0xc0 ≤ b.val := by
    by_contra hlt
    apply hb
    unfold lead_k
    rw [leadloop_table b, if_pos (by omega)]
  have hb0 : b.val ≠ 0 := by omega
  unfold classify
  rw [hrest, scan, if_neg hb0, step_lead s' b hc0 hk]
  unfold lead_k at hb hlen
  rw [if_neg hb]
  simp only
  have := scan_continuations cs
    (State.mk ((leadloop b.val 7 0 0xe0 0xc0).1 : Nat) (leadloop b.val 7 0 0xe0 0xc0).1
      (s'.n8 + 1) ((leadloop b.val 7 0 0xe0 0xc0).2.getD s'.codepoint)) [] hcs
    (leadloop_k_pos b) (by simp only; omega)
  rw [List.append_nil] at this
  rw [this, scan, finish]
  simp only
  rw [if_pos (by omega)]

set_option maxRecDepth 100000 in
/-- The first two bytes of a three-byte sequence after `a`. -/
theorem truncated_rejected_witness :
    classify ([0x61] ++ 0xe2 :: [0x82]) = some .nc_8bit :=
  truncated_rejected [0x61] 0xe2 [0x82] (by decide) (by decide) (by decide) (by decide)
    (by decide)

/-! ## Transcoding from the default legacy charset -/

set_option maxRecDepth 1000000 in
/-- The two bytes that replace a Latin-1 byte from 0x80 on decode to it. -/
theorem latin1_pair : ∀ b : Byte, 0x80 ≤ b.val →
    (toByte (0xC0 ||| (b.val >>> 6))).val ≠ 0 ∧
    0xc0 ≤ (toByte (0xC0 ||| (b.val >>> 6))).val ∧
    leadloop (toByte (0xC0 ||| (b.val >>> 6))).val 7 0 0xe0 0xc0 =
      (1, some ((toByte (0xC0 ||| (b.val >>> 6))).val - 0xc0)) ∧
    (toByte (0x80 ||| (b.val &&& 0x3F))).val ≠ 0 ∧
    is_cont (toByte (0x80 ||| (b.val &&& 0x3F))) ∧
    (((toByte (0xC0 ||| (b.val >>> 6))).val - 0xc0) * 64) % 2 ^ 32 +
      (toByte (0x80 ||| (b.val &&& 0x3F))).val % 64 = b.val := by
  decide


theorem finish_idle (s : State) (hj : s.j = 0) :
    finish s = if s.n8 = 0 then .nc_ascii else .nc_utf8 := by
  unfold finish
  rw [if_neg (by simpa using hj)]
  by_cases h : s.n8 = 0
  · rw [if_neg (by omega), if_pos h]
  · rw [if_pos (by omega), if_neg h]

/-- The forward transcoding of a NUL-free name is scanned without error. -/
theorem scan_latin1 (l : List Byte) : ∀ s : State, s.j = 0 → s.k = 0 → nulfree l →
    scan (l.flatMap latin1_bytes) s =
      some (if s.n8 = 0 ∧ ∀ b ∈ l, b.val < 0x80 then .nc_ascii else .nc_utf8) := by
  induction l with
  | nil =>
    intro s hj _ _
    simp only [List.flatMap_nil, scan, finish_idle s hj, List.not_mem_nil, false_implies,
      implies_true, and_true]
  | cons b l ih =>
    intro s hj hk hnul
    have hb0 : b.val ≠ 0 := hnul b (List.mem_cons_self _ _)
    have hnul' : nulfree l := fun x hx => hnul x (List.mem_cons_of_mem _ hx)
    rw [List.flatMap_cons]
    unfold latin1_bytes
    by_cases hb : b.val < 0x80
    · rw [if_pos hb, List.singleton_append, scan, if_neg hb0, step_seven_bit s b hb,
        if_neg (by omega)]
      simp only
      have := ih s hj hk hnul'
      unfold latin1_bytes at this
      rw [this]
      simp only [List.mem_cons, forall_eq_or_imp, hb, true_and]
    · obtain ⟨h1, h2, h3, h4, h5, h6⟩ := latin1_pair b (by omega)
      rw [if_neg hb]
      simp only [List.cons_append, List.nil_append]
      rw [scan, if_neg h1, step_lead s _ h2 hk, h3]
      simp only [if_neg (show ¬ (1 = 7) by decide), Option.getD_some]
      rw [scan, if_neg h4, step_last _ _ h5 (by simp) (by simp) (by simp only; rw [h6]; omega)]
      simp only
      rw [h6, if_neg (by norm_num; omega)]
      simp only
      have := ih (State.mk 0 0 (s.n8 + 1 + 1) b.val) rfl rfl hnul'
      unfold latin1_bytes at this
      rw [this]
      have hne : ¬ (s.n8 + 1 + 1 = 0 ∧ ∀ b ∈ l, b.val < 0x80) := by omega
      rw [if_neg hne, if_neg]
      intro hcon
      exact hb (hcon.2 b (List.mem_cons_self _ _))

theorem cstr_nulfree (l : List Byte) : nulfree (cstr l) := by
  intro b hb
  have := List.mem_takeWhile_imp hb
  simpa using this

theorem latin1_length (l : List Byte) : (l.flatMap latin1_bytes).length ≤ 2 * l.length := by
  induction l with
  | nil => simp
  | cons b l ih =>
    rw [List.flatMap_cons, List.length_append, List.length_cons]
    have : (latin1_bytes b).length ≤ 2 := by
      unfold latin1_bytes
      split <;> simp
    omega

set_option maxRecDepth 100000 in
/-- Claim C7 as stated fails: the name `a` is representable in `iso8859-1`,
its transcoding to UTF-8 is `a` again, and `classify` rates it `nc_ascii`, not
`nc_utf8`. -/
theorem latin1_ascii_not_utf8 :
    nulfree [0x61] ∧ convertstr latin1_to_utf8 [0x61] = some [0x61] ∧
    classify [0x61] = some .nc_ascii ∧ classify [0x61] ≠ some .nc_utf8 := by decide

/-- Claim C7, amended. With the default legacy charset `iso8859-1`, the
transcoding of every name to UTF-8 succeeds, and `classify` rates the result
`nc_utf8` when the name has a byte from 0x80 on and `nc_ascii` when it has
none; it never rates it `nc_8bit`. -/
theorem latin1_roundtrip (name : List Byte) :
    ∃ u, convertstr latin1_to_utf8 name = some u ∧
      classify u = some (if ∀ b ∈ cstr name, b.val < 0x80 then .nc_ascii else .nc_utf8) := by
  refine ⟨(cstr name).flatMap latin1_bytes, ?_, ?_⟩
  · unfold convertstr latin1_to_utf8
    simp only
    rw [if_pos (latin1_length (cstr name))]
  · unfold classify
    rw [scan_latin1 (cstr name) _ rfl rfl (cstr_nulfree name)]
    simp

/-! ## One iteration of the loop of `dirconv_r` -/

/-- The rename block adds its events behind those already written. -/
theorem rename_block_cases {FS : Type} (env : Env FS) (o : Options) (w : Walk FS)
    (pathlen : Nat) (name path : List Byte) (isdir : Bool) (nc : nameclass)
    (utfname : Option (List Byte)) :
    let gate := o.opt_r ≠ 0 ∧ selected o nc = true ∧ (nc = .nc_8bit ∨ nc = .nc_wtf8)
    let cand := utf_candidate env.fwdconv name utfname
    (¬ gate ∧ rename_block env o w pathlen name path isdir nc utfname
        = (w, (cstr name).length)) ∨
    (gate ∧ cand = none ∧ rename_block env o w pathlen name path isdir nc utfname
        = ({ w with errcnt := w.errcnt + 1, out := w.out ++ [.warn .iconv (cstr name)] },
            (cstr name).length)) ∨
    (gate ∧ ∃ u, cand = some u ∧ ∃ w' n' tail,
        rename_block env o w pathlen name path isdir nc utfname = (w', n') ∧
        w'.out = w.out ++ .plan (cstr path) ((cstr path).take pathlen ++ 0x2f :: cstr u) :: tail ∧
        (∀ e ∈ tail, ∃ k p, e = .warn k p) ∧
        (o.opt_n ≠ 0 → w'.fs = w.fs ∧ w'.errcnt = w.errcnt ∧ tail = [] ∧
          w'.pathbuf = w.pathbuf ∧ w'.pathsize = w.pathsize ∧ n' = (cstr name).length) ∧
        (o.opt_n = 0 → o.opt_F = 0 →
          (env.lstat w.fs ((cstr path).take pathlen ++ 0x2f :: cstr u)).isSome = true →
          w'.fs = w.fs ∧ w'.errcnt = w.errcnt + 1 ∧
          tail = [.warn .eexist ((cstr path).take pathlen ++ 0x2f :: cstr u)] ∧
          w'.pathbuf = w.pathbuf ∧ w'.pathsize = w.pathsize ∧ n' = (cstr name).length)) := by
  intro gate cand
  by_cases hg : gate
  · right
    cases hc : cand with
    | none =>
      left
      refine ⟨hg, rfl, ?_⟩
      unfold rename_block
      rw [if_pos hg]
      simp only [cand] at hc
      rw [hc]
    | some u =>
      right
      refine ⟨hg, u, rfl, ?_⟩
      unfold rename_block
      rw [if_pos hg]
      simp only [cand] at hc
      rw [hc]
      simp only
      by_cases hn : o.opt_n ≠ 0
      · rw [if_pos hn]
        exact ⟨_, _, [], rfl, rfl, by simp, fun _ => ⟨rfl, rfl, rfl, rfl, rfl, rfl⟩,
          fun h => absurd h hn⟩
      · rw [if_neg hn]
        by_cases hcol : o.opt_F = 0 ∧
            (env.lstat w.fs ((cstr path).take pathlen ++ 0x2f :: cstr u)).isSome = true
        · rw [if_pos hcol]
          refine ⟨_, _, [.warn .eexist ((cstr path).take pathlen ++ 0x2f :: cstr u)], rfl,
            by simp, by simp, fun h => absurd h hn, fun _ _ _ => ⟨rfl, rfl, rfl, rfl, rfl, rfl⟩⟩
        · rw [if_neg hcol]
          cases hr : env.rename w.fs (cstr path)
              ((cstr path).take pathlen ++ 0x2f :: cstr u) with
          | none =>
            refine ⟨_, _, [.warn .rename (cstr path)], rfl, by simp, by simp,
              fun h => absurd h hn, fun _ hF hl => absurd ⟨hF, hl⟩ hcol⟩
          | some fs =>
            simp only
            by_cases hd : isdir = true
            · rw [if_pos hd]
              exact ⟨_, _, [], rfl, rfl, by simp, fun h => absurd h hn,
                fun _ hF hl => absurd ⟨hF, hl⟩ hcol⟩
            · rw [if_neg hd]
              exact ⟨_, _, [], rfl, rfl, by simp, fun h => absurd h hn,
                fun _ hF hl => absurd ⟨hF, hl⟩ hcol⟩
  · left
    refine ⟨hg, ?_⟩
    unfold rename_block
    rw [if_neg hg]


/-- An entry that is neither skipped nor excluded and whose `lstat` succeeds
reaches the classification and the rename block. -/
theorem entry_processed {FS : Type} (env : Env FS) (o : Options) (w : Walk FS) (pathlen : Nat)
    (name : List Byte) (isdir : Bool)
    (hdot : ¬ (cstr name = [0x2e] ∨ cstr name = [0x2e, 0x2e]))
    (hexcl : excluded env.excl name = false)
    (hstat : env.lstat w.fs (entry_path w pathlen name) = some isdir) :
    (entry_class env.revconv name = none → entry env o w pathlen name = none) ∧
    (∀ nc utfname, entry_class env.revconv name = some (nc, utfname) →
      entry env o w pathlen name =
        some ((rename_block env o (printed env o w pathlen name nc) pathlen name
                (entry_path w pathlen name) isdir nc utfname).1,
          if isdir = true then some (pathlen + 1 + (rename_block env o
            (printed env o w pathlen name nc) pathlen name
              (entry_path w pathlen name) isdir nc utfname).2) else none)) := by
  unfold entry printed
  rw [if_neg hdot, if_neg (by simp [hexcl])]
  have hfs : (grown env w pathlen name).fs = w.fs := rfl
  have herr : (grown env w pathlen name).errcnt = w.errcnt := rfl
  have hout : (grown env w pathlen name).out = w.out := rfl
  simp only [hfs, herr, hout, hstat]
  constructor
  · intro h
    rw [h]
  · intro nc utfname h
    rw [h]
    simp only
    by_cases hp : o.opt_p ≠ 0 ∧ selected o nc = true
    · simp only [if_pos hp]
    · simp only [if_neg hp, List.append_nil]


theorem plan_of_eq {FS : Type} (w w' : Walk FS) (d : Option Nat) (news : List Event)
    (h : w'.out = w.out ++ news) :
    plan_of w (some (w', d)) = news.findSome? plan_event := by
  unfold plan_of emitted
  simp only [h, List.drop_left]


theorem plan_event_print (path : List Byte) (t : Byte) (o : Options) (nc : nameclass)
    (rest : List Event) :
    ((if o.opt_p ≠ 0 ∧ selected o nc = true then [Event.print path t] else []) ++ rest).findSome?
      plan_event = rest.findSome? plan_event := by
  split <;> simp [List.findSome?, plan_event]

theorem plan_event_warnings (tail : List Event) (h : ∀ e ∈ tail, ∃ k p, e = .warn k p) :
    tail.findSome? plan_event = none := by
  rw [List.findSome?_eq_none_iff]
  intro e he
  obtain ⟨k, p, rfl⟩ := h e he
  rfl

/-- What an iteration does with an entry that reaches the rename block, by
the three ways through the block: the gate of line 318 is closed; it is open
and no candidate name is obtained; it is open and the rename is planned. -/
theorem entry_cases {FS : Type} (env : Env FS) (o : Options) (w : Walk FS) (pathlen : Nat)
    (name : List Byte) (isdir : Bool) (nc : nameclass) (utfname : Option (List Byte))
    (hdot : ¬ (cstr name = [0x2e] ∨ cstr name = [0x2e, 0x2e]))
    (hexcl : excluded env.excl name = false)
    (hstat : env.lstat w.fs (entry_path w pathlen name) = some isdir)
    (hclass : entry_class env.revconv name = some (nc, utfname)) :
    ∃ w' d, entry env o w pathlen name = some (w', d) ∧
      ((¬ (o.opt_r ≠ 0 ∧ selected o nc = true ∧ (nc = .nc_8bit ∨ nc = .nc_wtf8)) ∧
          plan_of w (some (w', d)) = none ∧ w'.fs = w.fs ∧ w'.errcnt = w.errcnt) ∨
        ((o.opt_r ≠ 0 ∧ selected o nc = true ∧ (nc = .nc_8bit ∨ nc = .nc_wtf8)) ∧
          utf_candidate env.fwdconv name utfname = none ∧
          plan_of w (some (w', d)) = none ∧ w'.fs = w.fs ∧ w'.errcnt = w.errcnt + 1) ∨
        ((o.opt_r ≠ 0 ∧ selected o nc = true ∧ (nc = .nc_8bit ∨ nc = .nc_wtf8)) ∧
          ∃ u, utf_candidate env.fwdconv name utfname = some u ∧
            plan_of w (some (w', d)) = some (cstr (entry_path w pathlen name),
              (cstr (entry_path w pathlen name)).take pathlen ++ 0x2f :: cstr u) ∧
            (o.opt_n ≠ 0 → w'.fs = w.fs ∧ w'.errcnt = w.errcnt) ∧
            (o.opt_n = 0 → o.opt_F = 0 →
              (env.lstat w.fs ((cstr (entry_path w pathlen name)).take pathlen ++
                0x2f :: cstr u)).isSome = true →
              w'.fs = w.fs ∧ w'.errcnt = w.errcnt + 1 ∧
              d = (if isdir = true then some (pathlen + 1 + (cstr name).length) else none)))) := by
  rw [(entry_processed env o w pathlen name isdir hdot hexcl hstat).2 nc utfname hclass]
  refine ⟨_, _, rfl, ?_⟩
  rcases rename_block_cases env o (printed env o w pathlen name nc) pathlen name
      (entry_path w pathlen name) isdir nc utfname with
    ⟨hg, hrb⟩ | ⟨hg, hc, hrb⟩ | ⟨hg, u, hc, w', n', tail, hrb, hout, htail, hdry, hcol⟩
  · left
    refine ⟨hg, ?_, ?_, ?_⟩
    · rw [plan_of_eq w _ _ (if o.opt_p ≠ 0 ∧ selected o nc = true then
        [.print (entry_path w pathlen name) (if o.opt_0 ≠ 0 then 0 else 0x0a)] else [])
        (by rw [hrb]; rfl)]
      have := plan_event_print (entry_path w pathlen name) (if o.opt_0 ≠ 0 then 0 else 0x0a)
        o nc []
      rw [List.append_nil] at this
      rw [this]
      rfl
    · rw [hrb]; rfl
    · rw [hrb]; rfl
  · right; left
    refine ⟨hg, hc, ?_, ?_, ?_⟩
    · rw [plan_of_eq w _ _ ((if o.opt_p ≠ 0 ∧ selected o nc = true then
        [.print (entry_path w pathlen name) (if o.opt_0 ≠ 0 then 0 else 0x0a)] else []) ++
          [.warn .iconv (cstr name)])
        (by rw [hrb]; simp [printed])]
      rw [plan_event_print]
      rfl
    · rw [hrb]; rfl
    · rw [hrb]; rfl
  · right; right
    refine ⟨hg, u, hc, ?_, ?_, ?_⟩
    · rw [plan_of_eq w _ _ ((if o.opt_p ≠ 0 ∧ selected o nc = true then
        [.print (entry_path w pathlen name) (if o.opt_0 ≠ 0 then 0 else 0x0a)] else []) ++
          (.plan (cstr (entry_path w pathlen name))
            ((cstr (entry_path w pathlen name)).take pathlen ++ 0x2f :: cstr u) :: tail))
        (by rw [hrb]; simp only; rw [hout]; simp [printed])]
      rw [plan_event_print]
      simp [List.findSome?, plan_event]
    · intro hn
      obtain ⟨h1, h2, _⟩ := hdry hn
      rw [hrb]
      exact ⟨h1, h2⟩
    · intro hn hF hl
      obtain ⟨h1, h2, _, _, _, h6⟩ := hcol hn hF hl
      rw [hrb]
      refine ⟨h1, h2, ?_⟩
      simp only [h6]

theorem planned_none {FS : Type} (w : Walk FS) : planned w none = false := rfl

theorem final_class_eq (revconv : Conv) (name : List Byte) (nc : nameclass)
    (u : Option (List Byte)) (h : entry_class revconv name = some (nc, u)) :
    final_class revconv name = some nc := by
  unfold final_class
  rw [h]
  rfl

theorem skipped_false {FS : Type} (env : Env FS) (name : List Byte)
    (hdot : ¬ (cstr name = [0x2e] ∨ cstr name = [0x2e, 0x2e]))
    (hexcl : excluded env.excl name = false) : skipped env name = false := by
  unfold skipped
  simp [hdot, hexcl]

theorem entry_skipped {FS : Type} (env : Env FS) (o : Options) (w : Walk FS) (pathlen : Nat)
    (name : List Byte) (h : skipped env name = true) :
    entry env o w pathlen name = some (w, none) := by
  unfold skipped at h
  unfold entry
  by_cases hdot : cstr name = [0x2e] ∨ cstr name = [0x2e, 0x2e]
  · rw [if_pos hdot]
  · rw [if_neg hdot]
    have : excluded env.excl name = true := by simpa [hdot] using h
    rw [if_pos this]

theorem iteration_skipped {FS : Type} (env : Env FS) (o : Options) (w : Walk FS)
    (pathlen : Nat) (name : List Byte) (path : Nat) (h : skipped env name = true) :
    iteration env o w pathlen name path = some (w, none) := by
  unfold iteration
  rw [if_pos h]

theorem iteration_stale {FS : Type} (env : Env FS) (o : Options) (w : Walk FS)
    (pathlen : Nat) (name : List Byte) (path : Nat) (h : skipped env name = false)
    (hpath : path ≠ (grown env w pathlen name).bufaddr) :
    iteration env o w pathlen name path = none := by
  unfold iteration
  rw [if_neg (by simp [h]), if_pos hpath]

theorem iteration_eq {FS : Type} (env : Env FS) (o : Options) (w : Walk FS)
    (pathlen : Nat) (name : List Byte) (path : Nat)
    (hpath : path = (grown env w pathlen name).bufaddr) :
    iteration env o w pathlen name path = entry env o w pathlen name := by
  unfold iteration
  by_cases h : skipped env name = true
  · rw [if_pos h, entry_skipped env o w pathlen name h]
  · rw [if_neg h, if_neg (by simpa using hpath)]

/-- A defined result of an iteration is the result of `entry`. -/
theorem iteration_some {FS : Type} (env : Env FS) (o : Options) (w : Walk FS)
    (pathlen : Nat) (name : List Byte) (path : Nat) (r : Walk FS × Option Nat)
    (h : iteration env o w pathlen name path = some r) :
    entry env o w pathlen name = some r := by
  unfold iteration at h
  by_cases hs : skipped env name = true
  · rw [if_pos hs] at h
    rw [entry_skipped env o w pathlen name hs]
    exact h
  · rw [if_neg hs] at h
    by_cases hp : path ≠ (grown env w pathlen name).bufaddr
    · rw [if_pos hp] at h; cases h
    · rw [if_neg hp] at h; exact h

/-- The loop of `dirconv_r` runs `iteration` on each name, then the
recursive call for a directory, and goes on with the pointer that the
iteration left in `path`. -/
theorem dirconv_loop_cons {FS : Type} (descend : Walk FS → Nat → Option (Walk FS))
    (env : Env FS) (o : Options) (pathlen : Nat) (name : List Byte)
    (rest : List (List Byte)) (w : Walk FS) (path : Nat) :
    dirconv_loop descend env o pathlen (name :: rest) w path =
      match iteration env o w pathlen name path with
      | none => none
      | some (w2, none) =>
        dirconv_loop descend env o pathlen rest w2
          (if skipped env name = true then path else w2.bufaddr)
      | some (w2, some len) =>
        match descend w2 len with
        | none => none
        | some w3 => dirconv_loop descend env o pathlen rest w3 w2.bufaddr := by
  rw [dirconv_loop]
  unfold iteration
  by_cases hs : skipped env name = true
  · rw [if_pos hs, if_pos hs]
    simp only [if_pos hs]
  · rw [if_neg hs, if_neg hs]
    by_cases hp : path ≠ (grown env w pathlen name).bufaddr
    · rw [if_pos hp, if_pos hp]
    · rw [if_neg hp, if_neg hp]
      cases he : entry env o w pathlen name with
      | none => rfl
      | some r =>
        obtain ⟨w2, d⟩ := r
        cases d with
        | none => simp only [if_neg hs]
        | some len => rfl

/-- An entry for which the gate of line 318 is open and no candidate name is
obtained: the iteration writes the warning of line 321 as its last event,
counts one error, plans nothing and leaves the file system as it was. -/
theorem entry_iconv_failed {FS : Type} (env : Env FS) (o : Options) (w : Walk FS)
    (pathlen : Nat) (name : List Byte) (isdir : Bool) (nc : nameclass)
    (utfname : Option (List Byte))
    (hdot : ¬ (cstr name = [0x2e] ∨ cstr name = [0x2e, 0x2e]))
    (hexcl : excluded env.excl name = false)
    (hstat : env.lstat w.fs (entry_path w pathlen name) = some isdir)
    (hclass : entry_class env.revconv name = some (nc, utfname))
    (hg : o.opt_r ≠ 0 ∧ selected o nc = true ∧ (nc = .nc_8bit ∨ nc = .nc_wtf8))
    (hc : utf_candidate env.fwdconv name utfname = none) :
    ∃ w' d, entry env o w pathlen name = some (w', d) ∧ w'.fs = w.fs ∧
      w'.errcnt = w.errcnt + 1 ∧
      (emitted w (some (w', d))).getLast? = some (.warn .iconv (cstr name)) := by
  rw [(entry_processed env o w pathlen name isdir hdot hexcl hstat).2 nc utfname hclass]
  refine ⟨_, _, rfl, ?_⟩
  rcases rename_block_cases env o (printed env o w pathlen name nc) pathlen name
      (entry_path w pathlen name) isdir nc utfname with
    ⟨hg', _⟩ | ⟨_, _, hrb⟩ | ⟨_, u, hc', _⟩
  · exact absurd hg hg'
  · rw [hrb]
    refine ⟨rfl, rfl, ?_⟩
    unfold emitted printed
    simp only [List.append_assoc, List.drop_left]
    rw [List.getLast?_append]
    rfl
  · rw [hc] at hc'; cases hc'

/-- Claim C9, amended. For an entry that is not skipped or excluded, whose
`lstat` succeeds and whose path lines 288-289 write into the buffer (the
local `path` points at the block that `growbuf` left at line 284), a rename
is planned (the line `old -> new` is written) if and only if renaming is
enabled, the entry is selected, its final class is `nc_8bit` or `nc_wtf8`, and
a UTF-8 candidate name is obtained (the name left by the WTF-8 check, or a
forward transcoding that succeeds). When the other conditions hold and no
candidate name is obtained, the iteration writes the warning `iconv`, counts
one error, plans nothing and renames nothing. An entry whose final class is
`nc_ascii` or `nc_utf8` is never planned and never renamed, whatever the
options. -/
theorem rename_gating {FS : Type} (env : Env FS) (o : Options) (w : Walk FS) (pathlen : Nat)
    (name : List Byte) (isdir : Bool) (path : Nat)
    (hdot : ¬ (cstr name = [0x2e] ∨ cstr name = [0x2e, 0x2e]))
    (hexcl : excluded env.excl name = false)
    (hstat : env.lstat w.fs (entry_path w pathlen name) = some isdir)
    (hpath : path = (grown env w pathlen name).bufaddr) :
    (planned w (iteration env o w pathlen name path) = true ↔
      o.opt_r ≠ 0 ∧
      (∃ nc, final_class env.revconv name = some nc ∧ selected o nc = true ∧
        (nc = .nc_8bit ∨ nc = .nc_wtf8)) ∧
      (candidate env name).isSome = true) ∧
    (o.opt_r ≠ 0 →
      (∃ nc, final_class env.revconv name = some nc ∧ selected o nc = true ∧
        (nc = .nc_8bit ∨ nc = .nc_wtf8)) →
      candidate env name = none →
      planned w (iteration env o w pathlen name path) = false ∧
      ∃ w' d, iteration env o w pathlen name path = some (w', d) ∧ w'.fs = w.fs ∧
        w'.errcnt = w.errcnt + 1 ∧
        (emitted w (iteration env o w pathlen name path)).getLast? =
          some (.warn .iconv (cstr name))) ∧
    (∀ nc, final_class env.revconv name = some nc → nc = .nc_ascii ∨ nc = .nc_utf8 →
      planned w (iteration env o w pathlen name path) = false ∧
      ∀ w' d, iteration env o w pathlen name path = some (w', d) → w'.fs = w.fs) := by
  rw [iteration_eq env o w pathlen name path hpath]
  cases hclass : entry_class env.revconv name with
  | none =>
    have hfin : final_class env.revconv name = none := by
      unfold final_class; rw [hclass]; rfl
    rw [(entry_processed env o w pathlen name isdir hdot hexcl hstat).1 hclass, hfin]
    simp [planned_none]
  | some r =>
    obtain ⟨nc, utfname⟩ := r
    have hfin := final_class_eq env.revconv name nc utfname hclass
    have hcand : candidate env name = utf_candidate env.fwdconv name utfname := by
      unfold candidate; rw [hclass]
    have hfail : o.opt_r ≠ 0 →
        (∃ nc', some nc = some nc' ∧ selected o nc' = true ∧
          (nc' = .nc_8bit ∨ nc' = .nc_wtf8)) →
        utf_candidate env.fwdconv name utfname = none →
        ∃ w' d, entry env o w pathlen name = some (w', d) ∧ w'.fs = w.fs ∧
          w'.errcnt = w.errcnt + 1 ∧
          (emitted w (entry env o w pathlen name)).getLast? =
            some (.warn .iconv (cstr name)) := by
      rintro hr ⟨nc', hnc', hsel, hcl⟩ hc
      cases hnc'
      obtain ⟨w', d, he, h1, h2, h3⟩ := entry_iconv_failed env o w pathlen name isdir nc utfname
        hdot hexcl hstat hclass ⟨hr, hsel, hcl⟩ hc
      refine ⟨w', d, he, h1, h2, ?_⟩
      rw [he]
      exact h3
    obtain ⟨w', d, hent, hcases⟩ :=
      entry_cases env o w pathlen name isdir nc utfname hdot hexcl hstat hclass
    rw [hfin, hcand]
    refine ⟨?_, ?_, ?_⟩
    · rw [hent]
      unfold planned
      rcases hcases with ⟨hg, hp, hfs, _⟩ | ⟨hg, hc, hp, hfs, _⟩ | ⟨hg, u, hc, hp, _, _⟩
      · rw [hp]
        constructor
        · intro h; cases h
        · rintro ⟨hr, ⟨nc', hnc', hsel, hcl⟩, _⟩
          cases hnc'
          exact absurd ⟨hr, hsel, hcl⟩ hg
      · rw [hp, hc]
        constructor
        · intro h; cases h
        · rintro ⟨_, _, h⟩; cases h
      · rw [hp, hc]
        constructor
        · intro _
          exact ⟨hg.1, ⟨nc, rfl, hg.2.1, hg.2.2⟩, rfl⟩
        · intro _; rfl
    · intro hr hsel hc
      refine ⟨?_, hfail hr hsel hc⟩
      rw [hent]
      unfold planned
      rcases hcases with ⟨_, hp, _⟩ | ⟨_, _, hp, _⟩ | ⟨_, u, hc', _⟩
      · rw [hp]; rfl
      · rw [hp]; rfl
      · rw [hc] at hc'; cases hc'
    · intro nc' hnc' hcl
      cases hnc'
      rw [hent]
      unfold planned
      rcases hcases with ⟨_, hp, hfs, _⟩ | ⟨hg, _⟩ | ⟨hg, _⟩
      · rw [hp]
        refine ⟨rfl, fun w'' d'' h => ?_⟩
        cases h
        exact hfs
      · rcases hg.2.2 with h | h <;> rcases hcl with h' | h' <;> rw [h] at h' <;> cases h'
      · rcases hg.2.2 with h | h <;> rcases hcl with h' | h' <;> rw [h] at h' <;> cases h'

set_option maxRecDepth 100000 in
/-- Claim C9 as stated fails: with `-8 -r` and a 7-bit legacy charset, the
entry `e9` is selected and its final class is `nc_8bit`, its path is built
in the buffer, but the forward transcoding fails and no rename is planned:
the iteration writes a warning and counts an error instead. -/
theorem gate_open_without_plan :
    gate_options.opt_r ≠ 0 ∧
    final_class ascii_conv [0xe9] = some .nc_8bit ∧
    selected gate_options .nc_8bit = true ∧
    (list_env ascii_conv ascii_conv).lstat cafe_walk.fs
      (entry_path cafe_walk 2 [0xe9]) = some false ∧
    cafe_walk.bufaddr = (grown (list_env ascii_conv ascii_conv) cafe_walk 2 [0xe9]).bufaddr ∧
    (iteration (list_env ascii_conv ascii_conv) gate_options cafe_walk 2 [0xe9]
      cafe_walk.bufaddr).map (fun r => (r.1.out, r.1.errcnt)) =
      some ([.warn .iconv [0xe9]], 1) ∧
    planned cafe_walk (iteration (list_env ascii_conv ascii_conv) gate_options cafe_walk 2
      [0xe9] cafe_walk.bufaddr) = false := by decide

set_option maxRecDepth 100000 in
/-- With the default charset the rename of the entry `e9` is planned. -/
theorem rename_gating_witness :
    planned cafe_walk (iteration (list_env latin1_to_utf8 utf8_to_latin1) gate_options
      cafe_walk 2 [0xe9] cafe_walk.bufaddr) = true :=
  (rename_gating (list_env latin1_to_utf8 utf8_to_latin1) gate_options cafe_walk 2 [0xe9] false
    cafe_walk.bufaddr (by decide) (by decide) (by decide) (by decide)).1.2 (by decide)

theorem plan_of_skip {FS : Type} (w : Walk FS) (d : Option Nat) :
    plan_of w (some (w, d)) = none := by
  unfold plan_of emitted
  simp

theorem plan_of_none {FS : Type} (w : Walk FS) : plan_of w none = none := rfl

/-- Claim C10. For a file entry for which a rename is planned, with dry-run
off and force off, if an entry exists at the destination path then the file
system is left as it was (no rename is performed) and `errcnt` increases by
exactly 1 for that entry. The iteration is the one of the loop, with its
local pointer `path`: that a rename is planned there says that the iteration
has a defined result. -/
theorem collision_counted {FS : Type} (env : Env FS) (o : Options) (w : Walk FS)
    (pathlen : Nat) (name : List Byte) (path : Nat) (oldpath utfpath : List Byte)
    (hfile : env.lstat w.fs (entry_path w pathlen name) = some false)
    (hplan : plan_of w (iteration env o w pathlen name path) = some (oldpath, utfpath))
    (hn : o.opt_n = 0) (hF : o.opt_F = 0)
    (hdst : (env.lstat w.fs utfpath).isSome = true) :
    ∃ w', iteration env o w pathlen name path = some (w', none) ∧
      w'.fs = w.fs ∧ w'.errcnt = w.errcnt + 1 := by
  cases hit : iteration env o w pathlen name path with
  | none => rw [hit, plan_of_none] at hplan; cases hplan
  | some r =>
    have hentry := iteration_some env o w pathlen name path r hit
    rw [hit] at hplan
    rw [← hentry] at hplan ⊢
    have hdot : ¬ (cstr name = [0x2e] ∨ cstr name = [0x2e, 0x2e]) := by
      intro h
      unfold entry at hplan
      rw [if_pos h, plan_of_skip] at hplan
      cases hplan
    have hexcl : excluded env.excl name = false := by
      by_contra h
      have h' : excluded env.excl name = true := by simpa using h
      unfold entry at hplan
      rw [if_neg hdot, if_pos h', plan_of_skip] at hplan
      cases hplan
    cases hclass : entry_class env.revconv name with
    | none =>
      rw [(entry_processed env o w pathlen name false hdot hexcl hfile).1 hclass] at hplan
      cases hplan
    | some r =>
      obtain ⟨nc, utfname⟩ := r
      obtain ⟨w', d, hent, hcases⟩ :=
        entry_cases env o w pathlen name false nc utfname hdot hexcl hfile hclass
      rw [hent] at hplan ⊢
      rcases hcases with ⟨_, hp, _, _⟩ | ⟨_, _, hp, _, _⟩ | ⟨_, u, _, hp, _, hcol⟩
      · rw [hp] at hplan; cases hplan
      · rw [hp] at hplan; cases hplan
      · rw [hp] at hplan
        cases hplan
        obtain ⟨h1, h2, h3⟩ := hcol hn hF hdst
        rw [h3]
        exact ⟨w', rfl, h1, h2⟩

set_option maxRecDepth 100000 in
/-- The file `e9` next to the file `c3 a9`: the rename is planned, the
destination exists, and the entry counts one error. -/
theorem collision_counted_witness :
    ∃ w', iteration (list_env latin1_to_utf8 utf8_to_latin1) gate_options collision_walk 2
        [0xe9] collision_walk.bufaddr = some (w', none) ∧
      w'.fs = collision_walk.fs ∧ w'.errcnt = collision_walk.errcnt + 1 :=
  collision_counted (list_env latin1_to_utf8 utf8_to_latin1) gate_options collision_walk 2
    [0xe9] collision_walk.bufaddr [0x2f, 0x64, 0x2f, 0xe9] [0x2f, 0x64, 0x2f, 0xc3, 0xa9]
    (by decide) (by decide) (by decide) (by decide) (by decide)

/-! ## The WTF-8 check and names with the byte `fe` -/

theorem finish_ne_wtf8 (s : State) : finish s ≠ .nc_wtf8 := by
  unfold finish
  split
  · simp
  · split <;> simp

theorem scan_ne_wtf8 (l : List Byte) : ∀ s : State, scan l s ≠ some .nc_wtf8 := by
  induction l with
  | nil =>
    intro s h
    rw [scan, Option.some.injEq] at h
    exact finish_ne_wtf8 s h
  | cons b l ih =>
    intro s h
    rw [scan] at h
    split at h
    · rw [Option.some.injEq] at h
      exact finish_ne_wtf8 s h
    · split at h
      · exact ih _ h
      · cases h
      · cases h

/-- The part of the upgrade rule that holds for every name: the final class
is `nc_wtf8` exactly when all three conditions of lines 302-304 hold. -/
theorem final_class_wtf8_iff (revconv : Conv) (name : List Byte) :
    final_class revconv name = some .nc_wtf8 ↔
      classify name = some .nc_utf8 ∧
      ∃ u, convertstr revconv name = some u ∧ classify u = some .nc_utf8 := by
  unfold final_class entry_class
  cases h1 : classify name with
  | none => simp
  | some nc =>
    simp only
    by_cases hnc : nc = .nc_utf8
    · rw [if_pos hnc]
      cases h2 : convertstr revconv name with
      | none => simp [hnc]
      | some u =>
        simp only
        cases h3 : classify u with
        | none => simp [h3]
        | some nc2 =>
          simp only
          by_cases hnc2 : nc2 = .nc_utf8
          · rw [if_pos hnc2]
            simp [hnc, hnc2, h3]
          · rw [if_neg hnc2]
            simp [hnc, hnc2, h3]
    · rw [if_neg hnc]
      have hw : nc ≠ .nc_wtf8 := by
        intro hw
        rw [hw] at h1
        exact scan_ne_wtf8 name _ h1
      simp [hnc, hw]

/-- The part of the upgrade rule that holds whenever the second call of
`classify` has a defined result: the class of the name is kept. -/
theorem final_class_kept (revconv : Conv) (name : List Byte) (nc : nameclass)
    (h1 : classify name = some nc) :
    (nc ≠ .nc_utf8 → final_class revconv name = some nc) ∧
    (convertstr revconv name = none → final_class revconv name = some nc) ∧
    (∀ u nc2, convertstr revconv name = some u → classify u = some nc2 → nc2 ≠ .nc_utf8 →
      final_class revconv name = some nc) := by
  unfold final_class entry_class
  rw [h1]
  simp only
  refine ⟨fun hnc => ?_, fun hc => ?_, fun u nc2 hc h2 hnc2 => ?_⟩
  · rw [if_neg hnc]; rfl
  · rw [hc]
    split <;> rfl
  · rw [hc]
    simp only [h2, if_neg hnc2]
    split <;> rfl

set_option maxRecDepth 100000 in
/-- Claim C8 at the entry name `c3 be c2 82 c2 80 c2 80 c2 80 c2 80 c2 80` with
the default legacy charset: `classify` rates the name `nc_utf8`, the reverse
transcoding succeeds and gives `fe 82 80 80 80 80 80`, the second call of
`classify` has no defined result, and so the entry has no final class, where
the claim gives it the class `nc_utf8` of the name. -/
theorem wtf8_check_undefined :
    classify [0xc3, 0xbe, 0xc2, 0x82, 0xc2, 0x80, 0xc2, 0x80, 0xc2, 0x80, 0xc2, 0x80, 0xc2, 0x80]
      = some .nc_utf8 ∧
    convertstr utf8_to_latin1
      [0xc3, 0xbe, 0xc2, 0x82, 0xc2, 0x80, 0xc2, 0x80, 0xc2, 0x80, 0xc2, 0x80, 0xc2, 0x80]
      = some [0xfe, 0x82, 0x80, 0x80, 0x80, 0x80, 0x80] ∧
    classify [0xfe, 0x82, 0x80, 0x80, 0x80, 0x80, 0x80] = none ∧
    final_class utf8_to_latin1
      [0xc3, 0xbe, 0xc2, 0x82, 0xc2, 0x80, 0xc2, 0x80, 0xc2, 0x80, 0xc2, 0x80, 0xc2, 0x80]
      = none := by decide

set_option maxRecDepth 100000 in
/-- Claim C1 at the name `fe 82 80 80 80 80 80`, which is not UTF-8: the byte
`fe` starts a sequence of six continuation bytes, the accumulated code point
is `2 ^ 31`, the bit-length loop reaches the shift `1U << 32`, and `classify`
has no defined result where the claim gives `nc_8bit`. -/
theorem classify_undefined :
    nulfree [0xfe, 0x82, 0x80, 0x80, 0x80, 0x80, 0x80] ∧
    lead_k 0xfe = 6 ∧
    accum 0 [0x82, 0x80, 0x80, 0x80, 0x80, 0x80] = 2 ^ 31 ∧
    bitloop (2 ^ 31) 32 0 = none ∧
    classify [0xfe, 0x82, 0x80, 0x80, 0x80, 0x80, 0x80] = none ∧
    classify [0xfe, 0x82, 0x80, 0x80, 0x80, 0x80, 0x80] ≠ some .nc_8bit := by decide

/-! ## Names that are UTF-8 -/

/-- The scan of shortest-form encodings of code points from U+0001 to
U+10FFFF ends without error. -/
theorem scan_utf8_concat (cps : List Nat) : ∀ s : State, s.j = 0 → s.k = 0 →
    (∀ c ∈ cps, 1 ≤ c ∧ c ≤ 0x10ffff) →
    scan (cps.flatMap utf8_encode) s =
      some (if s.n8 = 0 ∧ ∀ c ∈ cps, c < 0x80 then .nc_ascii else .nc_utf8) := by
  induction cps with
  | nil =>
    intro s hj _ _
    simp only [List.flatMap_nil, scan, finish_idle s hj, List.not_mem_nil, false_implies,
      implies_true, and_true]
  | cons c cps ih =>
    intro s hj hk hall
    obtain ⟨h1, hmax⟩ := hall c (List.mem_cons_self _ _)
    have hall' : ∀ x ∈ cps, 1 ≤ x ∧ x ≤ 0x10ffff := fun x hx => hall x (List.mem_cons_of_mem _ hx)
    rw [List.flatMap_cons]
    have hlong : ∀ n, 2 ≤ n → n ≤ 6 → c < 2 ^ (5 * n + 1) → mincp n ≤ c → 0x80 ≤ c →
        scan (encode n c ++ cps.flatMap utf8_encode) s =
          some (if s.n8 = 0 ∧ ∀ x ∈ c :: cps, x < 0x80 then .nc_ascii else .nc_utf8) := by
      intro n hn hn6 hv hmin h80
      rw [scan_encode n c hn hn6 hv s hk, if_neg (by omega), ih _ rfl rfl hall']
      have e1 : ¬ (s.n8 + n = 0 ∧ ∀ x ∈ cps, x < 0x80) := by omega
      have e2 : ¬ (s.n8 = 0 ∧ ∀ x ∈ c :: cps, x < 0x80) := by
        intro hcon
        have := hcon.2 c (List.mem_cons_self _ _)
        omega
      rw [if_neg e1, if_neg e2]
    unfold utf8_encode
    by_cases h80 : c < 0x80
    · have hv : (toByte c).val = c := toByte_val c (by omega)
      rw [if_pos h80, List.singleton_append, scan, if_neg (by rw [hv]; omega),
        step_seven_bit s _ (by rw [hv]; exact h80), if_neg (by omega)]
      simp only
      have := ih s hj hk hall'
      unfold utf8_encode at this
      rw [this]
      simp only [List.mem_cons, forall_eq_or_imp, h80, true_and]
    · rw [if_neg h80]
      have ih' := hlong
      unfold utf8_encode at ih'
      by_cases h800 : c < 0x800
      · rw [if_pos h800]
        exact ih' 2 (by norm_num) (by norm_num) (by norm_num; omega) (by simp [mincp]; omega)
          (by omega)
      · rw [if_neg h800]
        by_cases h10000 : c < 0x10000
        · rw [if_pos h10000]
          exact ih' 3 (by norm_num) (by norm_num) (by norm_num; omega) (by simp [mincp]; omega)
            (by omega)
        · rw [if_neg h10000]
          exact ih' 4 (by norm_num) (by norm_num) (by norm_num; omega) (by simp [mincp]; omega)
            (by omega)

theorem toByte_self (c : Byte) : toByte c.val = c := by
  apply Fin.ext
  exact toByte_val c.val c.isLt

/-- Continuation bytes are recovered from the code point they accumulate
to, as long as the accumulator does not wrap. -/
theorem contbytes_accum (cs : List Byte) : ∀ cp : Nat, (∀ c ∈ cs, is_cont c) →
    (cp + 1) * 64 ^ cs.length ≤ 2 ^ 32 →
    accum cp cs / 64 ^ cs.length = cp ∧ contbytes (accum cp cs) cs.length = cs := by
  induction cs with
  | nil =>
    intro cp _ _
    simp [accum, contbytes]
  | cons c cs ih =>
    intro cp hc hle
    have hcc : is_cont c := hc c (List.mem_cons_self _ _)
    rw [List.length_cons, pow_succ] at hle
    have hP : 0 < 64 ^ cs.length := pow_pos (by norm_num) _
    have h64 : cp * 64 + 64 ≤ 2 ^ 32 := by
      have : (cp + 1) * 64 * 1 ≤ (cp + 1) * 64 * 64 ^ cs.length := Nat.mul_le_mul_left _ hP
      have e : (cp + 1) * (64 ^ cs.length * 64) = (cp + 1) * 64 * 64 ^ cs.length := by ring
      omega
    have hcp' : cp * 64 % 2 ^ 32 + c.val % 64 = cp * 64 + c.val % 64 := by
      rw [Nat.mod_eq_of_lt (by omega)]
    have hd : c.val % 64 < 64 := Nat.mod_lt _ (by norm_num)
    obtain ⟨ih1, ih2⟩ := ih (cp * 64 + c.val % 64)
      (fun x hx => hc x (List.mem_cons_of_mem _ hx)) (by
        have e : (cp * 64 + c.val % 64 + 1) * 64 ^ cs.length ≤
            (cp * 64 + 64) * 64 ^ cs.length := Nat.mul_le_mul_right _ (by omega)
        have e2 : (cp * 64 + 64) * 64 ^ cs.length = (cp + 1) * (64 ^ cs.length * 64) := by ring
        omega)
    rw [accum_cons, hcp', List.length_cons]
    constructor
    · rw [pow_succ, ← Nat.div_div_eq_div_mul, ih1]
      omega
    · rw [contbytes, ih2]
      congr 1
      unfold contbyte
      rw [ih1]
      have : 0x80 + (cp * 64 + c.val % 64) % 64 = c.val := by
        unfold is_cont at hcc
        omega
      rw [this, toByte_self]

/-- Inside a sequence the scan accepts only if the continuation bytes that
remain are all there. -/
theorem scan_accepts_continuations (l : List Byte) : ∀ s : State, s.k ≠ 0 → 0 < s.j →
    (scan l s = some .nc_ascii ∨ scan l s = some .nc_utf8) →
    ∃ cs r, l = cs ++ r ∧ (cs.length : Int) = s.j ∧ ∀ c ∈ cs, is_cont c := by
  induction l with
  | nil =>
    intro s _ hj h
    rw [scan, finish, if_pos (by omega)] at h
    simp at h
  | cons b l ih =>
    intro s hk hj h
    by_cases hb0 : b.val = 0
    · rw [scan, if_pos hb0, finish, if_pos (by omega)] at h
      simp at h
    · rw [scan, if_neg hb0] at h
      rcases byte_cases b with hb | hb | hb
      · rw [step_seven_bit s b hb, if_pos (by omega)] at h
        simp at h
      · by_cases hj1 : s.j = 1
        · exact ⟨[b], l, rfl, by simp [hj1], by simpa using hb⟩
        · rw [step_continuation s b hb hk hj1] at h
          simp only at h
          obtain ⟨cs, r, hl, hlen, hcs⟩ := ih (State.mk (s.j - 1) s.k (s.n8 + 1)
            (s.codepoint * 64 % 2 ^ 32 + b.val % 64)) hk (by simp only; omega) h
          refine ⟨b :: cs, r, by rw [hl]; rfl, ?_, ?_⟩
          · simp only [List.length_cons, Nat.cast_add, Nat.cast_one]
            simp only at hlen
            omega
          · intro c hc
            rw [List.mem_cons] at hc
            rcases hc with rfl | hc
            · exact hb
            · exact hcs c hc
      · rw [step_lead_busy s b hb hk] at h
        simp at h


set_option maxRecDepth 1000000 in
/-- What a lead byte carries: its payload is the byte less the mark of its
length, and fits in the payload bits of that length. -/
theorem lead_payload : ∀ b : Byte, 0xc0 ≤ b.val → (leadloop b.val 7 0 0xe0 0xc0).1 ≠ 7 →
    (leadloop b.val 7 0 0xe0 0xc0).2 =
      some (b.val - leadmark ((leadloop b.val 7 0 0xe0 0xc0).1 + 1)) ∧
    leadmark ((leadloop b.val 7 0 0xe0 0xc0).1 + 1) ≤ b.val ∧
    b.val - leadmark ((leadloop b.val 7 0 0xe0 0xc0).1 + 1) <
      2 ^ (6 - (leadloop b.val 7 0 0xe0 0xc0).1) ∧
    1 ≤ (leadloop b.val 7 0 0xe0 0xc0).1 ∧ (leadloop b.val 7 0 0xe0 0xc0).1 ≤ 6 := by
  decide

/-- A lead byte and continuation bytes that pass the check of lines 117-146
are the shortest-form encoding of the code point they accumulate to. -/
theorem sequence_is_encoding (b : Byte) (cs : List Byte) (hb : 0xc0 ≤ b.val)
    (h7 : (leadloop b.val 7 0 0xe0 0xc0).1 ≠ 7) (hcs : ∀ c ∈ cs, is_cont c)
    (hlen : cs.length = (leadloop b.val 7 0 0xe0 0xc0).1)
    (hmin : 2 ^ (if (leadloop b.val 7 0 0xe0 0xc0).1 > 1
      then (leadloop b.val 7 0 0xe0 0xc0).1 * 5 + 1 else 7) ≤
        accum (b.val - leadmark ((leadloop b.val 7 0 0xe0 0xc0).1 + 1)) cs)
    (hmax : accum (b.val - leadmark ((leadloop b.val 7 0 0xe0 0xc0).1 + 1)) cs ≤ 0x10ffff) :
    b :: cs = utf8_encode (accum (b.val - leadmark ((leadloop b.val 7 0 0xe0 0xc0).1 + 1)) cs) := by
  obtain ⟨_, hmark, hpay, hm1, hm6⟩ := lead_payload b hb h7
  generalize hm : (leadloop b.val 7 0 0xe0 0xc0).1 = m at *
  generalize hc0 : b.val - leadmark (m + 1) = c0 at *
  have hm3 : m ≤ 3 := by
    by_contra hcon
    have hm4 : 4 ≤ m := by omega
    rw [if_pos (by omega)] at hmin
    have : (2 : Nat) ^ 21 ≤ 2 ^ (m * 5 + 1) := Nat.pow_le_pow_right (by norm_num) (by omega)
    omega
  have hbval : leadmark (m + 1) + c0 = b.val := by omega
  have hwrap : (c0 + 1) * 64 ^ cs.length ≤ 2 ^ 32 := by
    rw [hlen]
    interval_cases m <;> norm_num at hpay ⊢ <;> omega
  obtain ⟨hdiv, hbytes⟩ := contbytes_accum cs c0 hcs hwrap
  rw [hlen] at hdiv hbytes
  have henc : encode (m + 1) (accum c0 cs) = b :: cs := by
    unfold encode
    rw [Nat.add_sub_cancel, hdiv, hbytes, hbval, toByte_self]
  rw [← henc]
  unfold utf8_encode
  interval_cases m
  · norm_num at hmin hdiv hpay
    rw [if_neg (by omega), if_pos (by omega)]
  · norm_num at hmin hdiv hpay
    rw [if_neg (by omega), if_neg (by omega), if_pos (by omega)]
  · norm_num at hmin hdiv hpay
    rw [if_neg (by omega), if_neg (by omega), if_neg (by omega)]

/-- A NUL-free name that `classify` accepts is a concatenation of
shortest-form encodings of code points from U+0001 to U+10FFFF. -/
theorem utf8_concat_of_scan (n : Nat) : ∀ (l : List Byte) (s : State), l.length ≤ n →
    s.j = 0 → s.k = 0 → nulfree l →
    (scan l s = some .nc_ascii ∨ scan l s = some .nc_utf8) → utf8_concat l := by
  induction n with
  | zero =>
    intro l s hlen _ _ _ _
    have : l = [] := List.length_eq_zero.mp (by omega)
    rw [this]
    exact ⟨[], by simp, rfl⟩
  | succ n ih =>
    intro l s hlen hj hk hnul h
    cases l with
    | nil => exact ⟨[], by simp, rfl⟩
    | cons b l =>
      have hb0 : b.val ≠ 0 := hnul b (List.mem_cons_self _ _)
      have hnul' : nulfree l := fun x hx => hnul x (List.mem_cons_of_mem _ hx)
      rw [List.length_cons] at hlen
      rw [scan, if_neg hb0] at h
      rcases byte_cases b with hb | hb | hb
      · rw [step_seven_bit s b hb, if_neg (by omega)] at h
        obtain ⟨cps, hcps, hl⟩ := ih l s (by omega) hj hk hnul' h
        refine ⟨b.val :: cps, ?_, ?_⟩
        · intro c hc
          rw [List.mem_cons] at hc
          rcases hc with rfl | hc
          · omega
          · exact hcps c hc
        · rw [List.flatMap_cons, ← hl]
          unfold utf8_encode
          rw [if_pos hb, toByte_self]
          rfl
      · rw [step_continuation_idle s b hb hk] at h
        simp at h
      · rw [step_lead s b hb hk] at h
        by_cases h7 : (leadloop b.val 7 0 0xe0 0xc0).1 = 7
        · rw [if_pos h7] at h
          simp at h
        · rw [if_neg h7] at h
          simp only at h
          obtain ⟨hpay, _, _, hm1, _⟩ := lead_payload b hb h7
          rw [hpay, Option.getD_some] at h
          obtain ⟨cs, r, hl, hcslen, hcs⟩ := scan_accepts_continuations l _
            (by simp only; omega) (by simp only; omega) h
          simp only [Nat.cast_inj] at hcslen
          rw [hl, scan_completion cs _ r hcs (by simp only; omega) (by simp only; omega)
            (by simp only [hcslen])] at h
          simp only at h
          by_cases h31 : 2 ^ 31 ≤ accum (b.val - leadmark ((leadloop b.val 7 0 0xe0 0xc0).1 + 1)) cs
          · rw [if_pos h31] at h
            simp at h
          · rw [if_neg h31] at h
            by_cases hbad : accum (b.val - leadmark ((leadloop b.val 7 0 0xe0 0xc0).1 + 1)) cs <
                2 ^ (if (leadloop b.val 7 0 0xe0 0xc0).1 > 1
                  then (leadloop b.val 7 0 0xe0 0xc0).1 * 5 + 1 else 7) ∨
                0x10ffff < accum (b.val - leadmark ((leadloop b.val 7 0 0xe0 0xc0).1 + 1)) cs
            · rw [if_pos hbad] at h
              simp at h
            · rw [if_neg hbad] at h
              rw [not_or] at hbad
              have hnulr : nulfree r := fun x hx => hnul' x (by rw [hl]; exact List.mem_append_right _ hx)
              have hrlen : r.length ≤ n := by
                have : l.length = cs.length + r.length := by rw [hl, List.length_append]
                omega
              obtain ⟨cps, hcps, hr⟩ := ih r _ hrlen rfl rfl hnulr h
              have henc := sequence_is_encoding b cs hb h7 hcs hcslen (by omega) (by omega)
              refine ⟨accum (b.val - leadmark ((leadloop b.val 7 0 0xe0 0xc0).1 + 1)) cs :: cps,
                ?_, ?_⟩
              · intro c hc
                rw [List.mem_cons] at hc
                rcases hc with rfl | hc
                · refine ⟨?_, by omega⟩
                  have : 0 < 2 ^ (if (leadloop b.val 7 0 0xe0 0xc0).1 > 1
                    then (leadloop b.val 7 0 0xe0 0xc0).1 * 5 + 1 else 7) :=
                    pow_pos (by norm_num) _
                  omega
                · exact hcps c hc
              · rw [List.flatMap_cons, ← henc, ← hr, hl]
                rfl


set_option maxRecDepth 1000000 in
theorem lead_k_le_five : ∀ b : Byte, b.val ≠ 0xfe → (leadloop b.val 7 0 0xe0 0xc0).1 ≠ 7 →
    (leadloop b.val 7 0 0xe0 0xc0).1 ≤ 5 := by decide

/-- Without the byte `fe` every step of the scan has a defined result and
keeps the accumulator within its 32 bits. -/
theorem step_bounded (s : State) (b : Byte) (hs : bounded s) (hfe : b.val ≠ 0xfe) :
    step s b ≠ .undefined ∧ ∀ s', step s b = .next s' → bounded s' := by
  rcases byte_cases b with hb | hb | hb
  · rw [step_seven_bit s b hb]
    by_cases hk : s.k > 0
    · rw [if_pos hk]
      exact ⟨by simp, fun s' h => by cases h⟩
    · rw [if_neg hk]
      exact ⟨by simp, fun s' h => by cases h; exact hs⟩
  · by_cases hk : s.k = 0
    · rw [step_continuation_idle s b hb hk]
      exact ⟨by simp, fun s' h => by cases h⟩
    · rcases hs with h0 | ⟨i, hji, hi1, hik, hk5, hcp⟩
      · exact absurd h0 hk
      · have hmod : s.codepoint * 64 % 2 ^ 32 ≤ s.codepoint * 64 := Nat.mod_le _ _
        have hd : b.val % 64 < 64 := Nat.mod_lt _ (by norm_num)
        by_cases hj1 : s.j = 1
        · have hi : i = 1 := by omega
          rw [hi] at hcp
          have hpow : (2 : Nat) ^ (6 - s.k + 6 * (s.k - 1)) ≤ 2 ^ 25 :=
            Nat.pow_le_pow_right (by norm_num) (by omega)
          rw [step_last s b hb hk hj1 (by omega)]
          by_cases hbad : s.codepoint * 64 % 2 ^ 32 + b.val % 64 <
              2 ^ (if s.k > 1 then s.k * 5 + 1 else 7) ∨
              0x10ffff < s.codepoint * 64 % 2 ^ 32 + b.val % 64
          · rw [if_pos hbad]
            exact ⟨by simp, fun s' h => by cases h⟩
          · rw [if_neg hbad]
            exact ⟨by simp, fun s' h => by cases h; exact Or.inl rfl⟩
        · rw [step_continuation s b hb hk hj1]
          refine ⟨by simp, fun s' h => ?_⟩
          cases h
          right
          have hi2 : 2 ≤ i := by omega
          refine ⟨i - 1, ?_, by omega, by simp only; omega, hk5, ?_⟩
          · show s.j - 1 = ((i - 1 : Nat) : Int)
            omega
          · show s.codepoint * 64 % 2 ^ 32 + b.val % 64 < 2 ^ (6 - s.k + 6 * (s.k - (i - 1)))
            have e : 6 - s.k + 6 * (s.k - (i - 1)) = (6 - s.k + 6 * (s.k - i)) + 6 := by omega
            rw [e, pow_add]
            norm_num
            omega
  · by_cases hk : s.k = 0
    · rw [step_lead s b hb hk]
      by_cases h7 : (leadloop b.val 7 0 0xe0 0xc0).1 = 7
      · rw [if_pos h7]
        exact ⟨by simp, fun s' h => by cases h⟩
      · rw [if_neg h7]
        refine ⟨by simp, fun s' h => ?_⟩
        cases h
        obtain ⟨hpay, _, hlt, hm1, _⟩ := lead_payload b hb h7
        right
        refine ⟨(leadloop b.val 7 0 0xe0 0xc0).1, rfl, hm1, le_refl _,
          lead_k_le_five b hfe h7, ?_⟩
        show (leadloop b.val 7 0 0xe0 0xc0).2.getD s.codepoint < _
        rw [hpay, Option.getD_some, Nat.sub_self, Nat.mul_zero, Nat.add_zero]
        exact hlt
    · rw [step_lead_busy s b hb hk]
      exact ⟨by simp, fun s' h => by cases h⟩

/-- On a name without the byte `fe` the scan ends with a defined result. -/
theorem scan_defined (l : List Byte) : ∀ s : State, bounded s → (∀ b ∈ l, b.val ≠ 0xfe) →
    scan l s ≠ none := by
  induction l with
  | nil => intro s _ _; simp [scan]
  | cons b l ih =>
    intro s hs hfe
    rw [scan]
    split
    · simp
    · obtain ⟨hdef, hnext⟩ := step_bounded s b hs (hfe b (List.mem_cons_self _ _))
      cases hstep : step s b with
      | next s' =>
        simp only
        exact ih s' (hnext s' hstep) (fun x hx => hfe x (List.mem_cons_of_mem _ hx))
      | non_utf8 => simp
      | undefined => exact absurd hstep hdef

theorem utf8_encode_nulfree (c : Nat) (h1 : 1 ≤ c) (hmax : c ≤ 0x10ffff) :
    nulfree (utf8_encode c) := by
  have hlong : ∀ n, 2 ≤ n → n ≤ 6 → c < 2 ^ (5 * n + 1) → nulfree (encode n c) := by
    intro n hn hn6 hv b hb
    unfold encode at hb
    rw [List.mem_cons] at hb
    rcases hb with rfl | hb
    · obtain ⟨hval, hc0, _⟩ := leadloop_encode n c hn hn6 hv
      rw [hval]
      omega
    · have := contbytes_is_cont c (n - 1) b hb
      unfold is_cont at this
      omega
  unfold utf8_encode
  split
  · intro b hb
    rw [List.mem_singleton] at hb
    rw [hb, toByte_val c (by omega)]
    omega
  · split
    · exact hlong 2 (by norm_num) (by norm_num) (by norm_num; omega)
    · split
      · exact hlong 3 (by norm_num) (by norm_num) (by norm_num; omega)
      · exact hlong 4 (by norm_num) (by norm_num) (by norm_num; omega)

theorem utf8_concat_nulfree (l : List Byte) (h : utf8_concat l) : nulfree l := by
  obtain ⟨cps, hcps, rfl⟩ := h
  intro b hb
  rw [List.mem_flatMap] at hb
  obtain ⟨c, hc, hbc⟩ := hb
  exact utf8_encode_nulfree c (hcps c hc).1 (hcps c hc).2 b hbc

/-- The second sentence of claim C1, for every name: a concatenation of
shortest-form encodings is rated `nc_ascii` if it has no byte from 0x80 on
and `nc_utf8` otherwise. -/
theorem classify_of_utf8_concat (name : List Byte) (h : utf8_concat name) :
    classify name = some (if ∀ b ∈ name, b.val < 0x80 then .nc_ascii else .nc_utf8) := by
  have hnul := utf8_concat_nulfree name h
  obtain ⟨cps, hcps, hl⟩ := h
  have hscan := scan_utf8_concat cps { j := 0, k := 0, n8 := 0, codepoint := 0 } rfl rfl hcps
  rw [← hl] at hscan
  by_cases hall : ∀ b ∈ name, b.val < 0x80
  · rw [if_pos hall]
    unfold classify
    rw [scan_of_seven_bit name _ rfl rfl (by rw [cstr_of_nulfree name hnul]; exact hall)]
    rfl
  · rw [if_neg hall]
    unfold classify
    rw [hscan]
    split
    · exfalso
      apply hall
      have := (scan_ascii_only name _ (by rw [hscan, if_pos (by assumption)])).2
      rw [cstr_of_nulfree name hnul] at this
      exact this
    · rfl

/-- The first sentence of claim C1, for the names without the byte `fe`:
`classify` returns `nc_8bit` if and only if the name is not a concatenation
of shortest-form encodings. -/
theorem classify_8bit_iff (name : List Byte) (hnul : nulfree name)
    (hfe : ∀ b ∈ name, b.val ≠ 0xfe) :
    classify name = some .nc_8bit ↔ ¬ utf8_concat name := by
  constructor
  · intro h hcon
    rw [classify_of_utf8_concat name hcon] at h
    split at h <;> cases h
  · intro hcon
    have hdef := scan_defined name { j := 0, k := 0, n8 := 0, codepoint := 0 } (Or.inl rfl) hfe
    cases hc : classify name with
    | none => exact absurd hc hdef
    | some nc =>
      cases nc with
      | nc_8bit => rfl
      | nc_ascii =>
        exact absurd (utf8_concat_of_scan name.length name _ (le_refl _) rfl rfl hnul
          (Or.inl hc)) hcon
      | nc_utf8 =>
        exact absurd (utf8_concat_of_scan name.length name _ (le_refl _) rfl rfl hnul
          (Or.inr hc)) hcon
      | nc_wtf8 => exact absurd hc (scan_ne_wtf8 name _)

set_option maxRecDepth 100000 in
/-- The name `caf` with `e9` is NUL-free and has no byte `fe`. -/
theorem classify_8bit_iff_example :
    classify [0x63, 0x61, 0x66, 0xe9] = some .nc_8bit ↔ ¬ utf8_concat [0x63, 0x61, 0x66, 0xe9] :=
  classify_8bit_iff [0x63, 0x61, 0x66, 0xe9] (by decide) (by decide)

/-! ## The walk: what one iteration does -/

theorem rename_block_effect {FS : Type} (env : Env FS) (o : Options) (w : Walk FS)
    (pathlen : Nat) (name path : List Byte) (isdir : Bool) (nc : nameclass)
    (utfname : Option (List Byte)) :
    ∃ news, (rename_block env o w pathlen name path isdir nc utfname).1.out = w.out ++ news ∧
      (rename_block env o w pathlen name path isdir nc utfname).1.errcnt =
        w.errcnt + (news.filter is_warning).length ∧
      (o.opt_n ≠ 0 → ∀ e ∈ news, rename_error e = false) ∧
      (((rename_block env o w pathlen name path isdir nc utfname).1.fs = w.fs ∧
        (rename_block env o w pathlen name path isdir nc utfname).1.pathbuf = w.pathbuf ∧
        (rename_block env o w pathlen name path isdir nc utfname).1.pathsize = w.pathsize ∧
        (rename_block env o w pathlen name path isdir nc utfname).1.bufaddr = w.bufaddr ∧
        (rename_block env o w pathlen name path isdir nc utfname).2 = (cstr name).length) ∨
       (o.opt_n = 0 ∧ ∃ u fs, utf_candidate env.fwdconv name utfname = some u ∧
        env.rename w.fs (cstr path) ((cstr path).take pathlen ++ 0x2f :: cstr u) = some fs ∧
        (rename_block env o w pathlen name path isdir nc utfname).1.fs = fs ∧
        ((isdir = false ∧
          (rename_block env o w pathlen name path isdir nc utfname).1.pathbuf = w.pathbuf ∧
          (rename_block env o w pathlen name path isdir nc utfname).1.pathsize = w.pathsize ∧
          (rename_block env o w pathlen name path isdir nc utfname).1.bufaddr = w.bufaddr ∧
          (rename_block env o w pathlen name path isdir nc utfname).2 = (cstr name).length) ∨
         (isdir = true ∧
          (rename_block env o w pathlen name path isdir nc utfname).1.pathbuf =
            (cstr path).take pathlen ++ 0x2f :: cstr u ∧
          (rename_block env o w pathlen name path isdir nc utfname).2 = (cstr u).length)))) := by
  unfold rename_block
  by_cases hg : o.opt_r ≠ 0 ∧ selected o nc = true ∧ (nc = .nc_8bit ∨ nc = .nc_wtf8)
  · rw [if_pos hg]
    cases hc : utf_candidate env.fwdconv name utfname with
    | none =>
      refine ⟨[.warn .iconv (cstr name)], rfl, rfl, ?_, Or.inl ⟨rfl, rfl, rfl, rfl, rfl⟩⟩
      intro _ e he
      simp only [List.mem_singleton] at he
      subst he; rfl
    | some u =>
      simp only []
      by_cases hn : o.opt_n ≠ 0
      · rw [if_pos hn]
        refine ⟨[.plan (cstr path) ((cstr path).take pathlen ++ 0x2f :: cstr u)], rfl, rfl, ?_,
          Or.inl ⟨rfl, rfl, rfl, rfl, rfl⟩⟩
        intro _ e he
        simp only [List.mem_singleton] at he
        subst he; rfl
      · rw [if_neg hn]
        have hn0 : o.opt_n = 0 := by omega
        by_cases hx : o.opt_F = 0 ∧
            (env.lstat w.fs ((cstr path).take pathlen ++ 0x2f :: cstr u)).isSome
        · rw [if_pos hx]
          refine ⟨[.plan (cstr path) ((cstr path).take pathlen ++ 0x2f :: cstr u),
            .warn .eexist ((cstr path).take pathlen ++ 0x2f :: cstr u)], ?_, rfl,
            fun h => absurd h hn, Or.inl ⟨rfl, rfl, rfl, rfl, rfl⟩⟩
          simp
        · rw [if_neg hx]
          cases hr : env.rename w.fs (cstr path)
              ((cstr path).take pathlen ++ 0x2f :: cstr u) with
          | none =>
            refine ⟨[.plan (cstr path) ((cstr path).take pathlen ++ 0x2f :: cstr u),
              .warn .rename (cstr path)], ?_, rfl,
              fun h => absurd h hn, Or.inl ⟨rfl, rfl, rfl, rfl, rfl⟩⟩
            simp
          | some fs =>
            refine ⟨[.plan (cstr path) ((cstr path).take pathlen ++ 0x2f :: cstr u)], ?_, ?_,
              fun h => absurd h hn, Or.inr ⟨hn0, u, fs, rfl, hr, ?_, ?_⟩⟩
            · cases isdir <;> rfl
            · cases isdir <;> rfl
            · cases isdir <;> rfl
            · cases isdir
              · exact Or.inl ⟨rfl, rfl, rfl, rfl, rfl⟩
              · refine Or.inr ⟨rfl, rfl, ?_⟩
                simp only [if_true]
                omega
  · rw [if_neg hg]
    exact ⟨[], by simp, by simp, fun _ e he => by simp at he, Or.inl ⟨rfl, rfl, rfl, rfl, rfl⟩⟩


theorem entry_effect {FS : Type} (env : Env FS) (o : Options) (w : Walk FS) (pathlen : Nat)
    (name : List Byte) (w2 : Walk FS) (d : Option Nat)
    (hskip : skipped env name = false)
    (h : entry env o w pathlen name = some (w2, d)) :
    ∃ news, w2.out = w.out ++ news ∧
      w2.errcnt = w.errcnt + (news.filter is_warning).length ∧
      (o.opt_n ≠ 0 → ∀ e ∈ news, rename_error e = false) ∧
      (d.isSome = true ↔ env.lstat w.fs (entry_path w pathlen name) = some true) ∧
      ((w2.fs = w.fs ∧ w2.pathbuf = entry_path w pathlen name ∧
        w2.pathsize = (grown env w pathlen name).pathsize ∧
        w2.bufaddr = (grown env w pathlen name).bufaddr ∧
        (d = none ∨ d = some (pathlen + 1 + (cstr name).length))) ∨
       (o.opt_n = 0 ∧ ∃ u fs, candidate env name = some u ∧
        env.rename w.fs (cstr (entry_path w pathlen name))
          ((cstr (entry_path w pathlen name)).take pathlen ++ 0x2f :: cstr u) = some fs ∧
        w2.fs = fs ∧
        ((d = none ∧ w2.pathbuf = entry_path w pathlen name ∧
          w2.pathsize = (grown env w pathlen name).pathsize ∧
          w2.bufaddr = (grown env w pathlen name).bufaddr) ∨
         (d = some (pathlen + 1 + (cstr u).length) ∧
          w2.pathbuf = (cstr (entry_path w pathlen name)).take pathlen ++ 0x2f :: cstr u)))) := by
  have hdot : ¬ (cstr name = [0x2e] ∨ cstr name = [0x2e, 0x2e]) := by
    intro hd
    unfold skipped at hskip
    simp [hd] at hskip
  have hexcl : excluded env.excl name = false := by
    unfold skipped at hskip
    simpa [hdot] using hskip
  cases hstat : env.lstat w.fs (entry_path w pathlen name) with
  | none =>
    unfold entry at h
    rw [if_neg hdot, if_neg (by simp [hexcl])] at h
    have hfs : (grown env w pathlen name).fs = w.fs := rfl
    simp only [hfs, hstat] at h
    injection h with h
    injection h with h1 h2
    subst h1; subst h2
    refine ⟨[.warn .lstat (entry_path w pathlen name)], rfl, rfl, ?_, by simp,
      Or.inl ⟨rfl, rfl, rfl, rfl, Or.inl rfl⟩⟩
    intro _ e he
    simp only [List.mem_singleton] at he
    subst he; rfl
  | some isdir =>
    have hp := entry_processed env o w pathlen name isdir hdot hexcl hstat
    cases hclass : entry_class env.revconv name with
    | none => rw [hp.1 hclass] at h; exact absurd h (by simp)
    | some q =>
      obtain ⟨nc, utfname⟩ := q
      rw [hp.2 nc utfname hclass] at h
      injection h with h
      injection h with h1 h2
      obtain ⟨news, ho, he, hq, hc⟩ := rename_block_effect env o (printed env o w pathlen name nc)
        pathlen name (entry_path w pathlen name) isdir nc utfname
      rw [h1] at ho he hc
      have hcand : candidate env name = utf_candidate env.fwdconv name utfname := by
        unfold candidate; rw [hclass]
      refine ⟨(if o.opt_p ≠ 0 ∧ selected o nc = true then
          [.print (entry_path w pathlen name) (if o.opt_0 ≠ 0 then 0 else 0x0a)] else []) ++ news,
        ?_, ?_, ?_, ?_, ?_⟩
      · rw [ho]; unfold printed; simp only [List.append_assoc]
      · rw [he]; unfold printed
        by_cases hpr : o.opt_p ≠ 0 ∧ selected o nc = true
        · simp only [if_pos hpr, List.filter_append, List.length_append]
          simp [is_warning]
        · simp only [if_neg hpr, List.nil_append]
      · intro hn e hmem
        rw [List.mem_append] at hmem
        rcases hmem with hmem | hmem
        · by_cases hpr : o.opt_p ≠ 0 ∧ selected o nc = true
          · rw [if_pos hpr, List.mem_singleton] at hmem
            subst hmem; rfl
          · rw [if_neg hpr] at hmem; exact absurd hmem (List.not_mem_nil _)
        · exact hq hn e hmem
      · rw [← h2]
        cases isdir <;> simp
      · rcases hc with ⟨a1, a2, a3, a4, a5⟩ | ⟨hn0, u, fs, b1, b2, b3, b4⟩
        · refine Or.inl ⟨a1, a2, a3, a4, ?_⟩
          rw [← h2, a5]
          cases isdir
          · exact Or.inl rfl
          · exact Or.inr rfl
        · refine Or.inr ⟨hn0, u, fs, hcand.trans b1, b2, b3, ?_⟩
          rcases b4 with ⟨c1, c2, c3, c4, _⟩ | ⟨c1, c2, c3⟩
          · subst c1
            exact Or.inl ⟨h2.symm, c2, c3, c4⟩
          · subst c1
            refine Or.inr ⟨?_, c2⟩
            rw [← h2, c3]; rfl

/-! ## The walk in a dry run -/

theorem quiet_refl {FS : Type} (w : Walk FS) : quiet w w :=
  ⟨rfl, [], by simp, by simp, fun _ h => absurd h (List.not_mem_nil _)⟩

theorem quiet_trans {FS : Type} (w1 w2 w3 : Walk FS) (h12 : quiet w1 w2) (h23 : quiet w2 w3) :
    quiet w1 w3 := by
  obtain ⟨f1, n1, o1, e1, q1⟩ := h12
  obtain ⟨f2, n2, o2, e2, q2⟩ := h23
  refine ⟨f2.trans f1, n1 ++ n2, ?_, ?_, ?_⟩
  · rw [o2, o1, List.append_assoc]
  · rw [e2, e1, List.filter_append, List.length_append]; omega
  · intro e he
    rcases List.mem_append.1 he with h | h
    · exact q1 e h
    · exact q2 e h

theorem quiet_warn {FS : Type} (w : Walk FS) (wn : Warning) (p : List Byte)
    (hw : rename_error (.warn wn p) = false) :
    quiet w { w with errcnt := w.errcnt + 1, out := w.out ++ [.warn wn p] } := by
  refine ⟨rfl, [.warn wn p], rfl, rfl, ?_⟩
  intro e he
  rw [List.mem_singleton] at he
  subst he; exact hw

theorem entry_quiet {FS : Type} (env : Env FS) (o : Options) (w : Walk FS) (pathlen : Nat)
    (name : List Byte) (w2 : Walk FS) (d : Option Nat) (hn : o.opt_n ≠ 0)
    (h : entry env o w pathlen name = some (w2, d)) : quiet w w2 := by
  cases hskip : skipped env name with
  | true =>
    rw [entry_skipped env o w pathlen name hskip] at h
    injection h with h
    injection h with h1 _
    subst h1
    exact quiet_refl w
  | false =>
    obtain ⟨news, ho, he, hq, _, hc⟩ := entry_effect env o w pathlen name w2 d hskip h
    rcases hc with ⟨hfs, _⟩ | ⟨hn0, _⟩
    · exact ⟨hfs, news, ho, he, hq hn⟩
    · exact absurd hn0 hn

theorem dirconv_loop_quiet {FS : Type} (descend : Walk FS → Nat → Option (Walk FS))
    (env : Env FS) (o : Options) (pathlen : Nat) (hn : o.opt_n ≠ 0)
    (hd : ∀ w len w3, descend w len = some w3 → quiet w w3) :
    ∀ (names : List (List Byte)) (w : Walk FS) (path : Nat) (w' : Walk FS) (path' : Nat),
      dirconv_loop descend env o pathlen names w path = some (w', path') → quiet w w' := by
  intro names
  induction names with
  | nil =>
    intro w path w' path' h
    rw [dirconv_loop] at h
    injection h with h
    injection h with h1 _
    subst h1
    exact quiet_refl w
  | cons name rest ih =>
    intro w path w' path' h
    rw [dirconv_loop] at h
    by_cases hskip : skipped env name = true
    · rw [if_pos hskip] at h
      exact ih w path w' path' h
    · rw [if_neg hskip] at h
      by_cases hp : path ≠ (grown env w pathlen name).bufaddr
      · rw [if_pos hp] at h; exact absurd h (by simp)
      · rw [if_neg hp] at h
        cases he : entry env o w pathlen name with
        | none => rw [he] at h; exact absurd h (by simp)
        | some r =>
          obtain ⟨w2, d⟩ := r
          rw [he] at h
          have h2 := entry_quiet env o w pathlen name w2 d hn he
          cases d with
          | none =>
            simp only at h
            exact quiet_trans w w2 w' h2 (ih w2 _ w' path' h)
          | some len =>
            simp only at h
            cases hdesc : descend w2 len with
            | none => rw [hdesc] at h; exact absurd h (by simp)
            | some w3 =>
              rw [hdesc] at h
              simp only at h
              exact quiet_trans w w2 w' h2
                (quiet_trans w2 w3 w' (hd w2 len w3 hdesc) (ih w3 _ w' path' h))

theorem dirconv_end_quiet {FS : Type} (w : Walk FS) (pathlen path : Nat) (readerr : Bool)
    (w' : Walk FS) (h : dirconv_end w pathlen path readerr = some w') : quiet w w' := by
  unfold dirconv_end at h
  by_cases hp : path ≠ w.bufaddr
  · rw [if_pos hp] at h; exact absurd h (by simp)
  · rw [if_neg hp] at h
    by_cases hr : readerr = true
    · rw [if_pos hr] at h
      injection h with h
      subst h
      refine ⟨rfl, [.warn .readdir (w.pathbuf.take pathlen)], rfl, rfl, ?_⟩
      intro e he
      rw [List.mem_singleton] at he
      subst he; rfl
    · rw [if_neg hr] at h
      injection h with h
      subst h
      exact ⟨rfl, [], by simp, by simp, fun _ h => absurd h (List.not_mem_nil _)⟩

theorem dirconv_r_quiet {FS : Type} (env : Env FS) (o : Options) (hn : o.opt_n ≠ 0) :
    ∀ (fds : Nat) (w : Walk FS) (pathlen : Nat) (w' : Walk FS),
      dirconv_r fds env o w pathlen = some w' → quiet w w' := by
  intro fds
  induction fds with
  | zero =>
    intro w pathlen w' h
    rw [dirconv_r] at h
    injection h with h
    subst h
    exact quiet_warn w .opendir w.pathbuf rfl
  | succ fds ih =>
    intro w pathlen w' h
    rw [dirconv_r] at h
    cases hop : env.opendir w.fs w.pathbuf with
    | none =>
      rw [hop] at h
      injection h with h
      subst h
      exact quiet_warn w .opendir w.pathbuf rfl
    | some r =>
      obtain ⟨names, readerr⟩ := r
      rw [hop] at h
      simp only at h
      cases hl : dirconv_loop (dirconv_r fds env o) env o pathlen names w w.bufaddr with
      | none => rw [hl] at h; exact absurd h (by simp)
      | some r2 =>
        obtain ⟨w1, path⟩ := r2
        rw [hl] at h
        simp only at h
        exact quiet_trans w w1 w'
          (dirconv_loop_quiet (dirconv_r fds env o) env o pathlen hn
            (fun w len w3 h3 => ih w len w3 h3) names w w.bufaddr w1 path hl)
          (dirconv_end_quiet w1 pathlen path readerr w' h)

/-! ## The path buffer -/

theorem nulfree_take (l : List Byte) (n : Nat) (h : nulfree l) : nulfree (l.take n) :=
  fun b hb => h b (List.mem_of_mem_take hb)

theorem nulfree_path (dir x : List Byte) (h : nulfree dir) :
    nulfree (dir ++ 0x2f :: cstr x) := by
  intro b hb
  rcases List.mem_append.1 hb with h1 | h1
  · exact h b h1
  · rcases List.mem_cons.1 h1 with h2 | h2
    · subst h2; decide
    · exact cstr_nulfree x b h2

theorem take_path (buf x : List Byte) (pathlen : Nat) (h : pathlen ≤ buf.length) :
    (buf.take pathlen ++ 0x2f :: cstr x).take pathlen = buf.take pathlen := by
  have hl : (buf.take pathlen).length = pathlen := by
    rw [List.length_take]; omega
  have := List.take_left (buf.take pathlen) (0x2f :: cstr x)
  rw [hl] at this
  exact this

theorem length_path (buf x : List Byte) (pathlen : Nat) (h : pathlen ≤ buf.length) :
    (buf.take pathlen ++ 0x2f :: cstr x).length = pathlen + 1 + (cstr x).length := by
  rw [List.length_append, List.length_take, List.length_cons]
  omega

/-- The buffer after an iteration: it starts with the directory path, and
when the entry is a directory it holds a path of the length that the
recursive call receives. -/
theorem entry_buffer {FS : Type} (env : Env FS) (o : Options) (w : Walk FS) (pathlen : Nat)
    (name : List Byte) (w2 : Walk FS) (d : Option Nat)
    (hfree : nulfree w.pathbuf) (hlen : pathlen ≤ w.pathbuf.length)
    (h : entry env o w pathlen name = some (w2, d)) :
    nulfree w2.pathbuf ∧ w2.pathbuf.take pathlen = w.pathbuf.take pathlen ∧
      pathlen ≤ w2.pathbuf.length ∧ ∀ len, d = some len → w2.pathbuf.length = len := by
  cases hskip : skipped env name with
  | true =>
    rw [entry_skipped env o w pathlen name hskip] at h
    injection h with h
    injection h with h1 h2
    subst h1; subst h2
    exact ⟨hfree, rfl, hlen, fun len hl => by cases hl⟩
  | false =>
    obtain ⟨news, _, _, _, _, hc⟩ := entry_effect env o w pathlen name w2 d hskip h
    have hpf : nulfree (entry_path w pathlen name) :=
      nulfree_path _ name (nulfree_take _ _ hfree)
    have hcs : cstr (entry_path w pathlen name) = entry_path w pathlen name :=
      cstr_of_nulfree _ hpf
    have key : ∀ x : List Byte, w2.pathbuf = w.pathbuf.take pathlen ++ 0x2f :: cstr x →
        (d = none ∨ d = some (pathlen + 1 + (cstr x).length)) →
        nulfree w2.pathbuf ∧ w2.pathbuf.take pathlen = w.pathbuf.take pathlen ∧
          pathlen ≤ w2.pathbuf.length ∧ ∀ len, d = some len → w2.pathbuf.length = len := by
      intro x hx hd
      rw [hx]
      refine ⟨nulfree_path _ x (nulfree_take _ _ hfree), take_path _ x pathlen hlen, ?_, ?_⟩
      · rw [length_path _ x pathlen hlen]; omega
      · intro len hl
        rw [length_path _ x pathlen hlen]
        rcases hd with hd | hd
        · rw [hd] at hl; cases hl
        · rw [hd] at hl; injection hl
    rcases hc with ⟨_, hb, _, _, hd⟩ | ⟨_, u, fs, _, _, _, hr⟩
    · exact key name hb hd
    · rcases hr with ⟨hd, hb, _, _⟩ | ⟨hd, hb⟩
      · exact key name hb (Or.inl hd)
      · rw [hcs] at hb
        unfold entry_path at hb
        rw [take_path _ name pathlen hlen] at hb
        exact key u hb (Or.inr hd)

theorem dirconv_loop_buffer {FS : Type} (descend : Walk FS → Nat → Option (Walk FS))
    (env : Env FS) (o : Options) (pathlen : Nat)
    (hd : ∀ w len w3, descend w len = some w3 → nulfree w.pathbuf → w.pathbuf.length = len →
      w3.pathbuf = w.pathbuf) :
    ∀ (names : List (List Byte)) (w : Walk FS) (path : Nat) (w' : Walk FS) (path' : Nat),
      nulfree w.pathbuf → pathlen ≤ w.pathbuf.length →
      dirconv_loop descend env o pathlen names w path = some (w', path') →
      nulfree w'.pathbuf ∧ w'.pathbuf.take pathlen = w.pathbuf.take pathlen ∧
        pathlen ≤ w'.pathbuf.length := by
  intro names
  induction names with
  | nil =>
    intro w path w' path' hfree hlen h
    rw [dirconv_loop] at h
    injection h with h
    injection h with h1 _
    subst h1
    exact ⟨hfree, rfl, hlen⟩
  | cons name rest ih =>
    intro w path w' path' hfree hlen h
    rw [dirconv_loop] at h
    by_cases hskip : skipped env name = true
    · rw [if_pos hskip] at h
      exact ih w path w' path' hfree hlen h
    · rw [if_neg hskip] at h
      by_cases hp : path ≠ (grown env w pathlen name).bufaddr
      · rw [if_pos hp] at h; exact absurd h (by simp)
      · rw [if_neg hp] at h
        cases he : entry env o w pathlen name with
        | none => rw [he] at h; exact absurd h (by simp)
        | some r =>
          obtain ⟨w2, d⟩ := r
          rw [he] at h
          obtain ⟨b1, b2, b3, b4⟩ := entry_buffer env o w pathlen name w2 d hfree hlen he
          cases d with
          | none =>
            simp only at h
            obtain ⟨c1, c2, c3⟩ := ih w2 _ w' path' b1 b3 h
            exact ⟨c1, c2.trans b2, c3⟩
          | some len =>
            simp only at h
            cases hdesc : descend w2 len with
            | none => rw [hdesc] at h; exact absurd h (by simp)
            | some w3 =>
              rw [hdesc] at h
              simp only at h
              have h3 := hd w2 len w3 hdesc b1 (b4 len rfl)
              obtain ⟨c1, c2, c3⟩ := ih w3 _ w' path' (h3 ▸ b1) (h3 ▸ b3) h
              exact ⟨c1, c2.trans (h3 ▸ b2), c3⟩

theorem dirconv_end_buffer {FS : Type} (w : Walk FS) (pathlen path : Nat) (readerr : Bool)
    (w' : Walk FS) (h : dirconv_end w pathlen path readerr = some w') :
    w'.pathbuf = w.pathbuf.take pathlen ∧ w'.fs = w.fs ∧ w'.pathsize = w.pathsize ∧
      w'.bufaddr = w.bufaddr := by
  unfold dirconv_end at h
  by_cases hp : path ≠ w.bufaddr
  · rw [if_pos hp] at h; exact absurd h (by simp)
  · rw [if_neg hp] at h
    by_cases hr : readerr = true
    · rw [if_pos hr] at h
      injection h with h
      subst h
      exact ⟨rfl, rfl, rfl, rfl⟩
    · rw [if_neg hr] at h
      injection h with h
      subst h
      exact ⟨rfl, rfl, rfl, rfl⟩

/-- The path-buffer invariant on the walks that have a defined result: a
call entered with the buffer holding a path of `pathlen` characters returns
with the buffer holding that path. -/
theorem dirconv_r_buffer {FS : Type} (env : Env FS) (o : Options) :
    ∀ (fds : Nat) (w : Walk FS) (pathlen : Nat) (w' : Walk FS),
      dirconv_r fds env o w pathlen = some w' → nulfree w.pathbuf →
      w.pathbuf.length = pathlen → w'.pathbuf = w.pathbuf := by
  intro fds
  induction fds with
  | zero =>
    intro w pathlen w' h _ _
    rw [dirconv_r] at h
    injection h with h
    subst h
    rfl
  | succ fds ih =>
    intro w pathlen w' h hfree hlen
    rw [dirconv_r] at h
    cases hop : env.opendir w.fs w.pathbuf with
    | none =>
      rw [hop] at h
      injection h with h
      subst h
      rfl
    | some r =>
      obtain ⟨names, readerr⟩ := r
      rw [hop] at h
      simp only at h
      cases hl : dirconv_loop (dirconv_r fds env o) env o pathlen names w w.bufaddr with
      | none => rw [hl] at h; exact absurd h (by simp)
      | some r2 =>
        obtain ⟨w1, path⟩ := r2
        rw [hl] at h
        simp only at h
        obtain ⟨_, c2, _⟩ := dirconv_loop_buffer (dirconv_r fds env o) env o pathlen
          (fun w len w3 h3 hf hl3 => ih w len w3 h3 hf hl3) names w w.bufaddr w1 path hfree
          (le_of_eq hlen.symm) hl
        rw [(dirconv_end_buffer w1 pathlen path readerr w' h).1, c2, ← hlen, List.take_length]

/-! ## A dry run has a defined result -/

theorem entry_defined {FS : Type} (env : Env FS) (o : Options) (w : Walk FS) (pathlen : Nat)
    (name : List Byte) (hskip : skipped env name = false)
    (hclass : entry_class env.revconv name ≠ none) :
    ∃ w2 d, entry env o w pathlen name = some (w2, d) := by
  have hdot : ¬ (cstr name = [0x2e] ∨ cstr name = [0x2e, 0x2e]) := by
    intro hd
    unfold skipped at hskip
    simp [hd] at hskip
  have hexcl : excluded env.excl name = false := by
    unfold skipped at hskip
    simpa [hdot] using hskip
  cases hstat : env.lstat w.fs (entry_path w pathlen name) with
  | none =>
    unfold entry
    rw [if_neg hdot, if_neg (by simp [hexcl])]
    have hfs : (grown env w pathlen name).fs = w.fs := rfl
    simp only [hfs, hstat]
    exact ⟨_, _, rfl⟩
  | some isdir =>
    cases hc : entry_class env.revconv name with
    | none => exact absurd hc hclass
    | some q =>
      obtain ⟨nc, utfname⟩ := q
      exact ⟨_, _, (entry_processed env o w pathlen name isdir hdot hexcl hstat).2 nc utfname hc⟩

theorem grown_fits {FS : Type} (env : Env FS) (w : Walk FS) (pathlen : Nat) (name : List Byte)
    (hsame : env.moves w.pathsize w.pathsize = false)
    (hfit : growbuf w.pathsize (pathlen + 1 + (cstr name).length) = w.pathsize) :
    (grown env w pathlen name).pathsize = w.pathsize ∧
      (grown env w pathlen name).bufaddr = w.bufaddr := by
  unfold grown realloc_addr
  simp only [hfit, hsame]
  simp

theorem dirconv_loop_total {FS : Type} (descend : Walk FS → Nat → Option (Walk FS))
    (env : Env FS) (o : Options) (pathlen : Nat) (hn : o.opt_n ≠ 0) (fs : FS) (size : Nat)
    (hsame : env.moves size size = false)
    (hd : ∀ w len, w.fs = fs → w.pathsize = size → nulfree w.pathbuf → w.pathbuf.length = len →
      ∃ w3, descend w len = some w3 ∧ w3.fs = fs ∧ w3.pathsize = size ∧
        w3.bufaddr = w.bufaddr ∧ w3.pathbuf = w.pathbuf) :
    ∀ (names : List (List Byte)) (w : Walk FS),
      (∀ name ∈ names, skipped env name = false →
        entry_class env.revconv name ≠ none ∧
        growbuf size (pathlen + 1 + (cstr name).length) = size) →
      w.fs = fs → w.pathsize = size → nulfree w.pathbuf → pathlen ≤ w.pathbuf.length →
      ∃ w', dirconv_loop descend env o pathlen names w w.bufaddr = some (w', w.bufaddr) ∧
        w'.fs = fs ∧ w'.pathsize = size ∧ w'.bufaddr = w.bufaddr := by
  intro names
  induction names with
  | nil =>
    intro w _ hfs hsz _ _
    exact ⟨w, by rw [dirconv_loop], hfs, hsz, rfl⟩
  | cons name rest ih =>
    intro w hnames hfs hsz hfree hlen
    have hrest : ∀ n ∈ rest, skipped env n = false →
        entry_class env.revconv n ≠ none ∧
        growbuf size (pathlen + 1 + (cstr n).length) = size :=
      fun n hn' => hnames n (List.mem_cons_of_mem _ hn')
    rw [dirconv_loop]
    by_cases hskip : skipped env name = true
    · rw [if_pos hskip]
      exact ih w hrest hfs hsz hfree hlen
    · rw [if_neg hskip]
      have hskip' : skipped env name = false := by simpa using hskip
      obtain ⟨hclass, hfit⟩ := hnames name (List.mem_cons_self _ _) hskip'
      obtain ⟨g1, g2⟩ := grown_fits env w pathlen name (hsz ▸ hsame) (hsz ▸ hfit)
      rw [if_neg (by rw [g2]; simp)]
      obtain ⟨w2, d, he⟩ := entry_defined env o w pathlen name hskip' hclass
      obtain ⟨b1, _, b3, b4⟩ := entry_buffer env o w pathlen name w2 d hfree hlen he
      obtain ⟨_, _, _, _, _, hc⟩ := entry_effect env o w pathlen name w2 d hskip' he
      rcases hc with ⟨e1, _, e3, e4, _⟩ | ⟨hn0, _⟩
      · rw [he]
        have hfs2 : w2.fs = fs := e1.trans hfs
        have hsz2 : w2.pathsize = size := (e3.trans g1).trans hsz
        have had2 : w2.bufaddr = w.bufaddr := e4.trans g2
        cases d with
        | none =>
          simp only
          obtain ⟨w', h1, h2, h3, h4⟩ := ih w2 hrest hfs2 hsz2 b1 b3
          exact ⟨w', by rw [← had2]; exact h1, h2, h3, h4.trans had2⟩
        | some len =>
          simp only
          obtain ⟨w3, k1, k2, k3, k4, k5⟩ := hd w2 len hfs2 hsz2 b1 (b4 len rfl)
          rw [k1]
          simp only
          obtain ⟨w', h1, h2, h3, h4⟩ := ih w3 hrest k2 k3 (k5 ▸ b1) (k5 ▸ b3)
          have had3 : w3.bufaddr = w.bufaddr := k4.trans had2
          refine ⟨w', ?_, h2, h3, h4.trans had3⟩
          rw [had2, ← had3]
          exact h1
      · exact absurd hn0 hn

/-- A dry run has a defined result when the names it meets have a defined
class and the entry paths fit the buffer. -/
theorem dirconv_r_total {FS : Type} (env : Env FS) (o : Options) (hn : o.opt_n ≠ 0) (fs : FS)
    (size : Nat) (hsame : env.moves size size = false)
    (hnames : ∀ dir names readerr, env.opendir fs dir = some (names, readerr) →
      ∀ name ∈ names, skipped env name = false →
        entry_class env.revconv name ≠ none ∧
        growbuf size (dir.length + 1 + (cstr name).length) = size) :
    ∀ (fds : Nat) (w : Walk FS) (pathlen : Nat),
      w.fs = fs → w.pathsize = size → nulfree w.pathbuf → w.pathbuf.length = pathlen →
      ∃ w', dirconv_r fds env o w pathlen = some w' ∧ w'.fs = fs ∧ w'.pathsize = size ∧
        w'.bufaddr = w.bufaddr ∧ w'.pathbuf = w.pathbuf := by
  intro fds
  induction fds with
  | zero =>
    intro w pathlen hfs hsz _ _
    exact ⟨{ w with errcnt := w.errcnt + 1, out := w.out ++ [.warn .opendir w.pathbuf] },
      by rw [dirconv_r], hfs, hsz, rfl, rfl⟩
  | succ fds ih =>
    intro w pathlen hfs hsz hfree hlen
    cases hop : env.opendir w.fs w.pathbuf with
    | none =>
      exact ⟨{ w with errcnt := w.errcnt + 1, out := w.out ++ [.warn .opendir w.pathbuf] },
        by rw [dirconv_r, hop], hfs, hsz, rfl, rfl⟩
    | some r =>
      obtain ⟨names, readerr⟩ := r
      have hx : ∀ name ∈ names, skipped env name = false →
          entry_class env.revconv name ≠ none ∧
          growbuf size (pathlen + 1 + (cstr name).length) = size := by
        intro name hmem hs
        have := hnames w.pathbuf names readerr (hfs ▸ hop) name hmem hs
        rw [hlen] at this
        exact this
      obtain ⟨w1, l1, l2, l3, l4⟩ := dirconv_loop_total (dirconv_r fds env o) env o pathlen hn
        fs size hsame (fun w len a b c d => ih w len a b c d) names w hx hfs hsz hfree
        (le_of_eq hlen.symm)
      have hend : dirconv_end w1 pathlen w.bufaddr readerr ≠ none := by
        unfold dirconv_end
        rw [if_neg (by rw [l4]; simp)]
        split <;> simp
      cases he : dirconv_end w1 pathlen w.bufaddr readerr with
      | none => exact absurd he hend
      | some w' =>
        obtain ⟨e1, e2, e3, e4⟩ := dirconv_end_buffer w1 pathlen w.bufaddr readerr w' he
        have hr : dirconv_r (fds + 1) env o w pathlen = some w' := by
          rw [dirconv_r, hop]
          simp only [l1, he]
        refine ⟨w', hr, e2.trans l2, e3.trans l3, e4.trans l4, ?_⟩
        exact dirconv_r_buffer env o (fds + 1) w pathlen w' hr hfree hlen

set_option maxRecDepth 100000 in
theorem tree_walk_names (dir : List Byte) (names : List (List Byte)) (readerr : Bool)
    (h : (tree_env latin1_to_utf8 utf8_to_latin1).opendir tree_walk.fs dir =
      some (names, readerr)) :
    ∀ name ∈ names, skipped (tree_env latin1_to_utf8 utf8_to_latin1) name = false →
      entry_class (tree_env latin1_to_utf8 utf8_to_latin1).revconv name ≠ none ∧
      growbuf tree_walk.pathsize (dir.length + 1 + (cstr name).length) =
        tree_walk.pathsize := by
  by_cases h1 : dir = [0x2f, 0x64]
  · subst h1
    have : (tree_env latin1_to_utf8 utf8_to_latin1).opendir tree_walk.fs [0x2f, 0x64] =
        some ([[0xe9], [0x61]], false) := by decide
    rw [this] at h
    injection h with h
    injection h with h _
    subst h
    decide
  · by_cases h2 : dir = [0x2f, 0x64, 0x2f, 0xe9]
    · subst h2
      have : (tree_env latin1_to_utf8 utf8_to_latin1).opendir tree_walk.fs
          [0x2f, 0x64, 0x2f, 0xe9] = some ([[0xe8]], false) := by decide
      rw [this] at h
      injection h with h
      injection h with h _
      subst h
      decide
    · exfalso
      have e1 : (dir == [0x2f, 0x64]) = false := by simpa using h1
      have e2 : (dir == [0x2f, 0x64, 0x2f, 0xe9]) = false := by simpa using h2
      simp only [tree_env, tree_walk, List.lookup, e1, e2] at h
      cases e3 : dir == [0x2f, 0x64, 0x2f, 0xe9, 0x2f, 0xe8] <;>
        cases e4 : dir == [0x2f, 0x64, 0x2f, 0x61] <;> simp [e3, e4] at h

/-! ## Dry run -/

/-- A dry run (`opt_n` set) that starts with the buffer holding the
directory path, over a tree whose entry names have a defined class and whose
entry paths fit the buffer, has a defined result: the file system is
as it was before the walk, every event written is a line or a warning that
reports neither a collision nor a failed rename, `errcnt` grew by the number
of warnings written, and a second walk over the file system that the first
one left gives the same result, so the same plan lines in the same order. -/
theorem dry_walk_defined {FS : Type} (env : Env FS) (o : Options) (fds : Nat) (w : Walk FS)
    (pathlen : Nat) (hn : o.opt_n ≠ 0) (hfree : nulfree w.pathbuf)
    (hlen : w.pathbuf.length = pathlen)
    (hsame : env.moves w.pathsize w.pathsize = false)
    (hnames : ∀ dir names readerr, env.opendir w.fs dir = some (names, readerr) →
      ∀ name ∈ names, skipped env name = false →
        entry_class env.revconv name ≠ none ∧
        growbuf w.pathsize (dir.length + 1 + (cstr name).length) = w.pathsize) :
    ∃ w', dirconv_r fds env o w pathlen = some w' ∧ w'.fs = w.fs ∧
      (∃ news, w'.out = w.out ++ news ∧
        w'.errcnt = w.errcnt + (news.filter is_warning).length ∧
        ∀ e ∈ news, rename_error e = false) ∧
      dirconv_r fds env o { w with fs := w'.fs } pathlen = some w' := by
  obtain ⟨w', h, hfs, _⟩ := dirconv_r_total env o hn w.fs w.pathsize hsame hnames fds w pathlen
    rfl rfl hfree hlen
  refine ⟨w', h, hfs, (dirconv_r_quiet env o hn fds w pathlen w' h).2, ?_⟩
  rw [hfs]
  exact h

set_option maxRecDepth 100000 in
/-- The dry run over the tree `/d` with the directory `e9`, its file `e8`
and the file `a`. -/
theorem dry_walk_example :
    ∃ w', dirconv_r 5 (tree_env latin1_to_utf8 utf8_to_latin1) dry_options tree_walk 2 =
        some w' ∧ w'.fs = tree_walk.fs ∧
      (∃ news, w'.out = tree_walk.out ++ news ∧
        w'.errcnt = tree_walk.errcnt + (news.filter is_warning).length ∧
        ∀ e ∈ news, rename_error e = false) ∧
      dirconv_r 5 (tree_env latin1_to_utf8 utf8_to_latin1) dry_options
        { tree_walk with fs := w'.fs } 2 = some w' :=
  dry_walk_defined (tree_env latin1_to_utf8 utf8_to_latin1) dry_options 5 tree_walk 2
    (by decide) (by decide) (by decide) (by decide) tree_walk_names

set_option maxRecDepth 100000 in
/-- The plan of the dry run over the example tree: two lines, the second
with the path of the directory as it is, not renamed. -/
theorem example_plan :
    (dirconv_r 5 (tree_env latin1_to_utf8 utf8_to_latin1) dry_options tree_walk 2).map
        (fun w => (w.fs == tree_walk.fs, w.out, w.errcnt, w.pathbuf)) =
      some (true,
        [.plan [0x2f, 0x64, 0x2f, 0xe9] [0x2f, 0x64, 0x2f, 0xc3, 0xa9],
         .plan [0x2f, 0x64, 0x2f, 0xe9, 0x2f, 0xe8] [0x2f, 0x64, 0x2f, 0xe9, 0x2f, 0xc3, 0xa8]],
        0, [0x2f, 0x64]) := by
  decide

set_option maxRecDepth 100000 in
/-- The walk over the example tree with renaming on: the directory and its
file are renamed, and the buffer holds the directory path again. -/
theorem rename_walk :
    (dirconv_r 5 (tree_env latin1_to_utf8 utf8_to_latin1) gate_options tree_walk 2).map
        (fun w => (w.fs, w.errcnt, w.pathbuf)) =
      some ([([0x2f, 0x64], true), ([0x2f, 0x64, 0x2f, 0xc3, 0xa9], true),
             ([0x2f, 0x64, 0x2f, 0xc3, 0xa9, 0x2f, 0xc3, 0xa8], false),
             ([0x2f, 0x64, 0x2f, 0x61], false)], 0, [0x2f, 0x64]) := by
  decide

set_option maxRecDepth 100000 in
/-- Claim C11, the failing case. A dry run (`-8 -r -n`) over the directory
`/d` with the files `fe 82 80 80 80 80 80` and `e9`: the stream delivers both
names, and a rename of `e9` is planned when the iteration reaches it, but the
iteration for the first name has no defined result (`classify` reaches
`1U << 32`), so the walk has none: it writes no line for `e9` and does not
come to an end. A dry run over a directory whose entry path needs the buffer
enlarged has no defined result either, when `realloc` moves the block. -/
theorem dry_run_undefined :
    dry_options.opt_r ≠ 0 ∧ dry_options.opt_n ≠ 0 ∧
    (tree_env latin1_to_utf8 utf8_to_latin1).opendir fe_walk.fs fe_walk.pathbuf =
      some ([[0xfe, 0x82, 0x80, 0x80, 0x80, 0x80, 0x80], [0xe9]], false) ∧
    planned fe_walk (iteration (tree_env latin1_to_utf8 utf8_to_latin1) dry_options fe_walk 2
      [0xe9] fe_walk.bufaddr) = true ∧
    (iteration (tree_env latin1_to_utf8 utf8_to_latin1) dry_options fe_walk 2
      [0xfe, 0x82, 0x80, 0x80, 0x80, 0x80, 0x80] fe_walk.bufaddr).isNone = true ∧
    (dirconv_r 5 (tree_env latin1_to_utf8 utf8_to_latin1) dry_options fe_walk 2).isNone =
      true ∧
    (dirconv_r 5 (tree_env latin1_to_utf8 utf8_to_latin1) dry_options long_walk 62).isNone =
      true := by
  decide

/-! ## The local pointer to the buffer -/

/-- Claim C12, the failing case. When `growbuf` at line 284 has to enlarge the
buffer for the first entry that is not skipped and `realloc` moves the block,
the local `path`, loaded once at line 255, no longer points at the buffer:
lines 288-289 write the entry path through a dangling pointer, and the call
has no defined result, so no buffer that holds the directory path again. -/
theorem stale_path {FS : Type} (env : Env FS) (o : Options) (fds : Nat) (w : Walk FS)
    (pathlen : Nat) (name : List Byte) (rest : List (List Byte)) (readerr : Bool)
    (hop : env.opendir w.fs w.pathbuf = some (name :: rest, readerr))
    (hskip : skipped env name = false)
    (hmove : env.moves w.pathsize
      (growbuf w.pathsize (pathlen + 1 + (cstr name).length)) = true) :
    dirconv_r (fds + 1) env o w pathlen = none := by
  rw [dirconv_r, hop]
  simp only
  rw [dirconv_loop, if_neg (by simp [hskip])]
  have hg : (grown env w pathlen name).bufaddr = w.bufaddr + 1 := by
    unfold grown realloc_addr
    simp only [hmove, if_true]
  rw [if_pos (by rw [hg]; omega)]

set_option maxRecDepth 100000 in
/-- A directory path of 62 characters in a buffer of 64 bytes and the
entry `a`: the entry path needs 65 bytes, the buffer is enlarged to 128 and
moves. -/
theorem stale_path_witness :
    dirconv_r (4 + 1) (tree_env latin1_to_utf8 utf8_to_latin1) gate_options long_walk 62 =
      none :=
  stale_path (tree_env latin1_to_utf8 utf8_to_latin1) gate_options 4 long_walk 62 [0x61] []
    false (by decide) (by decide) (by decide)

set_option maxRecDepth 100000 in
/-- Claim C20, the failing case. A directory path of 60 characters in a
buffer of 64 bytes and the directory entry `sub`, which is not renamed: the
entry path needs the buffer enlarged, `realloc` moves it, and the path is
written through the old pointer; the walk has no defined result, and the
recursive call does not receive the directory path, a slash and `sub`. -/
theorem descent_stale :
    (dirconv_r 5 (tree_env latin1_to_utf8 utf8_to_latin1) dry_options deep_walk 60).isNone =
      true ∧
    (dirconv_loop (dirconv_r 4 (tree_env latin1_to_utf8 utf8_to_latin1) dry_options)
      (tree_env latin1_to_utf8 utf8_to_latin1) dry_options 60 [[0x73, 0x75, 0x62]]
      deep_walk deep_walk.bufaddr).isNone = true := by
  decide

/-- The path that the recursive call receives, when the iteration has a
defined result: if no rename took place, the directory path, a slash and the
entry name; after a rename, the directory path, a slash and the new name; and
`pathlen` is the length of that path. -/
theorem descent_path {FS : Type} (env : Env FS) (o : Options) (w : Walk FS) (pathlen : Nat)
    (name : List Byte) (w2 : Walk FS) (len : Nat)
    (hfree : nulfree w.pathbuf) (hlen : w.pathbuf.length = pathlen)
    (h : entry env o w pathlen name = some (w2, some len)) :
    (w2.fs = w.fs ∧ w2.pathbuf = w.pathbuf ++ 0x2f :: cstr name ∧
      len = pathlen + 1 + (cstr name).length) ∨
    (o.opt_n = 0 ∧ ∃ u, candidate env name = some u ∧
      env.rename w.fs (w.pathbuf ++ 0x2f :: cstr name) (w.pathbuf ++ 0x2f :: cstr u) =
        some w2.fs ∧
      w2.pathbuf = w.pathbuf ++ 0x2f :: cstr u ∧ len = pathlen + 1 + (cstr u).length) := by
  have htake : w.pathbuf.take pathlen = w.pathbuf := by rw [← hlen, List.take_length]
  cases hskip : skipped env name with
  | true =>
    rw [entry_skipped env o w pathlen name hskip] at h
    injection h with h
    injection h with _ h2
    cases h2
  | false =>
    obtain ⟨news, _, _, _, _, hc⟩ := entry_effect env o w pathlen name w2 (some len) hskip h
    have hpe : entry_path w pathlen name = w.pathbuf ++ 0x2f :: cstr name := by
      unfold entry_path; rw [htake]
    have hpf : nulfree (entry_path w pathlen name) := by
      rw [hpe]; exact nulfree_path _ name hfree
    have hcs : cstr (entry_path w pathlen name) = entry_path w pathlen name :=
      cstr_of_nulfree _ hpf
    have htk : (w.pathbuf ++ 0x2f :: cstr name).take pathlen = w.pathbuf := by
      rw [← hlen, List.take_left]
    rcases hc with ⟨hfs, hb, _, _, hd⟩ | ⟨hn0, u, fs, hcand, hren, hfs, hr⟩
    · rcases hd with hd | hd
      · cases hd
      · injection hd with hd
        exact Or.inl ⟨hfs, hb.trans hpe, hd⟩
    · rcases hr with ⟨hd, _⟩ | ⟨hd, hb⟩
      · cases hd
      · injection hd with hd
        rw [hcs, hpe, htk] at hren hb
        exact Or.inr ⟨hn0, u, hcand, by rw [hfs]; exact hren, hb, hd⟩

/-! ## The buffer size -/

theorem growloop_spec : ∀ (fuel len t : Nat), len + 2 ≤ t * 2 ^ fuel →
    ∃ n, growloop fuel len t = t * 2 ^ n ∧ len + 1 < t * 2 ^ n ∧
      ∀ m, m < n → t * 2 ^ m ≤ len + 1 := by
  intro fuel
  induction fuel with
  | zero =>
    intro len t h
    refine ⟨0, by rw [growloop]; simp, by simpa using h, fun m hm => absurd hm (Nat.not_lt_zero m)⟩
  | succ fuel ih =>
    intro len t h
    rw [growloop]
    by_cases hc : len + 1 ≥ t
    · rw [if_pos hc]
      have h' : len + 2 ≤ t * 2 * 2 ^ fuel := by
        rw [pow_succ] at h
        calc len + 2 ≤ t * (2 ^ fuel * 2) := h
          _ = t * 2 * 2 ^ fuel := by ring
      obtain ⟨n, h1, h2, h3⟩ := ih len (t * 2) h'
      refine ⟨n + 1, ?_, ?_, ?_⟩
      · rw [h1, pow_succ]; ring
      · calc len + 1 < t * 2 * 2 ^ n := h2
          _ = t * 2 ^ (n + 1) := by rw [pow_succ]; ring
      · intro m hm
        cases m with
        | zero => simpa using hc
        | succ m =>
          have := h3 m (by omega)
          calc t * 2 ^ (m + 1) = t * 2 * 2 ^ m := by rw [pow_succ]; ring
            _ ≤ len + 1 := this
    · rw [if_neg hc]
      exact ⟨0, by simp, by simpa using hc, fun m hm => absurd hm (Nat.not_lt_zero m)⟩

theorem growbuf_fuel (size len : Nat) :
    len + 2 ≤ (if size < 64 then 64 else size) * 2 ^ (len + 2) := by
  have h1 : len + 2 < 2 ^ (len + 2) := Nat.lt_two_pow (len + 2)
  have h2 : 1 ≤ (if size < 64 then 64 else size) := by split <;> omega
  calc len + 2 ≤ 1 * 2 ^ (len + 2) := by omega
    _ ≤ (if size < 64 then 64 else size) * 2 ^ (len + 2) := Nat.mul_le_mul_right _ h2

theorem growbuf_floor (size : Nat) : (if size < 64 then 64 else size) = max size 64 := by
  split
  · rw [max_eq_right]; omega
  · rw [max_eq_left]; omega

/-- Claim C13. For every size and every length, the doubling loop of `growbuf`
ends by its own test (the result exceeds `len + 1`, so the bound on the
number of doublings in the model is never what stops it), and the size it
stores is at least `len + 1` and at least 64. -/
theorem growbuf_capacity (size len : Nat) :
    ¬ (len + 1 ≥ growbuf size len) ∧ growbuf size len ≥ len + 1 ∧ growbuf size len ≥ 64 := by
  obtain ⟨n, h1, h2, _⟩ := growloop_spec (len + 2) len _ (growbuf_fuel size len)
  have h3 : 64 ≤ (if size < 64 then 64 else size) * 2 ^ n := by
    have : 1 ≤ 2 ^ n := Nat.one_le_two_pow
    have h4 : 64 ≤ (if size < 64 then 64 else size) := by split <;> omega
    calc 64 ≤ (if size < 64 then 64 else size) * 1 := by omega
      _ ≤ (if size < 64 then 64 else size) * 2 ^ n := Nat.mul_le_mul_left _ this
  unfold growbuf
  rw [h1]
  omega

/-- Claim C18, the example of the claim. With a size of 64 and a length of
63 the buffer already holds `len + 1` bytes, and `growbuf` doubles it. -/
theorem growbuf_doubles_when_full :
    growbuf 64 63 = 128 ∧ 63 + 1 ≤ max 64 64 * 2 ^ 0 := by
  decide

/-- Claim C18, amended. For every size and every length `len` for which
`len + 1` does not overflow the `int`: the new size is `max(size, 64) * 2^n`
for the smallest `n` that makes it exceed `len + 1`, that is, hold at least
`len + 2` bytes; the size never shrinks, and it is left as it is exactly
when `max(size, 64)` exceeds `len + 1`. No doubling leaves the range of
`size_t`, whatever its width from 32 bits on: the new size is the old one or
at most `2 * (len + 1)`. -/
theorem growbuf_policy (size len : Nat) (hlen : len + 1 < 2 ^ 31) :
    (∃ n, growbuf size len = max size 64 * 2 ^ n ∧ len + 1 < max size 64 * 2 ^ n ∧
      ∀ m, m < n → max size 64 * 2 ^ m ≤ len + 1) ∧
    size ≤ growbuf size len ∧
    (growbuf size len = max size 64 ↔ len + 1 < max size 64) ∧
    (∀ width, 32 ≤ width → size < 2 ^ width → growbuf size len < 2 ^ width) := by
  obtain ⟨n, h1, h2, h3⟩ := growloop_spec (len + 2) len _ (growbuf_fuel size len)
  rw [growbuf_floor] at h1 h2 h3
  have hg : growbuf size len = max size 64 * 2 ^ n := by
    unfold growbuf; rw [growbuf_floor]; exact h1
  have hpos : 1 ≤ 2 ^ n := Nat.one_le_two_pow
  have hmax : size ≤ max size 64 := le_max_left _ _
  have h64 : 64 ≤ max size 64 := le_max_right _ _
  refine ⟨⟨n, hg, h2, h3⟩, ?_, ?_, ?_⟩
  · rw [hg]
    calc size ≤ max size 64 * 1 := by omega
      _ ≤ max size 64 * 2 ^ n := Nat.mul_le_mul_left _ hpos
  · rw [hg]
    constructor
    · intro h
      rw [h] at h2
      exact h2
    · intro h
      cases n with
      | zero => simp
      | succ n =>
        have := h3 0 (by omega)
        simp at this
        omega
  · intro width hw hsize
    have h32 : 2 ^ 32 ≤ 2 ^ width := Nat.pow_le_pow_right (by norm_num) hw
    rw [hg]
    cases n with
    | zero =>
      simp only [pow_zero, mul_one]
      rcases max_cases size 64 with ⟨h, _⟩ | ⟨h, _⟩ <;> rw [h] <;> omega
    | succ k =>
      have hk := h3 k (by omega)
      have : max size 64 * 2 ^ (k + 1) = 2 * (max size 64 * 2 ^ k) := by
        rw [pow_succ]; ring
      rw [this]
      omega

/-- A buffer of 64 bytes is left as it is for a length of 62. -/
theorem growbuf_policy_witness :
    growbuf 64 62 = max 64 64 ∧ 64 ≤ growbuf 64 62 :=
  ⟨(growbuf_policy 64 62 (by decide)).2.2.1.2 (by decide),
   (growbuf_policy 64 62 (by decide)).2.1⟩

/-! ## The options of the command line -/

theorem option_switch_count (o o' : Options) (opt : Char) (h : option_switch o opt = some o') :
    o'.opt_7 = o.opt_7 + [opt].count '7' ∧ o'.opt_8 = o.opt_8 + [opt].count '8' ∧
    o'.opt_u = o.opt_u + [opt].count 'u' ∧ o'.opt_w = o.opt_w + [opt].count 'w' ∧
    o'.opt_p = o.opt_p + [opt].count 'p' ∧ o'.opt_r = o.opt_r + [opt].count 'r' := by
  unfold option_switch at h
  by_cases h0 : opt = '0'
  · rw [if_pos h0] at h
    injection h with h
    subst h; subst h0
    refine ⟨?_, ?_, ?_, ?_, ?_, ?_⟩ <;> simp
  rw [if_neg h0] at h
  by_cases h1 : opt = '7'
  · rw [if_pos h1] at h
    injection h with h
    subst h; subst h1
    refine ⟨?_, ?_, ?_, ?_, ?_, ?_⟩ <;> simp
  rw [if_neg h1] at h
  by_cases h2 : opt = '8'
  · rw [if_pos h2] at h
    injection h with h
    subst h; subst h2
    refine ⟨?_, ?_, ?_, ?_, ?_, ?_⟩ <;> simp
  rw [if_neg h2] at h
  by_cases h3 : opt = 'd'
  · rw [if_pos h3] at h
    injection h with h
    subst h; subst h3
    refine ⟨?_, ?_, ?_, ?_, ?_, ?_⟩ <;> simp
  rw [if_neg h3] at h
  by_cases h4 : opt = 'F'
  · rw [if_pos h4] at h
    injection h with h
    subst h; subst h4
    refine ⟨?_, ?_, ?_, ?_, ?_, ?_⟩ <;> simp
  rw [if_neg h4] at h
  by_cases h5 : opt = 'f'
  · rw [if_pos h5] at h
    injection h with h
    subst h; subst h5
    refine ⟨?_, ?_, ?_, ?_, ?_, ?_⟩ <;> simp
  rw [if_neg h5] at h
  by_cases h6 : opt = 'n'
  · rw [if_pos h6] at h
    injection h with h
    subst h; subst h6
    refine ⟨?_, ?_, ?_, ?_, ?_, ?_⟩ <;> simp
  rw [if_neg h6] at h
  by_cases h7 : opt = 'p'
  · rw [if_pos h7] at h
    injection h with h
    subst h; subst h7
    refine ⟨?_, ?_, ?_, ?_, ?_, ?_⟩ <;> simp
  rw [if_neg h7] at h
  by_cases h8 : opt = 'r'
  · rw [if_pos h8] at h
    injection h with h
    subst h; subst h8
    refine ⟨?_, ?_, ?_, ?_, ?_, ?_⟩ <;> simp
  rw [if_neg h8] at h
  by_cases h9 : opt = 't'
  · rw [if_pos h9] at h
    injection h with h
    subst h; subst h9
    refine ⟨?_, ?_, ?_, ?_, ?_, ?_⟩ <;> simp
  rw [if_neg h9] at h
  by_cases h10 : opt = 'u'
  · rw [if_pos h10] at h
    injection h with h
    subst h; subst h10
    refine ⟨?_, ?_, ?_, ?_, ?_, ?_⟩ <;> simp
  rw [if_neg h10] at h
  by_cases h11 : opt = 'w'
  · rw [if_pos h11] at h
    injection h with h
    subst h; subst h11
    refine ⟨?_, ?_, ?_, ?_, ?_, ?_⟩ <;> simp
  rw [if_neg h11] at h
  by_cases h12 : opt = 'x'
  · rw [if_pos h12] at h
    injection h with h
    subst h; subst h12
    refine ⟨?_, ?_, ?_, ?_, ?_, ?_⟩ <;> simp
  rw [if_neg h12] at h
  cases h

theorem option_loop_count : ∀ (letters : List Char) (o o' : Options),
    option_loop letters o = some o' →
    o'.opt_7 = o.opt_7 + letters.count '7' ∧ o'.opt_8 = o.opt_8 + letters.count '8' ∧
    o'.opt_u = o.opt_u + letters.count 'u' ∧ o'.opt_w = o.opt_w + letters.count 'w' ∧
    o'.opt_p = o.opt_p + letters.count 'p' ∧ o'.opt_r = o.opt_r + letters.count 'r' := by
  intro letters
  induction letters with
  | nil =>
    intro o o' h
    rw [option_loop] at h
    injection h with h
    subst h
    simp
  | cons opt rest ih =>
    intro o o' h
    rw [option_loop] at h
    cases hs : option_switch o opt with
    | none => rw [hs] at h; cases h
    | some o1 =>
      rw [hs] at h
      obtain ⟨a1, a2, a3, a4, a5, a6⟩ := option_switch_count o o1 opt hs
      obtain ⟨b1, b2, b3, b4, b5, b6⟩ := ih o1 o' h
      have hc : ∀ c : Char, (opt :: rest).count c = [opt].count c + rest.count c := by
        intro c
        rw [← List.count_append]
        rfl
      rw [hc, hc, hc, hc, hc, hc]
      omega

theorem normalise_classes (o : Options) :
    (o.opt_7 = 0 ∧ o.opt_8 = 0 ∧ o.opt_u = 0 ∧ o.opt_w = 0 →
      (normalise o).opt_8 = 1 ∧ (normalise o).opt_7 = 0 ∧ (normalise o).opt_u = 0 ∧
        (normalise o).opt_w = 0) ∧
    (¬ (o.opt_7 = 0 ∧ o.opt_8 = 0 ∧ o.opt_u = 0 ∧ o.opt_w = 0) →
      (normalise o).opt_7 = o.opt_7 ∧ (normalise o).opt_8 = o.opt_8 ∧
        (normalise o).opt_u = o.opt_u ∧ (normalise o).opt_w = o.opt_w) ∧
    (o.opt_p = 0 ∧ o.opt_r = 0 → (normalise o).opt_p = 1 ∧ (normalise o).opt_r = 0) ∧
    (¬ (o.opt_p = 0 ∧ o.opt_r = 0) →
      (normalise o).opt_p = o.opt_p ∧ (normalise o).opt_r = o.opt_r) := by
  unfold normalise
  simp only []
  refine ⟨?_, ?_, ?_, ?_⟩ <;> intro h <;> split_ifs <;> simp_all

/-- Claim C14. For the option letters of a command line with which `main`
reaches the walk: if none of `-7`, `-8`, `-u`, `-w` is among them, then
`opt_8` is 1 and `opt_7`, `opt_u`, `opt_w` are 0, and the selection predicate
selects exactly the class `nc_8bit`; if neither `-p` nor `-r` is among them,
then `opt_p` is 1; and if a class flag, respectively `-p` or `-r`, is among
them, the counters of those flags are as the command line gave them. -/
theorem option_defaults (letters : List Char) (o : Options)
    (h : main_options letters = some o) :
    ('7' ∉ letters ∧ '8' ∉ letters ∧ 'u' ∉ letters ∧ 'w' ∉ letters →
      o.opt_8 = 1 ∧ o.opt_7 = 0 ∧ o.opt_u = 0 ∧ o.opt_w = 0 ∧
        ∀ nc, selected o nc = true ↔ nc = .nc_8bit) ∧
    ('p' ∉ letters ∧ 'r' ∉ letters → o.opt_p = 1) ∧
    ('7' ∈ letters ∨ '8' ∈ letters ∨ 'u' ∈ letters ∨ 'w' ∈ letters →
      o.opt_7 = letters.count '7' ∧ o.opt_8 = letters.count '8' ∧
        o.opt_u = letters.count 'u' ∧ o.opt_w = letters.count 'w') ∧
    ('p' ∈ letters ∨ 'r' ∈ letters →
      o.opt_p = letters.count 'p' ∧ o.opt_r = letters.count 'r') := by
  unfold main_options at h
  cases hl : option_loop letters no_options with
  | none => rw [hl] at h; cases h
  | some o1 =>
    rw [hl] at h
    simp only at h
    by_cases ht : 't' ∈ letters
    · rw [if_pos ht] at h; cases h
    · rw [if_neg ht] at h
      injection h with h
      subst h
      obtain ⟨c7, c8, cu, cw, cp, cr⟩ := option_loop_count letters no_options o1 hl
      have z7 : no_options.opt_7 = 0 := rfl
      have z8 : no_options.opt_8 = 0 := rfl
      have zu : no_options.opt_u = 0 := rfl
      have zw : no_options.opt_w = 0 := rfl
      have zp : no_options.opt_p = 0 := rfl
      have zr : no_options.opt_r = 0 := rfl
      rw [z7, Nat.zero_add] at c7
      rw [z8, Nat.zero_add] at c8
      rw [zu, Nat.zero_add] at cu
      rw [zw, Nat.zero_add] at cw
      rw [zp, Nat.zero_add] at cp
      rw [zr, Nat.zero_add] at cr
      obtain ⟨n1, n2, n3, n4⟩ := normalise_classes o1
      refine ⟨?_, ?_, ?_, ?_⟩
      · rintro ⟨h7, h8, hu, hw⟩
        have hz : o1.opt_7 = 0 ∧ o1.opt_8 = 0 ∧ o1.opt_u = 0 ∧ o1.opt_w = 0 := by
          rw [c7, c8, cu, cw]
          exact ⟨List.count_eq_zero.2 h7, List.count_eq_zero.2 h8, List.count_eq_zero.2 hu,
            List.count_eq_zero.2 hw⟩
        obtain ⟨m8, m7, mu, mw⟩ := n1 hz
        refine ⟨m8, m7, mu, mw, ?_⟩
        intro nc
        unfold selected
        rw [m8, m7, mu, mw]
        cases nc <;> simp
      · rintro ⟨hp, hr⟩
        exact (n3 ⟨by rw [cp]; exact List.count_eq_zero.2 hp,
          by rw [cr]; exact List.count_eq_zero.2 hr⟩).1
      · intro hgiven
        have hnz : ¬ (o1.opt_7 = 0 ∧ o1.opt_8 = 0 ∧ o1.opt_u = 0 ∧ o1.opt_w = 0) := by
          rw [c7, c8, cu, cw]
          rintro ⟨h7, h8, hu, hw⟩
          rcases hgiven with g | g | g | g
          · exact List.count_eq_zero.1 h7 g
          · exact List.count_eq_zero.1 h8 g
          · exact List.count_eq_zero.1 hu g
          · exact List.count_eq_zero.1 hw g
        obtain ⟨m7, m8, mu, mw⟩ := n2 hnz
        exact ⟨m7.trans c7, m8.trans c8, mu.trans cu, mw.trans cw⟩
      · intro hgiven
        have hnz : ¬ (o1.opt_p = 0 ∧ o1.opt_r = 0) := by
          rw [cp, cr]
          rintro ⟨hp, hr⟩
          rcases hgiven with g | g
          · exact List.count_eq_zero.1 hp g
          · exact List.count_eq_zero.1 hr g
        obtain ⟨mp, mr⟩ := n4 hnz
        exact ⟨mp.trans cp, mr.trans cr⟩

/-- The command line `-n -r -0` and the counters it gives: the class default
`-8` is applied, `opt_p` stays 0 and `opt_r` is 1. -/
theorem option_defaults_witness :
    ('7' ∉ ['n', 'r', '0'] ∧ '8' ∉ ['n', 'r', '0'] ∧ 'u' ∉ ['n', 'r', '0'] ∧
        'w' ∉ ['n', 'r', '0'] →
      dry_options.opt_8 = 1 ∧ dry_options.opt_7 = 0 ∧ dry_options.opt_u = 0 ∧
        dry_options.opt_w = 0 ∧ ∀ nc, selected dry_options nc = true ↔ nc = .nc_8bit) ∧
    ('p' ∉ ['n', 'r', '0'] ∧ 'r' ∉ ['n', 'r', '0'] → dry_options.opt_p = 1) ∧
    ('7' ∈ ['n', 'r', '0'] ∨ '8' ∈ ['n', 'r', '0'] ∨ 'u' ∈ ['n', 'r', '0'] ∨
        'w' ∈ ['n', 'r', '0'] →
      dry_options.opt_7 = ['n', 'r', '0'].count '7' ∧
        dry_options.opt_8 = ['n', 'r', '0'].count '8' ∧
        dry_options.opt_u = ['n', 'r', '0'].count 'u' ∧
        dry_options.opt_w = ['n', 'r', '0'].count 'w') ∧
    ('p' ∈ ['n', 'r', '0'] ∨ 'r' ∈ ['n', 'r', '0'] →
      dry_options.opt_p = ['n', 'r', '0'].count 'p' ∧
        dry_options.opt_r = ['n', 'r', '0'].count 'r') :=
  option_defaults ['n', 'r', '0'] dry_options (by decide)

/-! ## The line heuristic of mixconv -/

set_option maxRecDepth 100000 in
/-- The self-test of `mixconv.c`, lines 176-192: the output for `test_input`
is `test_output`. -/
theorem self_test : mixconv latin1_iconv test_input = some test_output := by decide

theorem window_eq (p : Nat) (b : Byte) (hp : p < 8) :
    window p b = p * 2 % 8 + (if bit7 b = true then 1 else 0) := by
  unfold window bit7
  have hq : b.val >>> 7 = b.val / 128 := by rw [Nat.shiftRight_eq_div_pow]
  have hs : p <<< 1 = p * 2 := by rw [Nat.shiftLeft_eq]
  rw [hq, hs]
  have hb := b.isLt
  by_cases h : 0x80 ≤ b.val
  · have : b.val / 128 = 1 := by omega
    rw [this]
    simp only [h, decide_True, if_true]
    interval_cases p <;> rfl
  · have : b.val / 128 = 0 := by omega
    rw [this]
    simp only [h, decide_False]
    interval_cases p <;> rfl

theorem window_loop_found (l : List Byte) : window_loop l 2 = 2 := by
  cases l with
  | nil => rfl
  | cons b rest => rw [window_loop, if_neg (by simp)]

theorem high_cons_succ (b : Byte) (l : List Byte) (i : Nat) :
    high (b :: l) (i + 1) = high l i := by
  unfold high
  rw [List.getD_cons_succ]

theorem high_cons_zero (b : Byte) (l : List Byte) : high (b :: l) 0 = bit7 b := by
  unfold high
  rw [List.getD_cons_zero]

/-- The window reaches `010` from a state `p` over the bytes `l` exactly
when the byte before `l` is an isolated one that `l` ends, or `l` has a byte
with bit 7 set between two bytes with bit 7 clear, the byte before `l`
counting as the neighbour of its first byte. -/
theorem window_loop_iff : ∀ (l : List Byte) (p : Nat), p < 8 → p ≠ 2 →
    (window_loop l p = 2 ↔
      (p % 4 = 1 ∧ 0 < l.length ∧ high l 0 = false) ∨
      ∃ i, i + 1 < l.length ∧ high l i = true ∧ high l (i + 1) = false ∧
        (if i = 0 then p % 2 = 0 else high l (i - 1) = false)) := by
  intro l
  induction l with
  | nil =>
    intro p _ hp2
    rw [window_loop]
    constructor
    · intro h; exact absurd h hp2
    · rintro (⟨_, h, _⟩ | ⟨i, h, _⟩)
      · simp at h
      · simp at h
  | cons b rest ih =>
    intro p hp hp2
    rw [window_loop, if_pos hp2]
    have hw := window_eq p b hp
    have hlt : window p b < 8 := by rw [hw]; split <;> omega
    by_cases h2 : window p b = 2
    · rw [h2, window_loop_found]
      have hb : bit7 b = false ∧ p % 4 = 1 := by
        rw [hw] at h2
        by_cases hb : bit7 b = true
        · rw [if_pos hb] at h2; omega
        · rw [if_neg hb] at h2
          exact ⟨by simpa using hb, by omega⟩
      constructor
      · intro _
        exact Or.inl ⟨hb.2, by simp, by rw [high_cons_zero]; exact hb.1⟩
      · intro _; rfl
    · rw [ih (window p b) hlt h2]
      have hm4 : window p b % 4 = 1 ↔ (p % 2 = 0 ∧ bit7 b = true) := by
        rw [hw]
        cases hbb : bit7 b
        · simp only [Bool.false_eq_true, if_false, and_false, iff_false]; omega
        · simp only [if_true, and_true]; omega
      have hm2 : window p b % 2 = 0 ↔ bit7 b = false := by
        rw [hw]
        cases hbb : bit7 b
        · simp only [Bool.false_eq_true, if_false, iff_true]; omega
        · simp only [if_true, Bool.true_eq_false, iff_false]; omega
      have hnot : ¬ (p % 4 = 1 ∧ bit7 b = false) := by
        rintro ⟨h4, hb⟩
        apply h2
        rw [hw, hb]
        simp
        omega
      constructor
      · rintro (⟨h4, hlen, hh⟩ | ⟨i, hlen, hi1, hi2, hi3⟩)
        · right
          refine ⟨0, by simpa using hlen, ?_, ?_, ?_⟩
          · rw [high_cons_zero]; exact (hm4.1 h4).2
          · rw [high_cons_succ]; exact hh
          · rw [if_pos rfl]; exact (hm4.1 h4).1
        · right
          refine ⟨i + 1, by simpa using hlen, ?_, ?_, ?_⟩
          · rw [high_cons_succ]; exact hi1
          · rw [high_cons_succ]; exact hi2
          · rw [if_neg (by omega)]
            by_cases hi0 : i = 0
            · subst hi0
              rw [if_pos rfl] at hi3
              simp only [Nat.zero_add, Nat.sub_self]
              rw [high_cons_zero]
              exact hm2.1 hi3
            · rw [if_neg hi0] at hi3
              obtain ⟨j, rfl⟩ := Nat.exists_eq_succ_of_ne_zero hi0
              simp only [Nat.succ_eq_add_one, Nat.add_sub_cancel] at hi3 ⊢
              rw [high_cons_succ]
              exact hi3
      · rintro (⟨h4, _, hh⟩ | ⟨i, hlen, hi1, hi2, hi3⟩)
        · rw [high_cons_zero] at hh
          exact absurd ⟨h4, hh⟩ hnot
        · cases i with
          | zero =>
            left
            rw [high_cons_zero] at hi1
            rw [high_cons_succ] at hi2
            rw [if_pos rfl] at hi3
            refine ⟨hm4.2 ⟨hi3, hi1⟩, ?_, hi2⟩
            simp at hlen
            exact hlen
          | succ j =>
            right
            rw [high_cons_succ] at hi1 hi2
            rw [if_neg (by omega)] at hi3
            simp only [Nat.add_sub_cancel] at hi3
            refine ⟨j, by simpa using hlen, hi1, hi2, ?_⟩
            cases j with
            | zero =>
              rw [if_pos rfl]
              rw [high_cons_zero] at hi3
              exact hm2.2 hi3
            | succ k =>
              rw [if_neg (by omega)]
              rw [high_cons_succ] at hi3
              simpa using hi3

theorem high_append_nul (line : List Byte) (i : Nat) : high (line ++ [0]) i = high line i := by
  unfold high
  by_cases h : i < line.length
  · rw [List.getD_append _ _ _ _ h]
  · have h' : line.length ≤ i := by omega
    rw [List.getD_append_right _ _ _ _ h', List.getD_eq_default _ _ h']
    cases i - line.length <;> rfl

/-- The window of `mixconv` reaches `010` on a line exactly when the line
contains an isolated high-bit byte. -/
theorem window_isolated (line : List Byte) :
    window_loop (line ++ [0]) 0 = 2 ↔ isolated line := by
  rw [window_loop_iff (line ++ [0]) 0 (by omega) (by omega)]
  unfold isolated
  constructor
  · rintro (⟨h, _⟩ | ⟨i, hlen, h1, h2, h3⟩)
    · simp at h
    · rw [high_append_nul] at h1 h2
      refine ⟨i, by simpa using hlen, h1, h2, ?_⟩
      intro hi
      rw [if_neg (by omega), high_append_nul] at h3
      exact h3
  · rintro ⟨i, hlen, h1, h2, h3⟩
    right
    refine ⟨i, by simpa using hlen, by rw [high_append_nul]; exact h1,
      by rw [high_append_nul]; exact h2, ?_⟩
    by_cases hi : i = 0
    · rw [if_pos hi]
    · rw [if_neg hi, high_append_nul]
      exact h3 (by omega)

/-! ## Isolated high-bit bytes -/

theorem bit7_false (b : Byte) : bit7 b = false ↔ b.val < 0x80 := by
  unfold bit7; simp

theorem bit7_true (b : Byte) : bit7 b = true ↔ 0x80 ≤ b.val := by
  unfold bit7; simp

/-- A scan that meets a high-bit byte between two bytes with bit 7 clear does
not accept the name: a sequence cannot start and end at one byte. -/
theorem scan_isolated : ∀ (l : List Byte) (s : State) (ph : Bool),
    (ph = false → s.k = 0) → nulfree l →
    (∃ i, i < l.length ∧ high l i = true ∧ high l (i + 1) = false ∧
      (if i = 0 then ph = false else high l (i - 1) = false)) →
    scan l s = some .nc_8bit ∨ scan l s = none := by
  intro l
  induction l with
  | nil =>
    rintro s ph _ _ ⟨i, h, _⟩
    simp at h
  | cons b rest ih =>
    rintro s ph hph hnul ⟨i, hlen, h1, h2, h3⟩
    have hb0 : b.val ≠ 0 := hnul b (List.mem_cons_self _ _)
    have hrest : nulfree rest := fun x hx => hnul x (List.mem_cons_of_mem _ hx)
    rw [scan, if_neg hb0]
    cases i with
    | zero =>
      rw [if_pos rfl] at h3
      have hk := hph h3
      rw [high_cons_zero, bit7_true] at h1
      rw [high_cons_succ] at h2
      rcases byte_cases b with hb | hb | hb
      · omega
      · rw [step_continuation_idle s b hb hk]; exact Or.inl rfl
      · rw [step_lead s b hb hk]
        by_cases h7 : (leadloop b.val 7 0 0xe0 0xc0).1 = 7
        · rw [if_pos h7]; exact Or.inl rfl
        · rw [if_neg h7]
          simp only
          have hpos := leadloop_k_pos b
          cases rest with
          | nil =>
            left
            rw [scan, finish, if_pos (by simpa using hpos)]
          | cons c rest' =>
            have hc0 : c.val ≠ 0 := hrest c (List.mem_cons_self _ _)
            rw [high_cons_zero, bit7_false] at h2
            rw [scan, if_neg hc0, step_seven_bit _ c h2, if_pos (Nat.pos_of_ne_zero hpos)]
            exact Or.inl rfl
    | succ j =>
      rw [high_cons_succ] at h1 h2
      rw [if_neg (by omega)] at h3
      simp only [Nat.add_sub_cancel] at h3
      cases hs : step s b with
      | non_utf8 => exact Or.inl rfl
      | undefined => exact Or.inr rfl
      | next s' =>
        simp only
        refine ih s' (bit7 b) ?_ hrest ⟨j, by simpa using hlen, h1, h2, ?_⟩
        · intro hb
          rw [bit7_false] at hb
          rw [step_seven_bit s b hb] at hs
          by_cases hk : s.k > 0
          · rw [if_pos hk] at hs; cases hs
          · rw [if_neg hk] at hs
            injection hs with hs
            rw [← hs]; omega
        · cases j with
          | zero =>
            rw [if_pos rfl]
            rw [high_cons_zero] at h3
            exact h3
          | succ m =>
            rw [if_neg (by omega)]
            rw [high_cons_succ] at h3
            simpa using h3

/-- A name with an isolated high-bit byte is rated `nc_8bit`, unless
`classify` has no defined result on it. -/
theorem classify_isolated (name : List Byte) (hnul : nulfree name) (h : isolated name) :
    classify name = some .nc_8bit ∨ classify name = none := by
  obtain ⟨i, hlen, h1, h2, h3⟩ := h
  refine scan_isolated name _ false (fun _ => rfl) hnul ⟨i, hlen, h1, h2, ?_⟩
  by_cases hi : i = 0
  · rw [if_pos hi]
  · rw [if_neg hi]; exact h3 (by omega)

/-- Every NUL-free line that `classify` rates `nc_ascii` or `nc_utf8` has no
isolated high-bit byte: the window of `mixconv` never is `010` on it, and the
line is written out as it is. -/
theorem accepted_not_recoded (iconv : Iconv) (line : List Byte) (hnul : nulfree line)
    (h : accepts line) :
    ¬ isolated line ∧ window_loop (line ++ [0]) 0 ≠ 2 ∧
      mixconv_line iconv line = some line := by
  have hiso : ¬ isolated line := by
    intro hi
    rcases classify_isolated line hnul hi with h8 | h8 <;>
      rcases h with h | h <;> rw [h8] at h <;> cases h
  have hw : window_loop (line ++ [0]) 0 ≠ 2 := fun hw => hiso ((window_isolated line).1 hw)
  refine ⟨hiso, hw, ?_⟩
  unfold mixconv_line
  rw [if_pos hw, cstr_of_nulfree line hnul]

/-- A name with an isolated high-bit byte and without the byte `fe` is rated
`nc_8bit`. -/
theorem isolated_rated (name : List Byte) (hnul : nulfree name)
    (hfe : ∀ b ∈ name, b.val ≠ 0xfe) (h : isolated name) :
    classify name = some .nc_8bit := by
  rcases classify_isolated name hnul h with h8 | h8
  · exact h8
  · exact absurd h8 (scan_defined name _ (Or.inl rfl) hfe)

/-- A line without NUL bytes and without an isolated high-bit byte is
written out unchanged. -/
theorem mixconv_line_copy (iconv : Iconv) (line : List Byte) (hnul : nulfree line)
    (h : ¬ isolated line) : mixconv_line iconv line = some line := by
  unfold mixconv_line
  rw [if_pos (fun hw => h ((window_isolated line).1 hw)), cstr_of_nulfree line hnul]

/-- A line is copied with `%s` exactly when it has no isolated high-bit
byte, and is handed to the conversion loop otherwise. -/
theorem mixconv_line_cases (iconv : Iconv) (line : List Byte) :
    (isolated line → mixconv_line iconv line = recode iconv (line.length + 1) line) ∧
    (¬ isolated line → mixconv_line iconv line = some (cstr line)) := by
  unfold mixconv_line
  constructor
  · intro h
    rw [if_neg (by simpa using (window_isolated line).2 h)]
  · intro h
    rw [if_pos (fun hw => h ((window_isolated line).1 hw))]

set_option maxRecDepth 100000 in
/-- Claim C15, the failing case. The line `61 00 62 0a` has no high-bit byte,
so it is not recoded, and it is not written out unchanged: `%s` stops at the
NUL byte and writes `61` only. -/
theorem line_cut_at_nul :
    window_loop ([0x61, 0x00, 0x62, 0x0a] ++ [0]) 0 ≠ 2 ∧
    mixconv_line latin1_iconv [0x61, 0x00, 0x62, 0x0a] = some [0x61] ∧
    mixconv latin1_iconv [0x61, 0x00, 0x62, 0x0a, 0x63, 0x0a] = some [0x61, 0x63, 0x0a] := by
  decide

set_option maxRecDepth 100000 in
/-- Claim C19, the failing case. In the name `fe 82 80 80 80 80 80 41 e9 41`
the byte `e9` stands between two bytes with bit 7 clear, and `classify` has no
defined result on it, where the claim gives `nc_8bit`. -/
theorem isolated_undefined :
    nulfree [0xfe, 0x82, 0x80, 0x80, 0x80, 0x80, 0x80, 0x41, 0xe9, 0x41] ∧
    high [0xfe, 0x82, 0x80, 0x80, 0x80, 0x80, 0x80, 0x41, 0xe9, 0x41] 7 = false ∧
    high [0xfe, 0x82, 0x80, 0x80, 0x80, 0x80, 0x80, 0x41, 0xe9, 0x41] 8 = true ∧
    high [0xfe, 0x82, 0x80, 0x80, 0x80, 0x80, 0x80, 0x41, 0xe9, 0x41] 9 = false ∧
    window_loop ([0xfe, 0x82, 0x80, 0x80, 0x80, 0x80, 0x80, 0x41, 0xe9, 0x41] ++ [0]) 0 = 2 ∧
    classify [0xfe, 0x82, 0x80, 0x80, 0x80, 0x80, 0x80, 0x41, 0xe9, 0x41] = none := by
  decide

/-! ## The byte fe as a lead byte -/

set_option maxRecDepth 100000 in
/-- Claim C16, the failing case. On the name `fe bf bf bf bf bf bf` the
scan takes `fe` as the lead byte of six continuation bytes; after five of
them the accumulator holds 30 bits, the sixth shifts it left by 6 and the
top four of the 36 payload bits are lost, and the bit-length loop then needs
the shift `1U << 32`: `classify` has no defined result. -/
theorem accumulator_overflow :
    scan_state [0xfe, 0xbf, 0xbf, 0xbf, 0xbf, 0xbf] { j := 0, k := 0, n8 := 0, codepoint := 0 } =
      some { j := 1, k := 6, n8 := 6, codepoint := 2 ^ 30 - 1 } ∧
    payload 0 [0xbf, 0xbf, 0xbf, 0xbf, 0xbf, 0xbf] = 2 ^ 36 - 1 ∧
    accum 0 [0xbf, 0xbf, 0xbf, 0xbf, 0xbf, 0xbf] = 2 ^ 32 - 1 ∧
    bitloop (2 ^ 32 - 1) 32 0 = none ∧
    step { j := 1, k := 6, n8 := 6, codepoint := 2 ^ 30 - 1 } 0xbf = .undefined ∧
    classify [0xfe, 0xbf, 0xbf, 0xbf, 0xbf, 0xbf, 0xbf] = none := by
  decide

set_option maxRecDepth 100000 in
/-- The lead bytes of `classify`: outside a sequence a byte from `c0` on
starts a sequence exactly when it is not `ff`, and it then expects 1 to 6
continuation bytes, 6 exactly for `fe`. -/
theorem lead_bytes : ∀ b : Byte, 0xc0 ≤ b.val →
    (lead_k b ≠ 7 ↔ b.val ≤ 0xfe) ∧ (lead_k b ≠ 7 → 1 ≤ lead_k b ∧ lead_k b ≤ 6) ∧
    (lead_k b = 6 ↔ b.val = 0xfe) ∧
    (b.val ≤ 0xfe → step { j := 0, k := 0, n8 := 0, codepoint := 0 } b =
      .next { j := lead_k b, k := lead_k b, n8 := 1,
              codepoint := (leadloop b.val 7 0 0xe0 0xc0).2.getD 0 }) := by
  decide

set_option maxRecDepth 100000 in
/-- Claim C17, the failing case. The byte `fe` matches the sixth pattern of
the lead-byte loop (mask `ff`, pattern `fe`) and starts a sequence of six
continuation bytes; only `ff` matches no pattern. `classify` does not return
`nc_8bit` at the byte `fe`: it scans on, accepts six continuation bytes, and
has no defined result on `fe 83 80 80 80 80 80`. -/
theorem lead_byte_fe :
    lead_k 0xfe = 6 ∧
    step { j := 0, k := 0, n8 := 0, codepoint := 0 } 0xfe =
      .next { j := 6, k := 6, n8 := 1, codepoint := 0 } ∧
    lead_k 0xff = 7 ∧
    step { j := 0, k := 0, n8 := 0, codepoint := 0 } 0xff = .non_utf8 ∧
    scan_state [0xfe, 0x83, 0x80, 0x80, 0x80, 0x80]
        { j := 0, k := 0, n8 := 0, codepoint := 0 } =
      some { j := 1, k := 6, n8 := 6, codepoint := 3 * 2 ^ 24 } ∧
    classify [0xfe, 0x83, 0x80, 0x80, 0x80, 0x80, 0x80] = none := by
  decide

/-! ## A renamed name is not renamed again -/

theorem scan_cstr (l : List Byte) : ∀ s : State, scan (cstr l) s = scan l s := by
  induction l with
  | nil => intro s; rfl
  | cons b l ih =>
    intro s
    by_cases hb : b.val = 0
    · rw [cstr_cons_nul b l hb, scan, scan, if_pos hb]
    · rw [cstr_cons b l hb, scan, scan, if_neg hb, if_neg hb]
      cases step s b with
      | next s' => exact ih s'
      | non_utf8 => rfl
      | undefined => rfl

set_option maxRecDepth 1000000 in
/-- The two bytes that replace a Latin-1 byte from 0x80 on are a lead byte
`c2` or `c3` and a continuation byte, and they carry the byte. -/
theorem latin1_pair_back : ∀ b : Byte, 0x80 ≤ b.val →
    ¬ ((toByte (0xC0 ||| (b.val >>> 6))).val < 0x80) ∧
    ((toByte (0xC0 ||| (b.val >>> 6))).val = 0xc2 ∨
      (toByte (0xC0 ||| (b.val >>> 6))).val = 0xc3) ∧
    0x80 ≤ (toByte (0x80 ||| (b.val &&& 0x3F))).val ∧
    (toByte (0x80 ||| (b.val &&& 0x3F))).val < 0xc0 ∧
    toByte (((toByte (0xC0 ||| (b.val >>> 6))).val - 0xc0) * 64 +
      (toByte (0x80 ||| (b.val &&& 0x3F))).val % 64) = b := by
  decide

/-- The reverse transcoding gives back what the forward transcoding was
made from. -/
theorem utf8_to_latin1_low (b : Byte) (rest : List Byte) (hb : b.val < 0x80) :
    utf8_to_latin1 (b :: rest) = (utf8_to_latin1 rest).map (fun r => b :: r) := by
  conv_lhs => rw [utf8_to_latin1.eq_def]
  simp only [if_pos hb]

theorem utf8_to_latin1_pair (b c : Byte) (rest : List Byte) (hb : ¬ b.val < 0x80)
    (hc : (b.val = 0xc2 ∨ b.val = 0xc3) ∧ 0x80 ≤ c.val ∧ c.val < 0xc0) :
    utf8_to_latin1 (b :: c :: rest) =
      (utf8_to_latin1 rest).map (fun r => toByte ((b.val - 0xc0) * 64 + c.val % 64) :: r) := by
  conv_lhs => rw [utf8_to_latin1.eq_def]
  simp only [if_neg hb, if_pos hc]

theorem utf8_to_latin1_back (l : List Byte) :
    utf8_to_latin1 (l.flatMap latin1_bytes) = some l := by
  induction l with
  | nil => rfl
  | cons b l ih =>
    rw [List.flatMap_cons]
    by_cases hb : b.val < 0x80
    · have hl : latin1_bytes b = [b] := by unfold latin1_bytes; rw [if_pos hb]
      rw [hl, List.singleton_append, utf8_to_latin1_low b _ hb, ih]
      rfl
    · obtain ⟨h1, h2, h3, h4, h5⟩ := latin1_pair_back b (by omega)
      have hl : latin1_bytes b =
          [toByte (0xC0 ||| (b.val >>> 6)), toByte (0x80 ||| (b.val &&& 0x3F))] := by
        unfold latin1_bytes; rw [if_neg hb]
      rw [hl]
      show utf8_to_latin1 (toByte (0xC0 ||| (b.val >>> 6)) ::
        toByte (0x80 ||| (b.val &&& 0x3F)) :: l.flatMap latin1_bytes) = some (b :: l)
      rw [utf8_to_latin1_pair _ _ _ h1 ⟨h2, h3, h4⟩, ih, h5]
      rfl

theorem latin1_bytes_nulfree (l : List Byte) (h : nulfree l) :
    nulfree (l.flatMap latin1_bytes) := by
  intro x hx
  rw [List.mem_flatMap] at hx
  obtain ⟨b, hb, hxb⟩ := hx
  have hb0 := h b hb
  unfold latin1_bytes at hxb
  by_cases h7 : b.val < 0x80
  · rw [if_pos h7, List.mem_singleton] at hxb
    rw [hxb]; exact hb0
  · rw [if_neg h7] at hxb
    obtain ⟨_, h2, h3, _, _⟩ := latin1_pair_back b (by omega)
    simp only [List.mem_cons, List.mem_singleton, List.not_mem_nil, or_false] at hxb
    rcases hxb with rfl | rfl
    · rcases h2 with h2 | h2 <;> omega
    · omega

theorem latin1_length_ge (l : List Byte) : l.length ≤ (l.flatMap latin1_bytes).length := by
  induction l with
  | nil => simp
  | cons b l ih =>
    rw [List.flatMap_cons, List.length_append, List.length_cons]
    have : 1 ≤ (latin1_bytes b).length := by
      unfold latin1_bytes
      split <;> simp
    omega

/-- An entry whose final class is `nc_ascii` or `nc_utf8` gets no line
`old -> new` and leaves the file system as it was, whether the iteration
skips it, fails at `lstat` or reaches the rename block. -/
theorem entry_not_planned {FS : Type} (env : Env FS) (o : Options) (w : Walk FS)
    (pathlen : Nat) (name : List Byte) (nc : nameclass)
    (hfin : final_class env.revconv name = some nc) (hnc : nc = .nc_ascii ∨ nc = .nc_utf8) :
    planned w (entry env o w pathlen name) = false ∧
    ∃ w' d, entry env o w pathlen name = some (w', d) ∧ w'.fs = w.fs := by
  cases hskip : skipped env name with
  | true =>
    rw [entry_skipped env o w pathlen name hskip]
    unfold planned
    rw [plan_of_skip]
    exact ⟨rfl, w, none, rfl, rfl⟩
  | false =>
    have hdot : ¬ (cstr name = [0x2e] ∨ cstr name = [0x2e, 0x2e]) := by
      intro hd
      unfold skipped at hskip
      simp [hd] at hskip
    have hexcl : excluded env.excl name = false := by
      unfold skipped at hskip
      simpa [hdot] using hskip
    cases hstat : env.lstat w.fs (entry_path w pathlen name) with
    | none =>
      have he : entry env o w pathlen name =
          some ({ (grown env w pathlen name) with
            pathbuf := entry_path w pathlen name, errcnt := w.errcnt + 1,
            out := w.out ++ [.warn .lstat (entry_path w pathlen name)] }, none) := by
        unfold entry
        rw [if_neg hdot, if_neg (by simp [hexcl])]
        have hfs : (grown env w pathlen name).fs = w.fs := rfl
        simp only [hfs, hstat]
        rfl
      rw [he]
      unfold planned
      rw [plan_of_eq w _ none [.warn .lstat (entry_path w pathlen name)] rfl]
      exact ⟨rfl, _, _, rfl, rfl⟩
    | some isdir =>
      cases hclass : entry_class env.revconv name with
      | none =>
        unfold final_class at hfin
        rw [hclass] at hfin
        cases hfin
      | some r =>
        obtain ⟨nc', utfname⟩ := r
        have hfin' := final_class_eq env.revconv name nc' utfname hclass
        rw [hfin] at hfin'
        injection hfin' with hfin'
        subst hfin'
        obtain ⟨w', d, hent, hcases⟩ :=
          entry_cases env o w pathlen name isdir nc utfname hdot hexcl hstat hclass
        have hgate : ¬ (o.opt_r ≠ 0 ∧ selected o nc = true ∧ (nc = .nc_8bit ∨ nc = .nc_wtf8)) := by
          rintro ⟨_, _, h | h⟩ <;> rcases hnc with h' | h' <;> rw [h] at h' <;> cases h'
        rw [hent]
        unfold planned
        rcases hcases with ⟨_, hp, hfs, _⟩ | ⟨hg, _⟩ | ⟨hg, _⟩
        · rw [hp]
          exact ⟨rfl, w', d, rfl, hfs⟩
        · exact absurd hg hgate
        · exact absurd hg hgate

/-- An entry whose final class is `nc_ascii` or `nc_utf8` gets no line
`old -> new` in any iteration; every defined result leaves the file system as
it was, and the result is defined when `path` points at the buffer. -/
theorem iteration_not_planned {FS : Type} (env : Env FS) (o : Options) (w : Walk FS)
    (pathlen : Nat) (name : List Byte) (path : Nat) (nc : nameclass)
    (hfin : final_class env.revconv name = some nc) (hnc : nc = .nc_ascii ∨ nc = .nc_utf8) :
    planned w (iteration env o w pathlen name path) = false ∧
    (∀ w' d, iteration env o w pathlen name path = some (w', d) → w'.fs = w.fs) ∧
    (path = (grown env w pathlen name).bufaddr →
      ∃ w' d, iteration env o w pathlen name path = some (w', d)) := by
  obtain ⟨hp, w1, d1, he, hfs⟩ := entry_not_planned env o w pathlen name nc hfin hnc
  refine ⟨?_, ?_, ?_⟩
  · cases hit : iteration env o w pathlen name path with
    | none => rfl
    | some r =>
      rw [← iteration_some env o w pathlen name path r hit]
      exact hp
  · intro w' d hit
    have := iteration_some env o w pathlen name path _ hit
    rw [he] at this
    injection this with this
    injection this with h1 _
    rw [← h1]
    exact hfs
  · intro hpath
    rw [iteration_eq env o w pathlen name path hpath]
    exact ⟨w1, d1, he⟩

/-- Claim C21. With the default legacy charset `iso8859-1`, for every entry
name that `classify` rates `nc_8bit`: the forward transcoding succeeds and
gives the candidate name `u` of the rename; `classify` rates `u` `nc_utf8`;
the reverse transcoding of `u` succeeds and gives back the name (its
characters up to the NUL), which is `nc_8bit`; so the final class of `u` is
`nc_utf8`, not `nc_wtf8`, and an iteration of a later walk that meets an
entry named `u` writes no line `old -> new`, whatever the options, the state
of the walk and the local pointer `path`; every defined result of that
iteration leaves the file system as it was, and the result is defined when
`path` points at the buffer. -/
theorem rename_idempotent {FS : Type} (env : Env FS) (o : Options) (w : Walk FS)
    (pathlen : Nat) (name : List Byte)
    (hfwd : env.fwdconv = latin1_to_utf8) (hrev : env.revconv = utf8_to_latin1)
    (h : classify name = some .nc_8bit) :
    ∃ u, convertstr env.fwdconv name = some u ∧ candidate env name = some u ∧
      classify u = some .nc_utf8 ∧
      convertstr env.revconv u = some (cstr name) ∧
      classify (cstr name) = some .nc_8bit ∧
      final_class env.revconv u = some .nc_utf8 ∧
      ∀ path, planned w (iteration env o w pathlen u path) = false ∧
        (∀ w' d, iteration env o w pathlen u path = some (w', d) → w'.fs = w.fs) ∧
        (path = (grown env w pathlen u).bufaddr →
          ∃ w' d, iteration env o w pathlen u path = some (w', d)) := by
  have hhigh : ¬ ∀ b ∈ cstr name, b.val < 0x80 := by
    intro hall
    unfold classify at h
    rw [scan_of_seven_bit name _ rfl rfl hall] at h
    cases h
  have hconv : convertstr latin1_to_utf8 name = some ((cstr name).flatMap latin1_bytes) := by
    unfold convertstr latin1_to_utf8
    simp only
    rw [if_pos (latin1_length (cstr name))]
  have hu : classify ((cstr name).flatMap latin1_bytes) = some .nc_utf8 := by
    unfold classify
    rw [scan_latin1 (cstr name) _ rfl rfl (cstr_nulfree name)]
    simp only [true_and, if_neg hhigh]
  have hfree : nulfree ((cstr name).flatMap latin1_bytes) :=
    latin1_bytes_nulfree _ (cstr_nulfree name)
  have hback : convertstr utf8_to_latin1 ((cstr name).flatMap latin1_bytes) =
      some (cstr name) := by
    unfold convertstr
    rw [cstr_of_nulfree _ hfree, utf8_to_latin1_back]
    simp only
    rw [if_pos (by have := latin1_length_ge (cstr name); omega)]
  have hname : classify (cstr name) = some .nc_8bit := by
    unfold classify at h ⊢
    rw [scan_cstr]
    exact h
  have hfin : final_class utf8_to_latin1 ((cstr name).flatMap latin1_bytes) =
      some .nc_utf8 :=
    (final_class_kept utf8_to_latin1 _ .nc_utf8 hu).2.2 (cstr name) .nc_8bit hback hname
      (by decide)
  have hcand : candidate env name = some ((cstr name).flatMap latin1_bytes) := by
    unfold candidate entry_class
    rw [h]
    simp only [if_neg (show ¬ (nameclass.nc_8bit = nameclass.nc_utf8) by decide)]
    unfold utf_candidate
    rw [hfwd]
    exact hconv
  rw [hfwd, hrev]
  refine ⟨(cstr name).flatMap latin1_bytes, hconv, ?_, hu, hback, hname, hfin, ?_⟩
  · rw [← hfwd, ← hrev] at *
    exact hcand
  · intro path
    exact iteration_not_planned env o w pathlen _ path .nc_utf8 (by rw [hrev]; exact hfin)
      (Or.inr rfl)

set_option maxRecDepth 100000 in
/-- The name `e9` becomes `c3 a9`, and an entry `c3 a9` is not planned. -/
theorem rename_idempotent_witness :
    ∃ u, convertstr (list_env latin1_to_utf8 utf8_to_latin1).fwdconv [0xe9] = some u ∧
      candidate (list_env latin1_to_utf8 utf8_to_latin1) [0xe9] = some u ∧
      classify u = some .nc_utf8 ∧
      convertstr (list_env latin1_to_utf8 utf8_to_latin1).revconv u = some (cstr [0xe9]) ∧
      classify (cstr [0xe9]) = some .nc_8bit ∧
      final_class (list_env latin1_to_utf8 utf8_to_latin1).revconv u = some .nc_utf8 ∧
      ∀ path, planned cafe_walk (iteration (list_env latin1_to_utf8 utf8_to_latin1)
          gate_options cafe_walk 2 u path) = false ∧
        (∀ w' d, iteration (list_env latin1_to_utf8 utf8_to_latin1) gate_options cafe_walk 2 u
          path = some (w', d) → w'.fs = cafe_walk.fs) ∧
        (path = (grown (list_env latin1_to_utf8 utf8_to_latin1) cafe_walk 2 u).bufaddr →
          ∃ w' d, iteration (list_env latin1_to_utf8 utf8_to_latin1) gate_options cafe_walk 2 u
            path = some (w', d)) :=
  rename_idempotent (list_env latin1_to_utf8 utf8_to_latin1) gate_options cafe_walk 2 [0xe9]
    rfl rfl (by decide)

/-! ## Surrogate code points -/

/-- The class of a complete sequence of 2 to 6 bytes that stands alone: it
depends on the value only through the minimum of the length and the bound
U+10FFFF. -/
theorem classify_encode (n v : Nat) (hn : 2 ≤ n) (hn6 : n ≤ 6) (hv : v < 2 ^ (5 * n + 1)) :
    classify (encode n v) =
      some (if v < mincp n ∨ 0x10ffff < v then .nc_8bit else .nc_utf8) := by
  have h := scan_encode n v hn hn6 hv { j := 0, k := 0, n8 := 0, codepoint := 0 } rfl []
  rw [List.append_nil] at h
  unfold classify
  rw [h]
  by_cases hc : v < mincp n ∨ 0x10ffff < v
  · rw [if_pos hc, if_pos hc]
  · rw [if_neg hc, if_neg hc, scan, finish]
    simp only [ne_eq, not_true_eq_false, if_false]
    rw [if_pos (by omega)]

/-- Claim C22. For every code point from U+D800 to U+DFFF, its 3-byte
encoding is `ed` followed by a byte from `a0` to `bf` and a byte from `80` to
`bf`, and `classify` rates it `nc_utf8`. For a complete sequence of any
length from 2 to 6 bytes `classify` rejects the value exactly when it is below
the minimum of that length (overlong) or above U+10FFFF; it makes no other
check on the code point. -/
theorem surrogates_accepted (v : Nat) (hlo : 0xd800 ≤ v) (hhi : v ≤ 0xdfff) :
    utf8_encode v = encode 3 v ∧
    (∃ b1 b2 : Byte, encode 3 v = [0xed, b1, b2] ∧ 0xa0 ≤ b1.val ∧ b1.val ≤ 0xbf ∧
      0x80 ≤ b2.val ∧ b2.val ≤ 0xbf ∧ v = 0xd000 + (b1.val - 0x80) * 64 + (b2.val - 0x80)) ∧
    classify (encode 3 v) = some .nc_utf8 ∧
    ∀ n c, 2 ≤ n → n ≤ 6 → c < 2 ^ (5 * n + 1) →
      (classify (encode n c) = some .nc_8bit ↔ c < mincp n ∨ 0x10ffff < c) ∧
      (classify (encode n c) = some .nc_utf8 ↔ mincp n ≤ c ∧ c ≤ 0x10ffff) := by
  refine ⟨?_, ?_, ?_, ?_⟩
  · unfold utf8_encode
    rw [if_neg (by omega), if_neg (by omega), if_pos (by omega)]
  · refine ⟨contbyte v 1, contbyte v 0, ?_, ?_⟩
    · unfold encode
      have h1 : leadmark 3 + v / 64 ^ (3 - 1) = 0xed := by
        unfold leadmark
        norm_num
        omega
      rw [h1]
      rfl
    · rw [contbyte_val, contbyte_val]
      norm_num
      omega
  · rw [classify_encode 3 v (by norm_num) (by norm_num) (by norm_num; omega)]
    rw [if_neg (by simp only [mincp]; omega)]
  · intro n c hn hn6 hc
    rw [classify_encode n c hn hn6 hc]
    by_cases h : c < mincp n ∨ 0x10ffff < c
    · rw [if_pos h]
      constructor
      · exact ⟨fun _ => h, fun _ => rfl⟩
      · constructor
        · intro h'; cases h'
        · intro h'; omega
    · rw [if_neg h]
      constructor
      · constructor
        · intro h'; cases h'
        · intro h'; exact absurd h' h
      · exact ⟨fun _ => by omega, fun _ => rfl⟩

set_option maxRecDepth 100000 in
/-- The first surrogate, U+D800, is encoded `ed a0 80` and rated `nc_utf8`. -/
theorem surrogates_accepted_witness :
    encode 3 0xd800 = [0xed, 0xa0, 0x80] ∧ classify (encode 3 0xd800) = some .nc_utf8 :=
  ⟨by decide, (surrogates_accepted 0xd800 (by decide) (by decide)).2.2.1⟩

end ConvTools
